import Mathlib

/-!
# vault-gitlab-link: policy resolution and the discovery loop

A shallow embedding of `src/types.go` and `src/main.go`.

Pointers.  `Load` copies `*RepoSpec` pointers between levels (main.go lines 60
and 78) and afterwards writes through them, so `RepoSpec` objects live in a
store (`Heap`) and a `LinkSpec` holds the address of its `RepoSpec`.  No
`*LinkSpec` or `*GroupSpec` pointer is ever copied into a second owner, so
those objects are held by value inside the tree, and an update in place is a
new tree.  `*vault.TokenCreateRequest` objects are shared but never written,
so they are held by value as well.

Maps.  A Go map is a list of key/value pairs; the order of the list is the
order in which `range` visits the entries, and a lookup takes the first pair
with the key.  The functions do not require the keys to be distinct.

Libraries.  `time.ParseDuration` is a parameter `parses` of the functions that
call it; `parseDurationOk` is its grammar, used for the concrete inputs.  The
platform client and the secret issuer are records of functions that are given
the events so far, so that an answer may depend on the whole history.

The process.  `main` calls `UpdateCron` in a loop; the scheduler runs the
closures given to `Cron.AddFunc` on its own.  A run is a sequence of steps,
each a tick or the firing of one scheduled entry.

The loop variable.  The closure of lines 163-170 refers to the variable
`project` of the `for` statement at line 145.  What that variable is depends
on the version of the language the program is built as: from Go 1.22 on, each
round of the loop has a variable of its own; before, the statement has one
variable for all its rounds.  The sources do not fix the version, so the
functions of the loop take it as a parameter (`LoopVar`), and the properties
are stated for both or name the one they hold for.
-/

namespace VaultGitlabLink

/-! ## Data model (types.go) -/

/-- RepoSpec of types.go lines 6-13; `Enabled` is a `*bool`, nil is `none`. -/
structure RepoSpec where
  BuildKey : String
  Enabled : Option Bool
  RenewPeriod : String
deriving DecidableEq, Repr

/-- The zero value of `RepoSpec`, which the decoder starts every object from. -/
def RepoSpec.zero : RepoSpec := { BuildKey := "", Enabled := none, RenewPeriod := "" }

/-- The request type of the vault client library, `vault.TokenCreateRequest`.
The type is declared by the library; the program only forwards it, so a few
of its fields stand for the whole record. -/
structure TokenCreateRequest where
  Policies : List String
  TTL : String
  DisplayName : String
  NumUses : Int
deriving DecidableEq, Repr

/-- The store of `RepoSpec` objects; an address is an index. -/
abbrev Heap := List RepoSpec

/-- LinkSpec of types.go lines 16-19.  `RepositorySpec` is the address of a
`RepoSpec` in the store, or nil. -/
structure LinkSpec where
  RepositorySpec : Option Nat
  TokenSpec : Option TokenCreateRequest
deriving DecidableEq, Repr

/-- GroupSpec of types.go lines 22-25: `Default *LinkSpec` and
`Projects map[string]*LinkSpec`. -/
structure GroupSpec where
  Default : Option LinkSpec
  Projects : List (String × Option LinkSpec)
deriving DecidableEq, Repr

/-- GlobalSpec of types.go lines 27-30: `Default *LinkSpec` and
`Groups map[string]*GroupSpec`.  A nil map is the empty list. -/
structure GlobalSpec where
  Default : Option LinkSpec
  Groups : List (String × Option GroupSpec)
deriving DecidableEq, Repr

/-- A Go panic: an explicit `panic(...)` with its message, or one of the two
run-time errors the program can raise. -/
inductive Panic where
  | message (text : String)
  | nilDereference
  | indexOutOfRange
deriving DecidableEq, Repr

deriving instance DecidableEq for Except

/-- What the program does to the outside, in order: the calls to the platform
and to the secret issuer, and the lines it logs.  `tokenCreate` carries the
value `project.ID` has when the call is made. -/
inductive Event where
  | listGroups
  | listGroupProjects (group : Int)
  | tokenCreate (project : Int) (spec : Option TokenCreateRequest)
  | updateBuildVariable (project : Int) (key value : String)
  | createBuildVariable (project : Int) (key value : String)
  | logError (text : String)
  | logInfo (text : String)
deriving DecidableEq, Repr

/-! ## The store -/

/-- Reading the object at an address. -/
def Heap.read (h : Heap) (a : Nat) : RepoSpec := h.getD a RepoSpec.zero

/-- Overwriting the object at an address. -/
def Heap.write (h : Heap) (a : Nat) (v : RepoSpec) : Heap := h.set a v

/-! ## Durations -/

/-- The units `time.ParseDuration` knows. -/
def durationUnits : List (List Char) :=
  ["ns".data, "us".data, "µs".data, "μs".data, "ms".data, "s".data, "m".data, "h".data]

/-- Is the character a decimal digit. -/
def isDigit (c : Char) : Bool := decide ('0' ≤ c) && decide (c ≤ '9')

/-- The loop of `time.ParseDuration` over `([0-9]*(\.[0-9]*)?[a-z]+)+`: each
round reads digits, an optional fraction and a unit.  `fuel` bounds the number
of rounds; every round consumes at least one character. -/
def durationTerms : Nat → List Char → Bool
  | 0, _ => false
  | fuel + 1, s =>
    let pre := s.takeWhile isDigit
    let s1 := s.dropWhile isDigit
    let frac := match s1 with
      | '.' :: r => some r
      | _ => none
    let post := match frac with
      | some r => r.takeWhile isDigit
      | none => []
    let s2 := match frac with
      | some r => r.dropWhile isDigit
      | none => s1
    if pre.isEmpty && post.isEmpty then false
    else
      let isUnitChar := fun c => !(c == '.' || isDigit c)
      let u := s2.takeWhile isUnitChar
      let s3 := s2.dropWhile isUnitChar
      if u.isEmpty then false
      else if !(durationUnits.contains u) then false
      else if s3.isEmpty then true
      else durationTerms fuel s3

/-- Which strings Go's library function `time.ParseDuration` accepts, by its
grammar `[-+]?([0-9]*(\.[0-9]*)?[a-z]+)+` with the special case "0".  The
library also rejects values that overflow 64 bits; that is left out. -/
def parseDurationOk (s : String) : Bool :=
  let body := match s.data with
    | '-' :: r => r
    | '+' :: r => r
    | r => r
  if body = ['0'] then true
  else if body.isEmpty then false
  else durationTerms body.length body

/-! ## Load (main.go lines 24-96) -/

/-- CheckPanic, main.go lines 24-28: a non-nil error is a panic. -/
def CheckPanic (err : Option String) : Except Panic Unit :=
  match err with
  | some e => .error (.message e)
  | none => .ok ()

/-- CheckError, main.go lines 131-135: a non-nil error is logged, and the
caller goes on. -/
def CheckError (err : Option String) (log : List Event) : List Event :=
  match err with
  | some e => log ++ [.logError e]
  | none => log

/-- The error value of `time.ParseDuration(s)`, given which strings parse. -/
def parseDurationErr (parses : String → Bool) (s : String) : Option String :=
  if parses s then none else some ("time: invalid duration " ++ s)

/-- Lines 65-73 for a group, 83-91 for a project: each unset field of the
object at `c` is assigned from the object at `p`.  Every read is from the
store as it is at that statement, so `c = p` is the aliased case. -/
def fillUnset (h : Heap) (c p : Nat) : Heap :=
  let h1 := if (h.read c).BuildKey = "" then
      h.write c { h.read c with BuildKey := (h.read p).BuildKey } else h
  let h2 := if (h1.read c).Enabled = none then
      h1.write c { h1.read c with Enabled := (h1.read p).Enabled } else h1
  if (h2.read c).RenewPeriod = "" then
    h2.write c { h2.read c with RenewPeriod := (h2.read p).RenewPeriod } else h2

/-- The state `Load` threads through its loops: the store and the error log. -/
structure LoadState where
  heap : Heap
  log : List Event
deriving DecidableEq, Repr

/-- Lines 59-75 for a group default and lines 77-93 for a project, which are
the same statements: `p` and `pts` are the parent's `RepositorySpec` (already
known to be non-nil) and `TokenSpec`.  A nil `RepositorySpec` becomes the
parent's pointer, a nil `TokenSpec` the parent's, unset fields are filled, and
the duration is parsed with the error only logged. -/
def mergeLink (parses : String → Bool) (p : Nat) (pts : Option TokenCreateRequest)
    (st : LoadState) (ls : LinkSpec) : LoadState × LinkSpec :=
  let c := match ls.RepositorySpec with
    | none => p
    | some a => a
  let ts := match ls.TokenSpec with
    | none => pts
    | some t => some t
  let h := fillUnset st.heap c p
  let log := CheckError (parseDurationErr parses (h.read c).RenewPeriod) st.log
  ({ heap := h, log := log }, { RepositorySpec := some c, TokenSpec := ts })

/-- The inner loop, lines 76-94, over the projects of a group whose merged
default has `RepositorySpec` at `p` and `TokenSpec` `pts`.  A nil project
pointer is a nil dereference at line 77. -/
def loadProjects (parses : String → Bool) (p : Nat) (pts : Option TokenCreateRequest) :
    LoadState → List (String × Option LinkSpec) →
    Except Panic (LoadState × List (String × Option LinkSpec))
  | st, [] => .ok (st, [])
  | _, (_, none) :: _ => .error .nilDereference
  | st, (name, some project) :: rest =>
    let r := mergeLink parses p pts st project
    match loadProjects parses p pts r.1 rest with
    | .error e => .error e
    | .ok (st2, rest2) => .ok (st2, (name, some r.2) :: rest2)

/-- One round of the outer loop, lines 59-94, for one group.  A nil group
pointer or a nil `Default` is a nil dereference at line 59. -/
def loadGroup (parses : String → Bool) (p : Nat) (pts : Option TokenCreateRequest)
    (st : LoadState) (group : Option GroupSpec) : Except Panic (LoadState × GroupSpec) :=
  match group with
  | none => .error .nilDereference
  | some g =>
    match g.Default with
    | none => .error .nilDereference
    | some d =>
      let r := mergeLink parses p pts st d
      let c := match r.2.RepositorySpec with
        | none => p
        | some a => a
      match loadProjects parses c r.2.TokenSpec r.1 g.Projects with
      | .error e => .error e
      | .ok (st2, projects) => .ok (st2, { Default := some r.2, Projects := projects })

/-- The outer loop, lines 58-95. -/
def loadGroups (parses : String → Bool) (p : Nat) (pts : Option TokenCreateRequest) :
    LoadState → List (String × Option GroupSpec) →
    Except Panic (LoadState × List (String × Option GroupSpec))
  | st, [] => .ok (st, [])
  | st, (name, group) :: rest =>
    match loadGroup parses p pts st group with
    | .error e => .error e
    | .ok (st1, g1) =>
      match loadGroups parses p pts st1 rest with
      | .error e => .error e
      | .ok (st2, rest2) => .ok (st2, (name, some g1) :: rest2)

/-- What `Load` leaves behind when it returns: the store, the tree and the
errors it logged. -/
structure Loaded where
  heap : Heap
  spec : GlobalSpec
  log : List Event
deriving DecidableEq, Repr

/-- Lines 35-96 of `Load`, on the object graph the decoder built.  The early
return of lines 54-56 for a nil group map is the loop over the empty list. -/
def loadSpec (parses : String → Bool) (h : Heap) (gs : GlobalSpec) : Except Panic Loaded :=
  match gs.Default with
  | none => .error .nilDereference
  | some d =>
    match d.RepositorySpec with
    | none => .error (.message "RepositorySpec should be present in the default spec")
    | some p =>
      if (h.read p).BuildKey = "" then
        .error (.message "BuildKey should be present in the default spec")
      else if (h.read p).Enabled = none then
        .error (.message "Enabled should be present in the default spec")
      else if (h.read p).RenewPeriod = "" then
        .error (.message "RenewPeriod should be present in the default spec")
      else
        let log := CheckError (parseDurationErr parses (h.read p).RenewPeriod) []
        match d.TokenSpec with
        | none => .error (.message "TokenSpec should be present in the default spec")
        | some ts =>
          match loadGroups parses p (some ts) { heap := h, log := log } gs.Groups with
          | .error e => .error e
          | .ok (st, groups) =>
            .ok { heap := st.heap, spec := { Default := some d, Groups := groups }, log := st.log }

/-- Load, main.go lines 30-96.  `data` is what reading and decoding the file
gave: an error (fatal through `CheckPanic`, lines 31-34) or the decoded object
graph, a store and a tree. -/
def Load (parses : String → Bool) (data : Except String (Heap × GlobalSpec)) :
    Except Panic Loaded :=
  match data with
  | .error err =>
    match CheckPanic (some err) with
    | .error e => .error e
    | .ok _ => .error (.message err)
  | .ok (h, gs) => loadSpec parses h gs

/-! ## GetSpecForPath (main.go lines 98-109) -/

/-- The pieces of a character list between the occurrences of '/'. -/
def splitSlash : List Char → List (List Char)
  | [] => [[]]
  | c :: cs =>
    if c = '/' then [] :: splitSlash cs
    else
      match splitSlash cs with
      | [] => [[c]]
      | seg :: segs => (c :: seg) :: segs

/-- The library call `strings.Split(path, "/")` of line 99. -/
def Split (path : String) : List String := (splitSlash path.data).map String.mk

/-- GetSpecForPath, main.go lines 98-109.  The result is the `*LinkSpec`
returned, which may be nil; `parts[1]` is out of range for a path with one
part, and `group.Default` is a nil dereference for a nil group pointer. -/
def GetSpecForPath (gs : GlobalSpec) (path : String) : Except Panic (Option LinkSpec) :=
  match Split path with
  | groupName :: projectName :: _ =>
    match gs.Groups.lookup groupName with
    | some group =>
      match group with
      | none => .error .nilDereference
      | some g =>
        match g.Projects.lookup projectName with
        | some project => .ok project
        | none => .ok g.Default
    | none => .ok gs.Default
  | _ => .error .indexOutOfRange

/-! ## The platform, the secret issuer and the scheduler -/

/-- The part of `gitlab.Group` the program reads. -/
structure Group where
  ID : Int
deriving DecidableEq, Repr

/-- The part of `gitlab.Project` the program reads. -/
structure Project where
  ID : Int
  PathWithNamespace : String
deriving DecidableEq, Repr

/-- The platform client `gc`.  Each operation is given the events so far, so
its answer may depend on everything that happened before the call; an error
is `Except.error` for the listings, which then return a nil slice, and
`some` for the two writes. -/
structure GitlabClient where
  ListGroups : List Event → Except String (List Group)
  ListGroupProjects : List Event → Int → Except String (List Project)
  UpdateBuildVariable : List Event → Int → String → String → Option String
  CreateBuildVariable : List Event → Int → String → String → Option String

/-- The secret issuer `vc`: `vc.Auth().Token().Create(spec)` gives an error
or the client token of the secret. -/
structure VaultClient where
  Create : List Event → Option TokenCreateRequest → Except String String

/-- How the `for` statement of line 145 declares its variable `project`:
one new variable for each round (Go 1.22 and later), or one variable for all
the rounds of the statement (earlier versions). -/
inductive LoopVar where
  | perIteration
  | shared
deriving DecidableEq, Repr

/-- A function given to `Cron.AddFunc` at line 163: its schedule, and what
the closure of lines 163-170 refers to.  `link` is declared inside the loop
body, one per round; `project` is the variable of the `for` statement, and
the closure holds the variable (`projectVar`, an index into
`CronState.vars`), not the value.  `addedFor` is `project.ID` at the time of
the `AddFunc` call. -/
structure Job where
  schedule : String
  link : LinkSpec
  projectVar : Nat
  addedFor : Int
deriving DecidableEq, Repr

/-- The mutable state of the running process: the keys of `CronMap`
(main.go line 113; every stored value is `true`), the entries of `Cron`
(line 111), the `project` variables declared by the inner loop so far, and
the events so far. -/
structure CronState where
  CronMap : List Int
  Cron : List Job
  vars : List Project
  trace : List Event
deriving DecidableEq, Repr

/-- The state `init()` leaves, lines 125-129. -/
def CronState.init : CronState := { CronMap := [], Cron := [], vars := [], trace := [] }

/-- How a piece of `UpdateCron` ends: it goes on, it executed the `return`
of line 159, or it panicked. -/
inductive Flow where
  | next
  | returned
  | panicked (p : Panic)
deriving DecidableEq, Repr

/-- The library call `Cron.AddFunc(spec, cmd)` with `spec` of the form
"@every " followed by `period`: the scheduler parses the period with
`time.ParseDuration` and adds the entry only when that succeeds; the error it
returns otherwise is dropped at line 163. -/
def AddFunc (parses : String → Bool) (cron : List Job) (period : String) (cmd : Job) : List Job :=
  if parses period then cron ++ [cmd] else cron

/-! ## UpdateToken (main.go lines 175-191) -/

/-- UpdateToken, main.go lines 176-191, as the events it appends. -/
def UpdateToken (gc : GitlabClient) (projectId : Int) (buildKey token : String)
    (tr : List Event) : List Event :=
  let tr1 := tr ++ [.updateBuildVariable projectId buildKey token]
  match gc.UpdateBuildVariable tr projectId buildKey token with
  | none => tr1 ++ [.logInfo (buildKey ++ " Updated for project " ++ toString projectId)]
  | some err =>
    let tr2 := CheckError (some err) tr1
    let tr3 := tr2 ++ [.createBuildVariable projectId buildKey token]
    match gc.CreateBuildVariable tr2 projectId buildKey token with
    | none => tr3 ++ [.logInfo (buildKey ++ " Created for project " ++ toString projectId)]
    | some err2 => CheckError (some err2) tr3

/-! ## UpdateCron (main.go lines 137-173) -/

/-- The variables after the entry into the `for` statement of line 145: with
one variable for the whole statement it comes into being here; with one per
round nothing is declared yet. -/
def enterLoop (lv : LoopVar) (vars : List Project) : List Project :=
  match lv with
  | .perIteration => vars
  | .shared => vars ++ [{ ID := 0, PathWithNamespace := "" }]

/-- The start of a round of the `for` statement of line 145 for the element
`project`: the variables afterwards, and the index of the variable that
`project` names in this round.  With one variable per round a new one is
declared, holding the element; with one for the whole statement the element
is assigned to it (`v` is its index). -/
def beginRound (lv : LoopVar) (v : Nat) (vars : List Project) (project : Project) :
    List Project × Nat :=
  match lv with
  | .perIteration => (vars ++ [project], vars.length)
  | .shared => (vars.set v project, v)

/-- One round of the inner loop, lines 145-171, for the element `project`;
`v` is the index of the statement's `project` variable when there is one for
all rounds. -/
def visitProject (lv : LoopVar) (parses : String → Bool) (gc : GitlabClient)
    (vc : VaultClient) (h : Heap) (gs : GlobalSpec) (v : Nat) (st : CronState)
    (project : Project) : CronState × Flow :=
  let w := (beginRound lv v st.vars project).2
  let st := { st with vars := (beginRound lv v st.vars project).1 }
  match GetSpecForPath gs project.PathWithNamespace with
  | .error p => (st, .panicked p)
  | .ok none => (st, .panicked .nilDereference)
  | .ok (some link) =>
    match link.RepositorySpec with
    | none => (st, .panicked .nilDereference)
    | some a =>
      match (h.read a).Enabled with
      | none => (st, .panicked .nilDereference)
      | some false => (st, .next)
      | some true =>
        if project.ID ∈ st.CronMap then (st, .next)
        else
          let st := { st with CronMap := project.ID :: st.CronMap }
          let tr := st.trace ++ [.tokenCreate project.ID link.TokenSpec]
          match vc.Create st.trace link.TokenSpec with
          | .error vaultErr => ({ st with trace := tr ++ [.logError vaultErr] }, .returned)
          | .ok token =>
            let tr2 := UpdateToken gc project.ID (h.read a).BuildKey token tr
            let cmd : Job := { schedule := "@every " ++ (h.read a).RenewPeriod, link := link,
                               projectVar := w, addedFor := project.ID }
            ({ st with trace := tr2, Cron := AddFunc parses st.Cron (h.read a).RenewPeriod cmd },
              .next)

/-- The inner loop, lines 145-171. -/
def visitProjects (lv : LoopVar) (parses : String → Bool) (gc : GitlabClient)
    (vc : VaultClient) (h : Heap) (gs : GlobalSpec) (v : Nat) :
    CronState → List Project → CronState × Flow
  | st, [] => (st, .next)
  | st, project :: rest =>
    match visitProject lv parses gc vc h gs v st project with
    | (st1, .next) => visitProjects lv parses gc vc h gs v st1 rest
    | r => r

/-- Lines 142-143 and the entry into the inner loop: the projects of the
group are listed, a failed listing is logged by `CheckError` and leaves
`projects` nil, and the `for` statement is entered. -/
def listProjects (lv : LoopVar) (gc : GitlabClient) (st : CronState) (group : Group) :
    CronState × List Project :=
  let tr1 := st.trace ++ [.listGroupProjects group.ID]
  let vars := enterLoop lv st.vars
  match gc.ListGroupProjects st.trace group.ID with
  | .ok projects => ({ st with trace := tr1, vars := vars }, projects)
  | .error err => ({ st with trace := CheckError (some err) tr1, vars := vars }, [])

/-- The outer loop, lines 141-172. -/
def visitGroups (lv : LoopVar) (parses : String → Bool) (gc : GitlabClient)
    (vc : VaultClient) (h : Heap) (gs : GlobalSpec) :
    CronState → List Group → CronState × Flow
  | st, [] => (st, .next)
  | st, group :: rest =>
    match visitProjects lv parses gc vc h gs st.vars.length (listProjects lv gc st group).1
        (listProjects lv gc st group).2 with
    | (st2, .next) => visitGroups lv parses gc vc h gs st2 rest
    | r => r

/-- Lines 139-140: the groups are listed; a failed listing is logged by
`CheckError` and leaves `groups` nil. -/
def listGroups (gc : GitlabClient) (st : CronState) : CronState × List Group :=
  let tr1 := st.trace ++ [.listGroups]
  match gc.ListGroups st.trace with
  | .ok groups => ({ st with trace := tr1 }, groups)
  | .error err => ({ st with trace := CheckError (some err) tr1 }, [])

/-- UpdateCron, main.go lines 137-173: one discovery tick.  `h` and `gs` are
the store and tree `Load` left. -/
def UpdateCron (lv : LoopVar) (parses : String → Bool) (gc : GitlabClient)
    (vc : VaultClient) (h : Heap) (gs : GlobalSpec) (st : CronState) : CronState × Flow :=
  visitGroups lv parses gc vc h gs (listGroups gc st).1 (listGroups gc st).2

/-- The closure of lines 163-170, run by the scheduler: `project` is read
from the variable the closure holds, which is the variable of its own round
or the one of the whole statement, as the round declared it (`beginRound`). -/
def fire (gc : GitlabClient) (vc : VaultClient) (h : Heap) (st : CronState) (job : Job) :
    CronState × Flow :=
  let project := st.vars.getD job.projectVar { ID := 0, PathWithNamespace := "" }
  let tr := st.trace ++ [.tokenCreate project.ID job.link.TokenSpec]
  match vc.Create st.trace job.link.TokenSpec with
  | .error vaultErr => ({ st with trace := tr ++ [.logError vaultErr] }, .next)
  | .ok token =>
    match job.link.RepositorySpec with
    | none => ({ st with trace := tr }, .panicked .nilDereference)
    | some a => ({ st with trace := UpdateToken gc project.ID (h.read a).BuildKey token tr }, .next)

/-- What happens next in the process: the loop of `main` (lines 207-211)
calls `UpdateCron`, or the scheduler runs the entry with the given index. -/
inductive Step where
  | tick
  | fire (entry : Nat)
deriving DecidableEq, Repr

/-- One step of the process. -/
def step (lv : LoopVar) (parses : String → Bool) (gc : GitlabClient) (vc : VaultClient)
    (h : Heap) (gs : GlobalSpec) (st : CronState) : Step → CronState × Flow
  | .tick => UpdateCron lv parses gc vc h gs st
  | .fire i =>
    match st.Cron.get? i with
    | none => (st, .next)
    | some job => fire gc vc h st job

/-- A run of the process: the steps in order, stopping at a panic. -/
def run (lv : LoopVar) (parses : String → Bool) (gc : GitlabClient) (vc : VaultClient)
    (h : Heap) (gs : GlobalSpec) : CronState → List Step → CronState × Flow
  | st, [] => (st, .next)
  | st, s :: rest =>
    match step lv parses gc vc h gs st s with
    | (st1, .panicked p) => (st1, .panicked p)
    | (st1, _) => run lv parses gc vc h gs st1 rest

/-! ## Definitions used to state the properties -/

/-- One level of inheritance on values: each field of `own` that is unset is
taken from `parent`. -/
def inherit (own parent : RepoSpec) : RepoSpec :=
  { BuildKey := if own.BuildKey = "" then parent.BuildKey else own.BuildKey
    Enabled := match own.Enabled with
      | none => parent.Enabled
      | some b => some b
    RenewPeriod := if own.RenewPeriod = "" then parent.RenewPeriod else own.RenewPeriod }

/-- The precedence rule as the specification words it, field by field: the
project's own value if the project set the field, otherwise the group
default's if the group set it, otherwise the global default's. -/
def precedence (project group global : RepoSpec) : RepoSpec :=
  { BuildKey :=
      if project.BuildKey ≠ "" then project.BuildKey
      else if group.BuildKey ≠ "" then group.BuildKey
      else global.BuildKey
    Enabled :=
      if project.Enabled ≠ none then project.Enabled
      else if group.Enabled ≠ none then group.Enabled
      else global.Enabled
    RenewPeriod :=
      if project.RenewPeriod ≠ "" then project.RenewPeriod
      else if group.RenewPeriod ≠ "" then group.RenewPeriod
      else global.RenewPeriod }

/-- The whole-unit rule for `TokenSpec` as the specification words it: the
project's if it is non-nil, otherwise the group default's if that is
non-nil, otherwise the global default's. -/
def tokenPrecedence (project group global : Option TokenCreateRequest) :
    Option TokenCreateRequest :=
  match project with
  | some t => some t
  | none =>
    match group with
    | some t => some t
    | none => global

/-- The fields a `LinkSpec` sets itself in the decoded document: those of its
own `RepoSpec` object, and none when `RepositorySpec` is nil. -/
def ownSpec (h : Heap) (ls : LinkSpec) : RepoSpec :=
  match ls.RepositorySpec with
  | none => RepoSpec.zero
  | some a => h.read a

/-- The `RepositorySpec` address of a `*LinkSpec`, if it has one. -/
def linkPtrs (ls : Option LinkSpec) : List Nat :=
  match ls with
  | some l => l.RepositorySpec.toList
  | none => []

/-- The `RepositorySpec` addresses held by the projects of a group. -/
def projectsPtrs : List (String × Option LinkSpec) → List Nat
  | [] => []
  | e :: rest => linkPtrs e.2 ++ projectsPtrs rest

/-- The `RepositorySpec` addresses held by a group. -/
def groupPtrs (group : Option GroupSpec) : List Nat :=
  match group with
  | none => []
  | some g => linkPtrs g.Default ++ projectsPtrs g.Projects

/-- The `RepositorySpec` addresses held by a list of groups. -/
def groupsPtrs : List (String × Option GroupSpec) → List Nat
  | [] => []
  | e :: rest => groupPtrs e.2 ++ groupsPtrs rest

/-- Every `RepositorySpec` address of the tree, in document order. -/
def specPtrs (gs : GlobalSpec) : List Nat := linkPtrs gs.Default ++ groupsPtrs gs.Groups

/-- The object graph is one a decoder builds: every `RepositorySpec` pointer
of the tree is to an allocated object of its own. -/
def Decoded (h : Heap) (gs : GlobalSpec) : Prop :=
  (specPtrs gs).Nodup ∧ ∀ a ∈ specPtrs gs, a < h.length

instance (h : Heap) (gs : GlobalSpec) : Decidable (Decoded h gs) := by
  unfold Decoded; infer_instance

/-- The `LinkSpec` a merge against a parent leaves: lines 59-64 and 77-82 on
the two pointer fields. -/
def mergedLink (p : Nat) (pts : Option TokenCreateRequest) (ls : LinkSpec) : LinkSpec :=
  { RepositorySpec := some (ls.RepositorySpec.getD p)
    TokenSpec := match ls.TokenSpec with
      | none => pts
      | some t => some t }

/-- The project map of a group after the merge against the group default. -/
def mergedProjects (p : Nat) (pts : Option TokenCreateRequest) :
    List (String × Option LinkSpec) → List (String × Option LinkSpec)
  | [] => []
  | e :: rest => (e.1, e.2.map (mergedLink p pts)) :: mergedProjects p pts rest

/-- A group after the merge against the global default. -/
def mergedGroup (p : Nat) (pts : Option TokenCreateRequest) (g : GroupSpec) : GroupSpec :=
  match g.Default with
  | none => g
  | some d =>
    { Default := some (mergedLink p pts d)
      Projects := mergedProjects (d.RepositorySpec.getD p) (mergedLink p pts d).TokenSpec
        g.Projects }

/-- The group map after the merge. -/
def mergedGroups (p : Nat) (pts : Option TokenCreateRequest) :
    List (String × Option GroupSpec) → List (String × Option GroupSpec)
  | [] => []
  | e :: rest => (e.1, e.2.map (mergedGroup p pts)) :: mergedGroups p pts rest

/-- What the store holds at address `a` once a group has been merged, in
terms of the store `h` before: the objects of its projects inherit from the
merged group default, the group default's own object from the parent at `p`,
and every other object is as it was. -/
def expectGroup (h : Heap) (p : Nat) (g : GroupSpec) (a : Nat) : RepoSpec :=
  match g.Default with
  | none => h.read a
  | some d =>
    if a ∈ projectsPtrs g.Projects then
      inherit (h.read a) (inherit (ownSpec h d) (h.read p))
    else if a ∈ linkPtrs (some d) then inherit (h.read a) (h.read p)
    else h.read a

/-- Every field of the `RepoSpec` is set. -/
def RepoSpec.complete (r : RepoSpec) : Prop :=
  r.BuildKey ≠ "" ∧ r.Enabled ≠ none ∧ r.RenewPeriod ≠ ""

/-- The outcome of a loop of `Load` without the log: the panic, or the store
and the tree. -/
def loopOutcome {α : Type} (r : Except Panic (LoadState × α)) : Except Panic (Heap × α) :=
  match r with
  | .error e => .error e
  | .ok x => .ok (x.1.heap, x.2)

/-- The outcome of `Load` without the log: the panic, or the store and the
tree. -/
def loadOutcome (r : Except Panic Loaded) : Except Panic (Heap × GlobalSpec) :=
  match r with
  | .error e => .error e
  | .ok ld => .ok (ld.heap, ld.spec)

/-- The name has no path separator in it. -/
def noSlash (s : String) : Prop := '/' ∉ s.data

instance (s : String) : Decidable (noSlash s) := by
  unfold noSlash; infer_instance

/-! ## Example inputs -/

/-- The global default's token request in the examples. -/
def ciToken : TokenCreateRequest :=
  { Policies := ["ci"], TTL := "2h", DisplayName := "ci", NumUses := 0 }

/-- A group's own token request in the examples. -/
def infraToken : TokenCreateRequest :=
  { Policies := ["infra"], TTL := "45m", DisplayName := "infra", NumUses := 0 }

/-- The store of the inheritance example: the global default's object at 0
(`renewPeriod` "1h"), the object of group "infra" at 1 (only `renewPeriod`
"30m"), the object of project "api" at 2 (only `renewPeriod` "10m"). -/
def exHeap : Heap :=
  [ { BuildKey := "VAULT_TOKEN", Enabled := some true, RenewPeriod := "1h" },
    { BuildKey := "", Enabled := none, RenewPeriod := "30m" },
    { BuildKey := "", Enabled := none, RenewPeriod := "10m" } ]

/-- The tree of the inheritance example: group "infra" overrides the period
and the token request, its project "app" sets nothing, its project "api"
sets the period. -/
def exSpec : GlobalSpec :=
  { Default := some { RepositorySpec := some 0, TokenSpec := some ciToken }
    Groups :=
      [ ("infra", some
          { Default := some { RepositorySpec := some 1, TokenSpec := some infraToken }
            Projects :=
              [ ("app", some { RepositorySpec := none, TokenSpec := none }),
                ("api", some { RepositorySpec := some 2, TokenSpec := none }) ] }) ] }

/-- The store of the example with a group key that has a separator in it. -/
def slashHeap : Heap :=
  [ { BuildKey := "VAULT_TOKEN", Enabled := some true, RenewPeriod := "1h" },
    { BuildKey := "", Enabled := none, RenewPeriod := "30m" } ]

/-- A tree whose only group has the key "a/b" (the full path of a subgroup),
with its own period and token request, and one project "p" that sets
nothing. -/
def slashSpec : GlobalSpec :=
  { Default := some { RepositorySpec := some 0, TokenSpec := some ciToken }
    Groups :=
      [ ("a/b", some
          { Default := some { RepositorySpec := some 1, TokenSpec := some infraToken }
            Projects := [ ("p", some { RepositorySpec := none, TokenSpec := none }) ] }) ] }

/-- What `Load` leaves for the inheritance example. -/
def exLoaded : Loaded :=
  { heap :=
      [ { BuildKey := "VAULT_TOKEN", Enabled := some true, RenewPeriod := "1h" },
        { BuildKey := "VAULT_TOKEN", Enabled := some true, RenewPeriod := "30m" },
        { BuildKey := "VAULT_TOKEN", Enabled := some true, RenewPeriod := "10m" } ]
    spec :=
      { Default := some { RepositorySpec := some 0, TokenSpec := some ciToken }
        Groups :=
          [ ("infra", some
              { Default := some { RepositorySpec := some 1, TokenSpec := some infraToken }
                Projects :=
                  [ ("app", some { RepositorySpec := some 1, TokenSpec := some infraToken }),
                    ("api", some { RepositorySpec := some 2, TokenSpec := some infraToken }) ] }) ] }
    log := [] }

/-- The group "infra" of the inheritance example, as decoded. -/
def exGroup : GroupSpec :=
  { Default := some { RepositorySpec := some 1, TokenSpec := some infraToken }
    Projects :=
      [ ("app", some { RepositorySpec := none, TokenSpec := none }),
        ("api", some { RepositorySpec := some 2, TokenSpec := none }) ] }

/-- What `Load` leaves for the tree with the group key "a/b". -/
def slashLoaded : Loaded :=
  { heap :=
      [ { BuildKey := "VAULT_TOKEN", Enabled := some true, RenewPeriod := "1h" },
        { BuildKey := "VAULT_TOKEN", Enabled := some true, RenewPeriod := "30m" } ]
    spec :=
      { Default := some { RepositorySpec := some 0, TokenSpec := some ciToken }
        Groups :=
          [ ("a/b", some
              { Default := some { RepositorySpec := some 1, TokenSpec := some infraToken }
                Projects := [ ("p", some { RepositorySpec := some 1, TokenSpec := some infraToken }) ] }) ] }
    log := [] }

/-- The group "a/b" as decoded. -/
def slashGroup : GroupSpec :=
  { Default := some { RepositorySpec := some 1, TokenSpec := some infraToken }
    Projects := [ ("p", some { RepositorySpec := none, TokenSpec := none }) ] }

/-- The store of the example with a period that does not parse: the global
default's object at 0 with "1h", the object of group "infra" at 1 with the
period "soon". -/
def soonHeap : Heap :=
  [ { BuildKey := "VAULT_TOKEN", Enabled := some true, RenewPeriod := "1h" },
    { BuildKey := "", Enabled := none, RenewPeriod := "soon" } ]

/-- The tree of that example: a complete global default, and the group
"infra" that overrides the period. -/
def soonSpec : GlobalSpec :=
  { Default := some { RepositorySpec := some 0, TokenSpec := some ciToken }
    Groups :=
      [ ("infra", some
          { Default := some { RepositorySpec := some 1, TokenSpec := none }
            Projects := [] }) ] }

/-- What `Load` leaves for it: the merged tree, and one logged error. -/
def soonLoaded : Loaded :=
  { heap :=
      [ { BuildKey := "VAULT_TOKEN", Enabled := some true, RenewPeriod := "1h" },
        { BuildKey := "VAULT_TOKEN", Enabled := some true, RenewPeriod := "soon" } ]
    spec :=
      { Default := some { RepositorySpec := some 0, TokenSpec := some ciToken }
        Groups :=
          [ ("infra", some
              { Default := some { RepositorySpec := some 1, TokenSpec := some ciToken }
                Projects := [] }) ] }
    log := [.logError "time: invalid duration soon"] }

/-- A global default whose own period is "soon", with no groups. -/
def soonGlobalHeap : Heap :=
  [ { BuildKey := "VAULT_TOKEN", Enabled := some true, RenewPeriod := "soon" } ]

/-- The tree of that example. -/
def soonGlobalSpec : GlobalSpec :=
  { Default := some { RepositorySpec := some 0, TokenSpec := some ciToken }, Groups := [] }

/-- Does the global default have every mandatory field: `RepositorySpec`,
`BuildKey`, `Enabled`, `RenewPeriod` and `TokenSpec`. -/
def mandatoryPresent (h : Heap) (d : LinkSpec) : Bool :=
  match d.RepositorySpec with
  | none => false
  | some p =>
    decide ((h.read p).BuildKey ≠ "") && (h.read p).Enabled.isSome &&
      decide ((h.read p).RenewPeriod ≠ "") && d.TokenSpec.isSome

/-- Is every project pointer of the map non-nil. -/
def projectsPresent : List (String × Option LinkSpec) → Bool
  | [] => true
  | e :: rest => e.2.isSome && projectsPresent rest

/-- Is every group pointer non-nil, with a non-nil `Default` and non-nil
project pointers. -/
def groupsPresent : List (String × Option GroupSpec) → Bool
  | [] => true
  | e :: rest =>
    (match e.2 with
      | none => false
      | some g => g.Default.isSome && projectsPresent g.Projects) && groupsPresent rest

/-- The store of a global default that leaves `Enabled` unset. -/
def noEnabledHeap : Heap :=
  [ { BuildKey := "VAULT_TOKEN", Enabled := none, RenewPeriod := "1h" } ]

/-- A tree whose group "infra" has project entries but leaves its `Default`
unset. -/
def noDefaultSpec : GlobalSpec :=
  { Default := some { RepositorySpec := some 0, TokenSpec := some ciToken }
    Groups :=
      [ ("infra", some
          { Default := none
            Projects := [ ("api", some { RepositorySpec := some 2, TokenSpec := none }) ] }) ] }

/-- A tree whose global default has no `TokenSpec`. -/
def noTokenSpec : GlobalSpec :=
  { Default := some { RepositorySpec := some 0, TokenSpec := none }, Groups := [] }

/-! ## Definitions used to state the properties of the discovery loop -/

/-- Is the event a call to `UpdateBuildVariable`. -/
def Event.isUpdate : Event → Bool
  | .updateBuildVariable _ _ _ => true
  | _ => false

/-- Is the event a call to `CreateBuildVariable`. -/
def Event.isCreate : Event → Bool
  | .createBuildVariable _ _ _ => true
  | _ => false

/-- Is the event an issuance for the project `id` or a variable write on it. -/
def Event.touches (id : Int) : Event → Bool
  | .tokenCreate p _ => p == id
  | .updateBuildVariable p _ _ => p == id
  | .createBuildVariable p _ _ => p == id
  | _ => false

/-- The path resolves, in the loaded tree, to a `RepoSpec` whose `Enabled`
is false. -/
def resolvesDisabled (h : Heap) (gs : GlobalSpec) (path : String) : Bool :=
  match GetSpecForPath gs path with
  | .ok (some link) =>
    match link.RepositorySpec with
    | some a => (h.read a).Enabled == some false
    | none => false
  | _ => false

/-- Every project the platform ever lists under the ID `id` resolves to a
disabled `RepoSpec`. -/
def AlwaysDisabled (gc : GitlabClient) (h : Heap) (gs : GlobalSpec) (id : Int) : Prop :=
  ∀ tr group projects, gc.ListGroupProjects tr group = .ok projects →
    ∀ pr ∈ projects, pr.ID = id → resolvesDisabled h gs pr.PathWithNamespace = true

/-- How `CronMap` and `Cron` may change from `st` to `st2`: keys are only
added, none of them in `F`; entries are only appended, each for an ID that
was not registered in `st`, is registered in `st2` and is not in `F`, and no
two of them for the same ID. -/
def JobsGrow (F : Int → Prop) (st st2 : CronState) : Prop :=
  st.CronMap ⊆ st2.CronMap ∧
  (∀ id ∈ st2.CronMap, id ∈ st.CronMap ∨ ¬ F id) ∧
  ∃ added, st2.Cron = st.Cron ++ added ∧ (added.map Job.addedFor).Nodup ∧
    ∀ j ∈ added, j.addedFor ∉ st.CronMap ∧ j.addedFor ∈ st2.CronMap ∧ ¬ F j.addedFor

/-- How the events may change from `st` to `st2`: events are only appended,
none of them an issuance or a variable write for an ID in `F`. -/
def TraceQuiet (F : Int → Prop) (st st2 : CronState) : Prop :=
  ∃ events, st2.trace = st.trace ++ events ∧ ∀ e ∈ events, ∀ id, F id → e.touches id = false

/-- A platform with one group, 7, and one project in it, 42 at "infra/app",
whose variable does not exist: every update fails, every create succeeds. -/
def onePlatform : GitlabClient :=
  { ListGroups := fun _ => .ok [{ ID := 7 }]
    ListGroupProjects := fun _ _ => .ok [{ ID := 42, PathWithNamespace := "infra/app" }]
    UpdateBuildVariable := fun _ _ _ _ => some "404 Variable Not Found"
    CreateBuildVariable := fun _ _ _ _ => none }

/-- A secret issuer that always answers with the token "s.1". -/
def goodVault : VaultClient := { Create := fun _ _ => .ok "s.1" }

/-- A secret issuer whose first call fails and whose later calls succeed: it
answers with an error as long as no issuance for project 42 is among the
events. -/
def flakyVault : VaultClient :=
  { Create := fun tr _ =>
      if tr.any (fun e => e.touches 42) then .ok "s.1" else .error "connection refused" }

/-- The store of the example with a disabled group: the global default's
object at 0, the object of group "infra" at 1 with `enabled` false. -/
def offHeap : Heap :=
  [ { BuildKey := "VAULT_TOKEN", Enabled := some true, RenewPeriod := "1h" },
    { BuildKey := "VAULT_TOKEN", Enabled := some false, RenewPeriod := "1h" } ]

/-- The loaded tree of that example: the group "infra" has no project
entries, so every path under it resolves to the group default. -/
def offSpec : GlobalSpec :=
  { Default := some { RepositorySpec := some 0, TokenSpec := some ciToken }
    Groups :=
      [ ("infra", some
          { Default := some { RepositorySpec := some 1, TokenSpec := some ciToken }
            Projects := [] }) ] }

/-- The state after the first tick over `onePlatform` with `flakyVault` on
the loaded inheritance example: project 42 is registered, no entry is
scheduled, and the issuance failed. -/
def failedFirstTick : CronState :=
  { CronMap := [42]
    Cron := []
    vars := [{ ID := 42, PathWithNamespace := "infra/app" }]
    trace := [.listGroups, .listGroupProjects 7, .tokenCreate 42 (some infraToken),
      .logError "connection refused"] }

/-! ## Further definitions and example inputs -/

/-- The call `gs.GetSpecForPath(path)` as a step on the object graph it is
given: what it returns, and the store and tree it leaves.  The body of the
function (lines 99-108) assigns to its local variables only (`parts`,
`groupName`, `projectName`, `ls`, `group`, `project`), so the store and the
tree it leaves are the ones it was given. -/
def resolveStep (s : Heap × GlobalSpec) (path : String) :
    Except Panic (Option LinkSpec) × (Heap × GlobalSpec) :=
  (GetSpecForPath s.2 path, s)

/-- The fields behind a returned `*LinkSpec`: the `RepoSpec` its
`RepositorySpec` points to in the store, and its `TokenSpec`. -/
def linkFields (h : Heap) (r : Except Panic (Option LinkSpec)) :
    Except Panic (Option (Option RepoSpec × Option TokenCreateRequest)) :=
  match r with
  | .error e => .error e
  | .ok none => .ok none
  | .ok (some l) => .ok (some (l.RepositorySpec.map h.read, l.TokenSpec))

/-- The store of the example with a disabled global default: the global
default's object at 0 with `enabled` false, the object of group "infra" at 1,
which sets only the period. -/
def offGlobalHeap : Heap :=
  [ { BuildKey := "VAULT_TOKEN", Enabled := some false, RenewPeriod := "1h" },
    { BuildKey := "", Enabled := none, RenewPeriod := "30m" } ]

/-- The tree of that example. -/
def offGlobalSpec : GlobalSpec :=
  { Default := some { RepositorySpec := some 0, TokenSpec := some ciToken }
    Groups :=
      [ ("infra", some
          { Default := some { RepositorySpec := some 1, TokenSpec := none }
            Projects := [] }) ] }

/-- What `Load` leaves for it. -/
def offGlobalLoaded : Loaded :=
  { heap :=
      [ { BuildKey := "VAULT_TOKEN", Enabled := some false, RenewPeriod := "1h" },
        { BuildKey := "VAULT_TOKEN", Enabled := some false, RenewPeriod := "30m" } ]
    spec :=
      { Default := some { RepositorySpec := some 0, TokenSpec := some ciToken }
        Groups :=
          [ ("infra", some
              { Default := some { RepositorySpec := some 1, TokenSpec := some ciToken }
                Projects := [] }) ] }
    log := [] }

/-- The project ID the closure of an entry reads when it is run in the state
`st`: the `ID` of the loop variable it holds. -/
def firingTarget (st : CronState) (job : Job) : Int :=
  (st.vars.getD job.projectVar { ID := 0, PathWithNamespace := "" }).ID

/-- How the loop variables and the scheduler may change from `st` to `st2`:
variables are only added, the ones with an index below `n` keep their value,
and entries are only appended, each holding a variable that exists and a
`link` with a `RepositorySpec`. -/
def VarsKeep (n : Nat) (st st2 : CronState) : Prop :=
  st.vars.length ≤ st2.vars.length ∧
  (∀ i, i < n → st2.vars[i]? = st.vars[i]?) ∧
  ∃ added, st2.Cron = st.Cron ++ added ∧
    ∀ j ∈ added, j.projectVar < st2.vars.length ∧ j.link.RepositorySpec ≠ none

/-- The entry `j` holds, in the state `st`, the project it was added for: the
variable its closure refers to holds a project with the ID `j.addedFor`, the
entry's `link` is what `GetSpecForPath` gives for that project's path, its
schedule is "@every " followed by the resolved `RenewPeriod`, and the events
have an issuance for that ID with the `TokenSpec` of the `link` and an update
of the variable named by the resolved `BuildKey` on that ID (those of the
first issuance, lines 156-161). -/
def OwnProject (h : Heap) (gs : GlobalSpec) (st : CronState) (j : Job) : Prop :=
  ∃ path a, st.vars[j.projectVar]? = some { ID := j.addedFor, PathWithNamespace := path } ∧
    GetSpecForPath gs path = .ok (some j.link) ∧ j.link.RepositorySpec = some a ∧
    j.schedule = "@every " ++ (h.read a).RenewPeriod ∧
    Event.tokenCreate j.addedFor j.link.TokenSpec ∈ st.trace ∧
    ∃ token, Event.updateBuildVariable j.addedFor (h.read a).BuildKey token ∈ st.trace

/-- Every scheduled entry holds the project it was added for. -/
def AllOwn (h : Heap) (gs : GlobalSpec) (st : CronState) : Prop :=
  ∀ j ∈ st.Cron, OwnProject h gs st j

/-- Is the event a call of the secret issuer. -/
def Event.isTokenCreate : Event → Bool
  | .tokenCreate _ _ => true
  | _ => false

/-- The store of the end-to-end example: only the global default's object,
{buildKey "VAULT_TOKEN", enabled true, renewPeriod "1h"}. -/
def e2eHeap : Heap :=
  [ { BuildKey := "VAULT_TOKEN", Enabled := some true, RenewPeriod := "1h" } ]

/-- The tree of the end-to-end example: one group "infra" with an empty
default and no project overrides. -/
def e2eSpec : GlobalSpec :=
  { Default := some { RepositorySpec := some 0, TokenSpec := some ciToken }
    Groups :=
      [ ("infra", some
          { Default := some { RepositorySpec := none, TokenSpec := none }
            Projects := [] }) ] }

/-- What `Load` leaves for it: the group default shares the global default's
object and request. -/
def e2eLoaded : Loaded :=
  { heap := e2eHeap
    spec :=
      { Default := some { RepositorySpec := some 0, TokenSpec := some ciToken }
        Groups :=
          [ ("infra", some
              { Default := some { RepositorySpec := some 0, TokenSpec := some ciToken }
                Projects := [] }) ] }
    log := [] }

/-- The state after the first tick of the end-to-end example over
`onePlatform` with `goodVault`. -/
def e2eFirstTick : CronState :=
  { CronMap := [42]
    Cron := [{ schedule := "@every 1h",
               link := { RepositorySpec := some 0, TokenSpec := some ciToken },
               projectVar := 0, addedFor := 42 }]
    vars := [{ ID := 42, PathWithNamespace := "infra/app" }]
    trace := [.listGroups, .listGroupProjects 7, .tokenCreate 42 (some ciToken),
      .updateBuildVariable 42 "VAULT_TOKEN" "s.1", .logError "404 Variable Not Found",
      .createBuildVariable 42 "VAULT_TOKEN" "s.1",
      .logInfo "VAULT_TOKEN Created for project 42"] }

/-- The state after the first tick over `onePlatform` with `goodVault` on the
tree whose group "infra" has the period "soon": the issuance and the sync
were made and project 42 is registered, but no entry is scheduled. -/
def soonFirstTick : CronState :=
  { CronMap := [42]
    Cron := []
    vars := [{ ID := 42, PathWithNamespace := "infra/app" }]
    trace := [.listGroups, .listGroupProjects 7, .tokenCreate 42 (some ciToken),
      .updateBuildVariable 42 "VAULT_TOKEN" "s.1", .logError "404 Variable Not Found",
      .createBuildVariable 42 "VAULT_TOKEN" "s.1",
      .logInfo "VAULT_TOKEN Created for project 42"] }

/-- A platform with two groups, 7 and 8: listing the projects of 7 fails,
and 8 has the project 42 at "infra/app". -/
def twoGroupPlatform : GitlabClient :=
  { ListGroups := fun _ => .ok [{ ID := 7 }, { ID := 8 }]
    ListGroupProjects := fun _ g =>
      if g = 7 then .error "500 Internal Server Error"
      else .ok [{ ID := 42, PathWithNamespace := "infra/app" }]
    UpdateBuildVariable := fun _ _ _ _ => some "404 Variable Not Found"
    CreateBuildVariable := fun _ _ _ _ => none }

/-- The state after one tick over `twoGroupPlatform` with `goodVault` on the
loaded inheritance example.  With one variable for each `for` statement, the
statement entered for group 7 has one too, which no round assigns to. -/
def twoGroupTick (lv : LoopVar) : CronState :=
  { CronMap := [42]
    Cron := [{ schedule := "@every 30m",
               link := { RepositorySpec := some 1, TokenSpec := some infraToken },
               projectVar := (match lv with | .perIteration => 0 | .shared => 1),
               addedFor := 42 }]
    vars := enterLoop lv [] ++ [{ ID := 42, PathWithNamespace := "infra/app" }]
    trace := [.listGroups, .listGroupProjects 7, .logError "500 Internal Server Error",
      .listGroupProjects 8, .tokenCreate 42 (some infraToken),
      .updateBuildVariable 42 "VAULT_TOKEN" "s.1", .logError "404 Variable Not Found",
      .createBuildVariable 42 "VAULT_TOKEN" "s.1",
      .logInfo "VAULT_TOKEN Created for project 42"] }

/-- The store of the example with two projects in one listing: the global
default's object at 0, the object of project "app" at 1 with the key
"APP_TOKEN", the object of project "api" at 2 with the key "API_TOKEN". -/
def pairHeap : Heap :=
  [ { BuildKey := "VAULT_TOKEN", Enabled := some true, RenewPeriod := "1h" },
    { BuildKey := "APP_TOKEN", Enabled := none, RenewPeriod := "" },
    { BuildKey := "API_TOKEN", Enabled := none, RenewPeriod := "" } ]

/-- The tree of that example: the group "infra" with the projects "app" and
"api", each with its own key; "api" has its own token request. -/
def pairSpec : GlobalSpec :=
  { Default := some { RepositorySpec := some 0, TokenSpec := some ciToken }
    Groups :=
      [ ("infra", some
          { Default := some { RepositorySpec := none, TokenSpec := none }
            Projects :=
              [ ("app", some { RepositorySpec := some 1, TokenSpec := none }),
                ("api", some { RepositorySpec := some 2, TokenSpec := some infraToken }) ] }) ] }

/-- What `Load` leaves for it. -/
def pairLoaded : Loaded :=
  { heap :=
      [ { BuildKey := "VAULT_TOKEN", Enabled := some true, RenewPeriod := "1h" },
        { BuildKey := "APP_TOKEN", Enabled := some true, RenewPeriod := "1h" },
        { BuildKey := "API_TOKEN", Enabled := some true, RenewPeriod := "1h" } ]
    spec :=
      { Default := some { RepositorySpec := some 0, TokenSpec := some ciToken }
        Groups :=
          [ ("infra", some
              { Default := some { RepositorySpec := some 0, TokenSpec := some ciToken }
                Projects :=
                  [ ("app", some { RepositorySpec := some 1, TokenSpec := some ciToken }),
                    ("api", some { RepositorySpec := some 2, TokenSpec := some infraToken }) ] }) ] }
    log := [] }

/-- A platform with one group, 7, that lists two projects: 41 at "infra/app"
and 42 at "infra/api"; every update succeeds. -/
def twoProjectPlatform : GitlabClient :=
  { ListGroups := fun _ => .ok [{ ID := 7 }]
    ListGroupProjects := fun _ _ =>
      .ok [{ ID := 41, PathWithNamespace := "infra/app" },
           { ID := 42, PathWithNamespace := "infra/api" }]
    UpdateBuildVariable := fun _ _ _ _ => none
    CreateBuildVariable := fun _ _ _ _ => none }

/-- The entry the first tick schedules for project 41 ("infra/app"). -/
def appJob : Job :=
  { schedule := "@every 1h", link := { RepositorySpec := some 1, TokenSpec := some ciToken },
    projectVar := 0, addedFor := 41 }

/-- The entry the first tick schedules for project 42 ("infra/api"): its
closure holds the variable of the second round, or the one variable of the
statement. -/
def apiJob (lv : LoopVar) : Job :=
  { schedule := "@every 1h", link := { RepositorySpec := some 2, TokenSpec := some infraToken },
    projectVar := (match lv with | .perIteration => 1 | .shared => 0), addedFor := 42 }

/-- The state after one tick over `twoProjectPlatform` with `goodVault` on
`pairLoaded`: both projects are registered and each had its first issuance on
its own ID.  With a variable for each round, each entry holds its own; with
one variable for the statement, both entries hold it, and it is left at the
last project of the listing. -/
def pairTick (lv : LoopVar) : CronState :=
  { CronMap := [42, 41]
    Cron := [appJob, apiJob lv]
    vars := (match lv with
      | .perIteration => [{ ID := 41, PathWithNamespace := "infra/app" },
                          { ID := 42, PathWithNamespace := "infra/api" }]
      | .shared => [{ ID := 42, PathWithNamespace := "infra/api" }])
    trace := [.listGroups, .listGroupProjects 7, .tokenCreate 41 (some ciToken),
      .updateBuildVariable 41 "APP_TOKEN" "s.1", .logInfo "APP_TOKEN Updated for project 41",
      .tokenCreate 42 (some infraToken),
      .updateBuildVariable 42 "API_TOKEN" "s.1", .logInfo "API_TOKEN Updated for project 42"] }

/-- A secret issuer whose third call fails and whose other calls succeed. -/
def renewFlakyVault : VaultClient :=
  { Create := fun tr _ =>
      if (tr.filter Event.isTokenCreate).length = 2 then .error "connection refused"
      else .ok "s.1" }

end VaultGitlabLink

/-! # Properties -/

namespace VaultGitlabLink

/-! ## The store -/

theorem read_write (h : Heap) (a b : Nat) (v : RepoSpec) :
    (h.write a v).read b = if a = b ∧ a < h.length then v else h.read b := by
  simp only [Heap.read, Heap.write, List.getD_eq_getElem?_getD, List.getElem?_set]
  by_cases hab : a = b
  · subst hab
    by_cases hlt : a < h.length
    · simp [hlt]
    · simp [hlt, List.getElem?_eq_none (Nat.le_of_not_lt hlt)]
  · simp [hab]

theorem length_write (h : Heap) (a : Nat) (v : RepoSpec) :
    (h.write a v).length = h.length := by
  simp [Heap.write]

theorem read_of_length_le (h : Heap) (a : Nat) (hle : h.length ≤ a) :
    h.read a = RepoSpec.zero := by
  simp [Heap.read, List.getD_eq_getElem?_getD, List.getElem?_eq_none hle]

theorem inherit_self (x : RepoSpec) : inherit x x = x := by
  cases x with
  | mk b e r =>
    cases e <;> simp [inherit]

theorem inherit_zero (x : RepoSpec) : inherit RepoSpec.zero x = x := by
  cases x with
  | mk b e r => simp [inherit, RepoSpec.zero]

theorem precedence_eq_inherit (x y z : RepoSpec) :
    precedence x y z = inherit x (inherit y z) := by
  cases x with
  | mk b e r =>
    cases y with
    | mk b2 e2 r2 =>
      cases e <;> cases e2 <;> simp [precedence, inherit]

theorem length_fillUnset (h : Heap) (c p : Nat) : (fillUnset h c p).length = h.length := by
  unfold fillUnset
  simp only []
  split_ifs <;> simp [length_write]

/-- What `fillUnset` leaves in the store, read address by address. -/
theorem read_fillUnset (h : Heap) (c p a : Nat) (hc : c < h.length) :
    (fillUnset h c p).read a = if a = c then inherit (h.read c) (h.read p) else h.read a := by
  unfold fillUnset
  by_cases hac : a = c
  · subst hac
    by_cases hcp : a = p
    · subst hcp
      rcases hv : h.read a with ⟨b, e, r⟩
      cases e <;> by_cases hb : b = "" <;> by_cases hr : r = "" <;>
        simp [read_write, length_write, hc, hv, hb, hr, inherit]
    · have hpc : ¬ (a = p ∧ a < h.length) := fun hh => hcp hh.1
      rcases hv : h.read a with ⟨b, e, r⟩
      rcases hw : h.read p with ⟨b2, e2, r2⟩
      cases e <;> by_cases hb : b = "" <;> by_cases hr : r = "" <;>
        simp [read_write, length_write, hc, hv, hw, hb, hr, inherit, hcp]
  · have hca : ¬ (c = a ∧ c < h.length) := fun hh => hac hh.1.symm
    have hca2 : ∀ n, ¬ (c = a ∧ c < n) := fun n hh => hac hh.1.symm
    simp only [hac, if_false]
    split_ifs <;> simp [read_write, length_write, hca2]

/-! ## The merge of `Load`, on the tree -/

theorem mergeLink_snd (parses : String → Bool) (p : Nat) (pts : Option TokenCreateRequest)
    (st : LoadState) (ls : LinkSpec) :
    (mergeLink parses p pts st ls).2 = mergedLink p pts ls := by
  cases ls with
  | mk rs ts => cases rs <;> rfl

theorem loadProjects_spec (parses : String → Bool) (p : Nat) (pts : Option TokenCreateRequest) :
    ∀ (ps : List (String × Option LinkSpec)) (st st2 : LoadState)
      (ps2 : List (String × Option LinkSpec)),
      loadProjects parses p pts st ps = .ok (st2, ps2) →
      ps2 = mergedProjects p pts ps ∧ ∀ e ∈ ps, e.2 ≠ none := by
  intro ps
  induction ps with
  | nil =>
    intro st st2 ps2 hload
    simp only [loadProjects, Except.ok.injEq, Prod.mk.injEq] at hload
    simp [mergedProjects, ← hload.2]
  | cons e rest ih =>
    intro st st2 ps2 hload
    obtain ⟨name, l⟩ := e
    cases l with
    | none => simp [loadProjects] at hload
    | some project =>
      simp only [loadProjects] at hload
      split at hload
      · simp at hload
      · rename_i st3 rest2 hrest
        simp only [Except.ok.injEq, Prod.mk.injEq] at hload
        obtain ⟨h1, h2⟩ := ih _ _ _ hrest
        refine ⟨?_, ?_⟩
        · rw [← hload.2, h1, mergeLink_snd]
          simp [mergedProjects]
        · intro e he
          rcases List.mem_cons.1 he with rfl | he
          · simp
          · exact h2 e he

theorem loadGroup_spec (parses : String → Bool) (p : Nat) (pts : Option TokenCreateRequest)
    (st st2 : LoadState) (group : Option GroupSpec) (g2 : GroupSpec)
    (hload : loadGroup parses p pts st group = .ok (st2, g2)) :
    ∃ g d, group = some g ∧ g.Default = some d ∧ g2 = mergedGroup p pts g ∧
      (∀ e ∈ g.Projects, e.2 ≠ none) ∧
      loadProjects parses (d.RepositorySpec.getD p) (mergedLink p pts d).TokenSpec
        (mergeLink parses p pts st d).1 g.Projects = .ok (st2, g2.Projects) := by
  cases group with
  | none => simp [loadGroup] at hload
  | some g =>
    cases hd : g.Default with
    | none => simp [loadGroup, hd] at hload
    | some d =>
      simp only [loadGroup, hd, mergeLink_snd] at hload
      have hc : (match (mergedLink p pts d).RepositorySpec with
          | none => p
          | some a => a) = d.RepositorySpec.getD p := by
        simp [mergedLink]
      rw [hc] at hload
      split at hload
      · simp at hload
      · rename_i st3 projects hps
        simp only [Except.ok.injEq, Prod.mk.injEq] at hload
        obtain ⟨h1, h2⟩ := loadProjects_spec parses _ _ _ _ _ _ hps
        refine ⟨g, d, rfl, hd, ?_, h2, ?_⟩
        · rw [← hload.2, h1]
          simp [mergedGroup, hd]
        · rw [← hload.2, ← hload.1]
          exact hps

theorem loadGroups_spec (parses : String → Bool) (p : Nat) (pts : Option TokenCreateRequest) :
    ∀ (gl : List (String × Option GroupSpec)) (st st2 : LoadState)
      (gl2 : List (String × Option GroupSpec)),
      loadGroups parses p pts st gl = .ok (st2, gl2) →
      gl2 = mergedGroups p pts gl ∧
      ∀ e ∈ gl, ∃ g d, e.2 = some g ∧ g.Default = some d ∧ ∀ x ∈ g.Projects, x.2 ≠ none := by
  intro gl
  induction gl with
  | nil =>
    intro st st2 gl2 hload
    simp only [loadGroups, Except.ok.injEq, Prod.mk.injEq] at hload
    simp [mergedGroups, ← hload.2]
  | cons e rest ih =>
    intro st st2 gl2 hload
    obtain ⟨name, group⟩ := e
    simp only [loadGroups] at hload
    split at hload
    · simp at hload
    · rename_i st1 g1 hg
      split at hload
      · simp at hload
      · rename_i st3 rest2 hrest
        simp only [Except.ok.injEq, Prod.mk.injEq] at hload
        obtain ⟨g, d, hgroup, hd, hg1, hne, -⟩ := loadGroup_spec parses p pts _ _ _ _ hg
        obtain ⟨h1, h2⟩ := ih _ _ _ hrest
        refine ⟨?_, ?_⟩
        · rw [← hload.2, h1, hg1, hgroup]
          simp [mergedGroups]
        · intro e he
          rcases List.mem_cons.1 he with rfl | he
          · exact ⟨g, d, hgroup, hd, hne⟩
          · exact h2 e he

/-! ## The merge of `Load`, on the store -/

theorem mergeLink_length (parses : String → Bool) (p : Nat) (pts : Option TokenCreateRequest)
    (st : LoadState) (ls : LinkSpec) :
    (mergeLink parses p pts st ls).1.heap.length = st.heap.length := by
  simp [mergeLink, length_fillUnset]

theorem mergeLink_read (parses : String → Bool) (p : Nat) (pts : Option TokenCreateRequest)
    (st : LoadState) (ls : LinkSpec) (hp : p < st.heap.length)
    (hin : ∀ a ∈ linkPtrs (some ls), a < st.heap.length) (a : Nat) :
    (mergeLink parses p pts st ls).1.heap.read a =
      if a ∈ linkPtrs (some ls) then inherit (st.heap.read a) (st.heap.read p)
      else st.heap.read a := by
  cases ls with
  | mk rs ts =>
    cases rs with
    | none =>
      simp only [mergeLink, linkPtrs, Option.toList, List.not_mem_nil, if_false]
      rw [read_fillUnset _ _ _ _ hp]
      split_ifs with hap
      · rw [inherit_self, hap]
      · rfl
    | some c =>
      have hc : c < st.heap.length := hin c (by simp [linkPtrs])
      simp only [mergeLink, linkPtrs, Option.toList, List.mem_singleton]
      rw [read_fillUnset _ _ _ _ hc]
      split_ifs with hac
      · rw [hac]
      · rfl

theorem loadProjects_heap (parses : String → Bool) (p : Nat) (pts : Option TokenCreateRequest) :
    ∀ (ps : List (String × Option LinkSpec)) (st st2 : LoadState)
      (ps2 : List (String × Option LinkSpec)),
      loadProjects parses p pts st ps = .ok (st2, ps2) →
      p < st.heap.length →
      (∀ a ∈ projectsPtrs ps, a < st.heap.length) →
      (projectsPtrs ps).Nodup →
      p ∉ projectsPtrs ps →
      st2.heap.length = st.heap.length ∧
      ∀ a, st2.heap.read a =
        if a ∈ projectsPtrs ps then inherit (st.heap.read a) (st.heap.read p)
        else st.heap.read a := by
  intro ps
  induction ps with
  | nil =>
    intro st st2 ps2 hload _ _ _ _
    simp only [loadProjects, Except.ok.injEq, Prod.mk.injEq] at hload
    simp [projectsPtrs, ← hload.1]
  | cons e rest ih =>
    intro st st2 ps2 hload hp hin hnd hpn
    obtain ⟨name, l⟩ := e
    cases l with
    | none => simp [loadProjects] at hload
    | some project =>
      simp only [loadProjects] at hload
      split at hload
      · simp at hload
      · rename_i st3 rest2 hrest
        simp only [Except.ok.injEq, Prod.mk.injEq] at hload
        obtain ⟨hst, -⟩ := hload
        subst hst
        simp only [projectsPtrs] at hin hnd hpn ⊢
        rw [List.nodup_append] at hnd
        obtain ⟨-, hnd2, hdisj⟩ := hnd
        have hlen1 := mergeLink_length parses p pts st project
        have hread1 := mergeLink_read parses p pts st project hp
          (fun a ha => hin a (List.mem_append_left _ ha))
        obtain ⟨hlen2, hread2⟩ := ih _ _ _ hrest (by rw [hlen1]; exact hp)
          (fun a ha => by rw [hlen1]; exact hin a (List.mem_append_right _ ha)) hnd2
          (fun hh => hpn (List.mem_append_right _ hh))
        refine ⟨by rw [hlen2, hlen1], ?_⟩
        intro a
        have hpl : p ∉ linkPtrs (some project) := fun hh => hpn (List.mem_append_left _ hh)
        rw [hread2, hread1 a, hread1 p, if_neg hpl]
        by_cases h1 : a ∈ linkPtrs (some project)
        · have h2 : a ∉ projectsPtrs rest := fun hh => hdisj h1 hh
          simp [h1, h2]
        · simp [h1]

theorem expectGroup_frame (h : Heap) (p : Nat) (g : GroupSpec) (a : Nat)
    (ha : a ∉ groupPtrs (some g)) : expectGroup h p g a = h.read a := by
  unfold expectGroup
  cases hd : g.Default with
  | none => rfl
  | some d =>
    simp only [groupPtrs, hd, List.mem_append, not_or] at ha
    simp [ha.1, ha.2]

theorem loadGroup_heap (parses : String → Bool) (p : Nat) (pts : Option TokenCreateRequest)
    (st st2 : LoadState) (g g2 : GroupSpec)
    (hload : loadGroup parses p pts st (some g) = .ok (st2, g2))
    (hp : p < st.heap.length)
    (hin : ∀ a ∈ groupPtrs (some g), a < st.heap.length)
    (hnd : (groupPtrs (some g)).Nodup)
    (hpn : p ∉ groupPtrs (some g)) :
    st2.heap.length = st.heap.length ∧ ∀ a, st2.heap.read a = expectGroup st.heap p g a := by
  obtain ⟨g', d, hg, hd, -, -, hps⟩ := loadGroup_spec parses p pts _ _ _ _ hload
  cases hg
  simp only [groupPtrs, hd] at hin hnd hpn
  rw [List.nodup_append] at hnd
  obtain ⟨-, hnd2, hdisj⟩ := hnd
  have hlen1 := mergeLink_length parses p pts st d
  have hread1 := mergeLink_read parses p pts st d hp
    (fun a ha => hin a (List.mem_append_left _ ha))
  have hpl : p ∉ linkPtrs (some d) := fun hh => hpn (List.mem_append_left _ hh)
  have hc1 : d.RepositorySpec.getD p < st.heap.length := by
    cases hrs : d.RepositorySpec with
    | none => simpa using hp
    | some c => exact hin c (List.mem_append_left _ (by simp [linkPtrs, hrs]))
  have hc2 : d.RepositorySpec.getD p ∉ projectsPtrs g.Projects := by
    cases hrs : d.RepositorySpec with
    | none => simpa using fun hh => hpn (List.mem_append_right _ hh)
    | some c =>
      have : c ∈ linkPtrs (some d) := by simp [linkPtrs, hrs]
      simpa using fun hh => hdisj this hh
  have hc3 : (mergeLink parses p pts st d).1.heap.read (d.RepositorySpec.getD p) =
      inherit (ownSpec st.heap d) (st.heap.read p) := by
    rw [hread1]
    cases hrs : d.RepositorySpec with
    | none => simp [linkPtrs, hrs, ownSpec, inherit_zero]
    | some c => simp [linkPtrs, hrs, ownSpec]
  obtain ⟨hlen2, hread2⟩ := loadProjects_heap parses _ _ _ _ _ _ hps (by rw [hlen1]; exact hc1)
    (fun a ha => by rw [hlen1]; exact hin a (List.mem_append_right _ ha)) hnd2 hc2
  refine ⟨by rw [hlen2, hlen1], ?_⟩
  intro a
  rw [hread2, hc3, hread1 a]
  unfold expectGroup
  simp only [hd]
  by_cases h1 : a ∈ projectsPtrs g.Projects
  · have h2 : a ∉ linkPtrs (some d) := fun hh => hdisj hh h1
    simp [h1, h2]
  · simp [h1]

theorem expectGroup_congr (h h1 : Heap) (p : Nat) (g : GroupSpec) (a : Nat)
    (hp : h1.read p = h.read p) (hsame : ∀ b ∈ groupPtrs (some g), h1.read b = h.read b)
    (ha : a ∈ groupPtrs (some g)) : expectGroup h1 p g a = expectGroup h p g a := by
  unfold expectGroup
  cases hd : g.Default with
  | none => simp only []; exact hsame a ha
  | some d =>
    have hown : ownSpec h1 d = ownSpec h d := by
      unfold ownSpec
      cases hrs : d.RepositorySpec with
      | none => rfl
      | some c =>
        exact hsame c (by simp [groupPtrs, hd, linkPtrs, hrs])
    simp only [hp, hown, hsame a ha]

theorem groupPtrs_subset :
    ∀ (gl : List (String × Option GroupSpec)) (e : String × Option GroupSpec), e ∈ gl →
      ∀ g, e.2 = some g → ∀ b ∈ groupPtrs (some g), b ∈ groupsPtrs gl := by
  intro gl
  induction gl with
  | nil => intro e he; cases he
  | cons x xs ih =>
    intro e he g hg b hb
    simp only [groupsPtrs, List.mem_append]
    rcases List.mem_cons.1 he with rfl | he
    · left; rw [hg]; exact hb
    · right; exact ih e he g hg b hb

theorem projectPtrs_subset :
    ∀ (ps : List (String × Option LinkSpec)) (e : String × Option LinkSpec), e ∈ ps →
      ∀ b ∈ linkPtrs e.2, b ∈ projectsPtrs ps := by
  intro ps
  induction ps with
  | nil => intro e he; cases he
  | cons x xs ih =>
    intro e he b hb
    simp only [projectsPtrs, List.mem_append]
    rcases List.mem_cons.1 he with rfl | he
    · left; exact hb
    · right; exact ih e he b hb

theorem loadGroups_heap (parses : String → Bool) (p : Nat) (pts : Option TokenCreateRequest) :
    ∀ (gl : List (String × Option GroupSpec)) (st st2 : LoadState)
      (gl2 : List (String × Option GroupSpec)),
      loadGroups parses p pts st gl = .ok (st2, gl2) →
      p < st.heap.length →
      (∀ a ∈ groupsPtrs gl, a < st.heap.length) →
      (groupsPtrs gl).Nodup →
      p ∉ groupsPtrs gl →
      st2.heap.length = st.heap.length ∧
      (∀ a, a ∉ groupsPtrs gl → st2.heap.read a = st.heap.read a) ∧
      ∀ e ∈ gl, ∀ g, e.2 = some g → ∀ a ∈ groupPtrs (some g),
        st2.heap.read a = expectGroup st.heap p g a := by
  intro gl
  induction gl with
  | nil =>
    intro st st2 gl2 hload _ _ _ _
    simp only [loadGroups, Except.ok.injEq, Prod.mk.injEq] at hload
    simp [← hload.1]
  | cons e rest ih =>
    intro st st2 gl2 hload hp hin hnd hpn
    obtain ⟨name, group⟩ := e
    simp only [loadGroups] at hload
    split at hload
    · simp at hload
    · rename_i st1 g1 hg
      split at hload
      · simp at hload
      · rename_i st3 rest2 hrest
        simp only [Except.ok.injEq, Prod.mk.injEq] at hload
        obtain ⟨hst, -⟩ := hload
        subst hst
        obtain ⟨g, d, hgroup, hd, -, -, -⟩ := loadGroup_spec parses p pts _ _ _ _ hg
        subst hgroup
        simp only [groupsPtrs] at hin hnd hpn ⊢
        rw [List.nodup_append] at hnd
        obtain ⟨hnd1, hnd2, hdisj⟩ := hnd
        obtain ⟨hlen1, hread1⟩ := loadGroup_heap parses p pts _ _ _ _ hg hp
          (fun a ha => hin a (List.mem_append_left _ ha)) hnd1
          (fun hh => hpn (List.mem_append_left _ hh))
        obtain ⟨hlen2, hframe2, hread2⟩ := ih _ _ _ hrest (by rw [hlen1]; exact hp)
          (fun a ha => by rw [hlen1]; exact hin a (List.mem_append_right _ ha)) hnd2
          (fun hh => hpn (List.mem_append_right _ hh))
        refine ⟨by rw [hlen2, hlen1], ?_, ?_⟩
        · intro a ha
          simp only [List.mem_append, not_or] at ha
          rw [hframe2 a ha.2, hread1, expectGroup_frame _ _ _ _ ha.1]
        · intro e he g' hg' a ha
          rcases List.mem_cons.1 he with rfl | he
          · simp only [Option.some.injEq] at hg'
            subst hg'
            rw [hframe2 a (fun hh => hdisj ha hh), hread1]
          · have hsub : ∀ b ∈ groupPtrs (some g'), b ∈ groupsPtrs rest :=
              fun b hb => groupPtrs_subset rest e he g' hg' b hb
            have hnot : ∀ b ∈ groupPtrs (some g'), b ∉ groupPtrs (some g) :=
              fun b hb hh => hdisj hh (hsub b hb)
            rw [hread2 e he g' hg' a ha]
            apply expectGroup_congr _ _ _ _ _ _ _ ha
            · rw [hread1, expectGroup_frame _ _ _ _ (fun hh => hpn (List.mem_append_left _ hh))]
            · intro b hb
              rw [hread1, expectGroup_frame _ _ _ _ (hnot b hb)]

/-! ## Paths and lookups -/

theorem splitSlash_ne_nil (cs : List Char) : splitSlash cs ≠ [] := by
  cases cs with
  | nil => simp [splitSlash]
  | cons c cs =>
    simp only [splitSlash]
    split_ifs
    · simp
    · split <;> simp

theorem splitSlash_noSlash (g : List Char) (hg : '/' ∉ g) : splitSlash g = [g] := by
  induction g with
  | nil => rfl
  | cons c cs ih =>
    have hc : c ≠ '/' := fun hh => hg (by simp [hh])
    have hcs : '/' ∉ cs := fun hh => hg (List.mem_cons_of_mem _ hh)
    simp [splitSlash, hc, ih hcs]

theorem splitSlash_append (g r : List Char) (hg : '/' ∉ g) :
    splitSlash (g ++ '/' :: r) = g :: splitSlash r := by
  induction g with
  | nil => simp [splitSlash]
  | cons c cs ih =>
    have hc : c ≠ '/' := fun hh => hg (by simp [hh])
    have hcs : '/' ∉ cs := fun hh => hg (List.mem_cons_of_mem _ hh)
    simp [splitSlash, hc, ih hcs]

theorem Split_two (g p : String) (hg : noSlash g) (hp : noSlash p) :
    Split (g ++ "/" ++ p) = [g, p] := by
  unfold Split
  have hd : (g ++ "/" ++ p).data = g.data ++ '/' :: p.data := by
    simp [String.data_append]
  rw [hd, splitSlash_append _ _ hg, splitSlash_noSlash _ hp]
  rfl

theorem Split_more (g p rest : String) (hg : noSlash g) (hp : noSlash p) :
    ∃ tail, Split (g ++ "/" ++ p ++ "/" ++ rest) = g :: p :: tail := by
  unfold Split
  have hd : (g ++ "/" ++ p ++ "/" ++ rest).data = g.data ++ '/' :: (p.data ++ '/' :: rest.data) := by
    simp [String.data_append]
  rw [hd, splitSlash_append _ _ hg, splitSlash_append _ _ hp]
  exact ⟨(splitSlash rest.data).map String.mk, rfl⟩

theorem lookup_mergedProjects (p : Nat) (pts : Option TokenCreateRequest) (k : String) :
    ∀ ps : List (String × Option LinkSpec),
      (mergedProjects p pts ps).lookup k = (ps.lookup k).map (Option.map (mergedLink p pts)) := by
  intro ps
  induction ps with
  | nil => rfl
  | cons e rest ih =>
    obtain ⟨n, l⟩ := e
    simp only [mergedProjects, List.lookup_cons]
    cases hk : k == n <;> simp [ih]

theorem lookup_mergedGroups (p : Nat) (pts : Option TokenCreateRequest) (k : String) :
    ∀ gl : List (String × Option GroupSpec),
      (mergedGroups p pts gl).lookup k = (gl.lookup k).map (Option.map (mergedGroup p pts)) := by
  intro gl
  induction gl with
  | nil => rfl
  | cons e rest ih =>
    obtain ⟨n, l⟩ := e
    simp only [mergedGroups, List.lookup_cons]
    cases hk : k == n <;> simp [ih]

theorem mem_of_lookup {β : Type} (k : String) (v : β) :
    ∀ l : List (String × β), l.lookup k = some v → (k, v) ∈ l := by
  intro l
  induction l with
  | nil => intro hl; simp at hl
  | cons e rest ih =>
    obtain ⟨n, x⟩ := e
    intro hl
    simp only [List.lookup_cons] at hl
    cases hk : k == n with
    | true =>
      simp only [hk, Option.some.injEq] at hl
      have : k = n := by simpa using hk
      subst this; subst hl
      exact List.mem_cons_self _ _
    | false =>
      simp only [hk] at hl
      exact List.mem_cons_of_mem _ (ih hl)

/-! ## `Load`, taken apart -/

/-- When `Load` returns, the global default had every mandatory field, the
tree it leaves is the merged tree, and the store is the one the loop over the
groups leaves. -/
theorem Load_ok (parses : String → Bool) (h : Heap) (gs : GlobalSpec) (ld : Loaded)
    (hload : Load parses (.ok (h, gs)) = .ok ld) :
    ∃ d0 p0 ts0 log0, gs.Default = some d0 ∧ d0.RepositorySpec = some p0 ∧
      d0.TokenSpec = some ts0 ∧
      (h.read p0).BuildKey ≠ "" ∧ (h.read p0).Enabled ≠ none ∧ (h.read p0).RenewPeriod ≠ "" ∧
      ld.spec = { Default := some d0, Groups := mergedGroups p0 (some ts0) gs.Groups } ∧
      loadGroups parses p0 (some ts0) { heap := h, log := log0 } gs.Groups =
        .ok ({ heap := ld.heap, log := ld.log }, ld.spec.Groups) := by
  simp only [Load, loadSpec] at hload
  cases hd : gs.Default with
  | none => simp [hd] at hload
  | some d0 =>
    simp only [hd] at hload
    cases hrs : d0.RepositorySpec with
    | none => simp [hrs] at hload
    | some p0 =>
      simp only [hrs] at hload
      split_ifs at hload with h1 h2 h3
      cases hts : d0.TokenSpec with
      | none => simp [hts] at hload
      | some ts0 =>
        simp only [hts] at hload
        split at hload
        · simp at hload
        · rename_i st groups hgl
          simp only [Except.ok.injEq] at hload
          subst hload
          obtain ⟨hm, -⟩ := loadGroups_spec parses _ _ _ _ _ _ hgl
          refine ⟨d0, p0, ts0, CheckError (parseDurationErr parses (h.read p0).RenewPeriod) [],
            rfl, hrs, hts, h1, h2, h3, ?_, ?_⟩
          · simp [hm]
          · simpa using hgl

theorem groupPtrs_nodup_of_mem :
    ∀ (gl : List (String × Option GroupSpec)) (e : String × Option GroupSpec), e ∈ gl →
      (groupsPtrs gl).Nodup → (groupPtrs e.2).Nodup := by
  intro gl
  induction gl with
  | nil => intro e he; cases he
  | cons x xs ih =>
    intro e he hnd
    simp only [groupsPtrs] at hnd
    rw [List.nodup_append] at hnd
    rcases List.mem_cons.1 he with rfl | he
    · exact hnd.1
    · exact ih e he hnd.2.1

/-- What a path "g/p" resolves to in a loaded tree, for a project `p` listed
under a group `g`: the merged `LinkSpec` of the project. -/
theorem GetSpecForPath_loaded (parses : String → Bool) (h : Heap) (gs : GlobalSpec)
    (ld : Loaded) (hload : Load parses (.ok (h, gs)) = .ok ld)
    (g p : String) (hg : noSlash g) (hp : noSlash p) (grp : GroupSpec) (proj : LinkSpec)
    (hlg : gs.Groups.lookup g = some (some grp))
    (hlp : grp.Projects.lookup p = some (some proj)) :
    ∃ d0 p0 ts0 d, gs.Default = some d0 ∧ d0.RepositorySpec = some p0 ∧
      d0.TokenSpec = some ts0 ∧ grp.Default = some d ∧
      GetSpecForPath ld.spec (g ++ "/" ++ p) =
        .ok (some (mergedLink (d.RepositorySpec.getD p0) (mergedLink p0 (some ts0) d).TokenSpec
          proj)) := by
  obtain ⟨d0, p0, ts0, log0, hd0, hrs0, hts0, -, -, -, hspec, hgl⟩ := Load_ok parses h gs ld hload
  obtain ⟨-, hall⟩ := loadGroups_spec parses _ _ _ _ _ _ hgl
  obtain ⟨g', d, hg', hd, -⟩ := hall _ (mem_of_lookup g _ _ hlg)
  simp only [Option.some.injEq] at hg'
  subst hg'
  refine ⟨d0, p0, ts0, d, hd0, hrs0, hts0, hd, ?_⟩
  unfold GetSpecForPath
  rw [Split_two g p hg hp, hspec]
  simp only [lookup_mergedGroups, hlg, Option.map_some']
  simp only [mergedGroup, hd, lookup_mergedProjects, hlp, Option.map_some']

theorem inherit_complete (x y : RepoSpec) (hy : y.complete) : (inherit x y).complete := by
  obtain ⟨h1, h2, h3⟩ := hy
  cases x with
  | mk b e r =>
    refine ⟨?_, ?_, ?_⟩
    · by_cases hb : b = "" <;> simp [inherit, hb, h1]
    · cases e <;> simp [inherit, h2]
    · by_cases hr : r = "" <;> simp [inherit, hr, h3]

/-- What `Load` leaves in the store for a decoded tree: the global default's
object is as it was, the object a group default points to holds the group's
own fields completed from the global default, and the object a project points
to holds the project's own fields completed from that. -/
theorem Load_heap (parses : String → Bool) (h : Heap) (gs : GlobalSpec) (ld : Loaded)
    (hdec : Decoded h gs) (hload : Load parses (.ok (h, gs)) = .ok ld) :
    ∃ d0 p0 ts0, gs.Default = some d0 ∧ d0.RepositorySpec = some p0 ∧
      d0.TokenSpec = some ts0 ∧
      ld.spec = { Default := some d0, Groups := mergedGroups p0 (some ts0) gs.Groups } ∧
      (h.read p0).complete ∧
      ld.heap.read p0 = h.read p0 ∧
      ∀ e ∈ gs.Groups, ∃ grp d, e.2 = some grp ∧ grp.Default = some d ∧
        ld.heap.read (d.RepositorySpec.getD p0) = inherit (ownSpec h d) (h.read p0) ∧
        ∀ x ∈ grp.Projects, ∃ proj, x.2 = some proj ∧
          ld.heap.read (proj.RepositorySpec.getD (d.RepositorySpec.getD p0)) =
            inherit (ownSpec h proj) (inherit (ownSpec h d) (h.read p0)) := by
  obtain ⟨d0, p0, ts0, log0, hd0, hrs0, hts0, hc1, hc2, hc3, hspec, hgl⟩ :=
    Load_ok parses h gs ld hload
  obtain ⟨-, hall⟩ := loadGroups_spec parses _ _ _ _ _ _ hgl
  obtain ⟨hnd, hin⟩ := hdec
  simp only [specPtrs, hd0, linkPtrs, hrs0, Option.toList, List.singleton_append,
    List.nodup_cons] at hnd hin
  obtain ⟨hp0, hnd⟩ := hnd
  obtain ⟨-, hframe, hread⟩ := loadGroups_heap parses p0 (some ts0) _ _ _ _ hgl
    (hin p0 (List.mem_cons_self _ _)) (fun a ha => hin a (List.mem_cons_of_mem _ ha)) hnd hp0
  simp only at hframe hread
  refine ⟨d0, p0, ts0, hd0, hrs0, hts0, hspec, ⟨hc1, hc2, hc3⟩, hframe p0 hp0, ?_⟩
  intro e he
  obtain ⟨grp, d, hgrp, hd, hpres⟩ := hall e he
  have hgnd : (groupPtrs e.2).Nodup := groupPtrs_nodup_of_mem _ _ he hnd
  simp only [hgrp, groupPtrs, hd] at hgnd
  rw [List.nodup_append] at hgnd
  obtain ⟨-, -, hdisj⟩ := hgnd
  have hdef : ld.heap.read (d.RepositorySpec.getD p0) = inherit (ownSpec h d) (h.read p0) := by
    cases hdrs : d.RepositorySpec with
    | some c =>
      have hc : c ∈ linkPtrs (some d) := by simp [linkPtrs, hdrs]
      have hcg : c ∈ groupPtrs (some grp) := by
        simp only [groupPtrs, hd]
        exact List.mem_append_left _ hc
      have hcp : c ∉ projectsPtrs grp.Projects := fun hh => hdisj hc hh
      simp only [Option.getD_some]
      rw [hread e he grp hgrp c hcg]
      simp [expectGroup, hd, hcp, hc, ownSpec, hdrs]
    | none =>
      simp only [Option.getD_none]
      rw [hframe p0 hp0]
      simp [ownSpec, hdrs, inherit_zero]
  refine ⟨grp, d, hgrp, hd, hdef, ?_⟩
  intro x hx
  cases hx2 : x.2 with
  | none => exact absurd hx2 (hpres x hx)
  | some proj =>
    refine ⟨proj, rfl, ?_⟩
    cases hprs : proj.RepositorySpec with
    | some pa =>
      have hpa : pa ∈ projectsPtrs grp.Projects :=
        projectPtrs_subset _ _ hx pa (by simp [hx2, linkPtrs, hprs])
      have hpag : pa ∈ groupPtrs (some grp) := by
        simp only [groupPtrs, hd]
        exact List.mem_append_right _ hpa
      simp only [Option.getD_some]
      rw [hread e he grp hgrp pa hpag]
      simp [expectGroup, hd, hpa, ownSpec, hprs]
    | none =>
      simp only [Option.getD_none]
      rw [hdef]
      simp [ownSpec, hprs, inherit_zero]

/-- On a decoded tree on which `Load` returns, every path of at least two
segments resolves to a `LinkSpec` whose `RepositorySpec` is present with
`BuildKey`, `Enabled` and `RenewPeriod` set, and whose `TokenSpec` is
present. -/
theorem GetSpecForPath_complete (parses : String → Bool) (h : Heap) (gs : GlobalSpec)
    (ld : Loaded) (hdec : Decoded h gs) (hload : Load parses (.ok (h, gs)) = .ok ld)
    (path g p : String) (rest : List String) (hs : Split path = g :: p :: rest) :
    ∃ link a, GetSpecForPath ld.spec path = .ok (some link) ∧
      link.RepositorySpec = some a ∧ (ld.heap.read a).complete ∧ link.TokenSpec ≠ none := by
  obtain ⟨d0, p0, ts0, hd0, hrs0, hts0, hspec, hcomp, hread0, hgroups⟩ :=
    Load_heap parses h gs ld hdec hload
  unfold GetSpecForPath
  rw [hs, hspec]
  simp only [lookup_mergedGroups]
  cases hlg : gs.Groups.lookup g with
  | none =>
    refine ⟨d0, p0, by simp, hrs0, ?_, by simp [hts0]⟩
    rw [hread0]
    exact hcomp
  | some og =>
    obtain ⟨grp, d, hgrp, hd, hdef, hprojs⟩ := hgroups _ (mem_of_lookup g _ _ hlg)
    simp only at hgrp
    subst hgrp
    simp only [Option.map_some', mergedGroup, hd, lookup_mergedProjects]
    cases hlp : grp.Projects.lookup p with
    | none =>
      refine ⟨mergedLink p0 (some ts0) d, d.RepositorySpec.getD p0, by simp, rfl, ?_, ?_⟩
      · rw [hdef]
        exact inherit_complete _ _ hcomp
      · cases hdt : d.TokenSpec <;> simp [mergedLink, hdt]
    | some op =>
      obtain ⟨proj, hproj, hpread⟩ := hprojs _ (mem_of_lookup p _ _ hlp)
      simp only at hproj
      subst hproj
      refine ⟨mergedLink (d.RepositorySpec.getD p0) (mergedLink p0 (some ts0) d).TokenSpec proj,
        proj.RepositorySpec.getD (d.RepositorySpec.getD p0), by simp, rfl, ?_, ?_⟩
      · rw [hpread]
        exact inherit_complete _ _ (inherit_complete _ _ hcomp)
      · cases hpt : proj.TokenSpec <;> cases hdt : d.TokenSpec <;> simp [mergedLink, hpt, hdt]

/-! ## Claims on policy resolution -/

/-- C2 (as amended): for a decoded tree on which `Load` returns, a group key
`g` and a project key `p` of that group, neither with a '/' in it, the
`RepoSpec` that `GetSpecForPath` resolves "g/p" to has, field by field, the
project's own value if the project set the field, otherwise the group
default's own value if the group set it, otherwise the global default's. -/
theorem getSpecForPath_precedence (parses : String → Bool) (h : Heap) (gs : GlobalSpec)
    (ld : Loaded) (hdec : Decoded h gs) (hload : Load parses (.ok (h, gs)) = .ok ld)
    (g p : String) (hg : noSlash g) (hp : noSlash p) (grp : GroupSpec) (proj : LinkSpec)
    (hlg : gs.Groups.lookup g = some (some grp))
    (hlp : grp.Projects.lookup p = some (some proj)) :
    ∃ d0 p0 d link a, gs.Default = some d0 ∧ d0.RepositorySpec = some p0 ∧
      grp.Default = some d ∧
      GetSpecForPath ld.spec (g ++ "/" ++ p) = .ok (some link) ∧
      link.RepositorySpec = some a ∧
      ld.heap.read a = precedence (ownSpec h proj) (ownSpec h d) (h.read p0) := by
  obtain ⟨d0, p0, ts0, d, hd0, hrs0, hts0, hd, hget⟩ :=
    GetSpecForPath_loaded parses h gs ld hload g p hg hp grp proj hlg hlp
  obtain ⟨d0', p0', ts0', hd0', hrs0', -, -, -, -, hgroups⟩ :=
    Load_heap parses h gs ld hdec hload
  rw [hd0] at hd0'
  simp only [Option.some.injEq] at hd0'
  subst hd0'
  rw [hrs0] at hrs0'
  simp only [Option.some.injEq] at hrs0'
  subst hrs0'
  obtain ⟨grp', d', hgrp', hd', -, hprojs⟩ := hgroups _ (mem_of_lookup g _ _ hlg)
  simp only [Option.some.injEq] at hgrp'
  subst hgrp'
  rw [hd] at hd'
  simp only [Option.some.injEq] at hd'
  subst hd'
  obtain ⟨proj', hproj', hpread⟩ := hprojs _ (mem_of_lookup p _ _ hlp)
  simp only [Option.some.injEq] at hproj'
  subst hproj'
  exact ⟨d0, p0, d, _, proj.RepositorySpec.getD (d.RepositorySpec.getD p0), hd0, hrs0, hd, hget,
    rfl, by rw [hpread, precedence_eq_inherit]⟩

/-- Witness for C2, the example of the specification: global "1h", group
"infra" "30m"; the project "app" sets nothing and resolves to "30m", the
project "api" sets "10m" and resolves to "10m". -/
theorem getSpecForPath_precedence_witness :
    Decoded exHeap exSpec ∧
    Load parseDurationOk (.ok (exHeap, exSpec)) = .ok exLoaded ∧
    (∃ d0 p0 d link a, exSpec.Default = some d0 ∧ d0.RepositorySpec = some p0 ∧
      exGroup.Default = some d ∧
      GetSpecForPath exLoaded.spec ("infra" ++ "/" ++ "app") = .ok (some link) ∧
      link.RepositorySpec = some a ∧
      exLoaded.heap.read a =
        precedence (ownSpec exHeap { RepositorySpec := none, TokenSpec := none })
          (ownSpec exHeap d) (exHeap.read p0)) ∧
    (precedence (ownSpec exHeap { RepositorySpec := none, TokenSpec := none })
      (exHeap.read 1) (exHeap.read 0)).RenewPeriod = "30m" ∧
    (precedence (ownSpec exHeap { RepositorySpec := some 2, TokenSpec := none })
      (exHeap.read 1) (exHeap.read 0)).RenewPeriod = "10m" :=
  ⟨by decide, by decide,
    getSpecForPath_precedence parseDurationOk exHeap exSpec exLoaded (by decide) (by decide)
      "infra" "app" (by decide) (by decide) exGroup _ (by decide) (by decide),
    by decide, by decide⟩

/-- C2, counterexample: in the tree whose group key is "a/b", the project "p"
sets nothing and its group sets the period "30m", so the claim gives "30m"
for the path "a/b/p"; the code takes "a" and "b" for the two names, finds no
group "a", and returns the global default with "1h". -/
theorem precedence_fails_for_slash_key :
    Decoded slashHeap slashSpec ∧
    Load parseDurationOk (.ok (slashHeap, slashSpec)) = .ok slashLoaded ∧
    slashSpec.Groups.lookup "a/b" = some (some slashGroup) ∧
    slashGroup.Projects.lookup "p" = some (some { RepositorySpec := none, TokenSpec := none }) ∧
    GetSpecForPath slashLoaded.spec ("a/b" ++ "/" ++ "p") =
      .ok (some { RepositorySpec := some 0, TokenSpec := some ciToken }) ∧
    (slashLoaded.heap.read 0).RenewPeriod = "1h" ∧
    (precedence (ownSpec slashHeap { RepositorySpec := none, TokenSpec := none })
      (ownSpec slashHeap { RepositorySpec := some 1, TokenSpec := some infraToken })
      (slashHeap.read 0)).RenewPeriod = "30m" ∧
    slashLoaded.heap.read 0 ≠
      precedence (ownSpec slashHeap { RepositorySpec := none, TokenSpec := none })
        (ownSpec slashHeap { RepositorySpec := some 1, TokenSpec := some infraToken })
        (slashHeap.read 0) := by
  decide

/-- C3 (as amended): for a tree on which `Load` returns, a group key `g` and
a project key `p` of that group, neither with a '/' in it, the `TokenSpec`
that `GetSpecForPath` resolves "g/p" to is the project's if that was
non-nil, otherwise the group default's if that was non-nil, otherwise the
global default's: one of the three requests, whole. -/
theorem getSpecForPath_tokenSpec (parses : String → Bool) (h : Heap) (gs : GlobalSpec)
    (ld : Loaded) (hload : Load parses (.ok (h, gs)) = .ok ld)
    (g p : String) (hg : noSlash g) (hp : noSlash p) (grp : GroupSpec) (proj : LinkSpec)
    (hlg : gs.Groups.lookup g = some (some grp))
    (hlp : grp.Projects.lookup p = some (some proj)) :
    ∃ d0 d link, gs.Default = some d0 ∧ grp.Default = some d ∧
      GetSpecForPath ld.spec (g ++ "/" ++ p) = .ok (some link) ∧
      link.TokenSpec = tokenPrecedence proj.TokenSpec d.TokenSpec d0.TokenSpec ∧
      (link.TokenSpec = proj.TokenSpec ∨ link.TokenSpec = d.TokenSpec ∨
        link.TokenSpec = d0.TokenSpec) := by
  obtain ⟨d0, p0, ts0, d, hd0, -, hts0, hd, hget⟩ :=
    GetSpecForPath_loaded parses h gs ld hload g p hg hp grp proj hlg hlp
  refine ⟨d0, d, _, hd0, hd, hget, ?_, ?_⟩
  · cases hpt : proj.TokenSpec <;> cases hdt : d.TokenSpec <;>
      simp [mergedLink, tokenPrecedence, hpt, hdt, hts0]
  · cases hpt : proj.TokenSpec <;> cases hdt : d.TokenSpec <;>
      simp [mergedLink, hpt, hdt, hts0]

/-- Witness for C3: in the inheritance example the project "app" has a nil
`TokenSpec` under the group "infra", which has its own; "infra/app" resolves
to the group's request. -/
theorem getSpecForPath_tokenSpec_witness :
    Load parseDurationOk (.ok (exHeap, exSpec)) = .ok exLoaded ∧
    (∃ d0 d link, exSpec.Default = some d0 ∧ exGroup.Default = some d ∧
      GetSpecForPath exLoaded.spec ("infra" ++ "/" ++ "app") = .ok (some link) ∧
      link.TokenSpec = tokenPrecedence none d.TokenSpec d0.TokenSpec ∧
      (link.TokenSpec = none ∨ link.TokenSpec = d.TokenSpec ∨
        link.TokenSpec = d0.TokenSpec)) ∧
    tokenPrecedence none (some infraToken) (some ciToken) = some infraToken :=
  ⟨by decide,
    getSpecForPath_tokenSpec parseDurationOk exHeap exSpec exLoaded (by decide)
      "infra" "app" (by decide) (by decide) exGroup
      { RepositorySpec := none, TokenSpec := none } (by decide) (by decide),
    by decide⟩

/-- C3, counterexample: in the tree whose group key is "a/b", the project "p"
has a nil `TokenSpec` and its group has its own request, so the claim gives
the group's request for the path "a/b/p"; the code returns the global
default's. -/
theorem tokenSpec_fails_for_slash_key :
    Load parseDurationOk (.ok (slashHeap, slashSpec)) = .ok slashLoaded ∧
    slashSpec.Groups.lookup "a/b" = some (some slashGroup) ∧
    slashGroup.Projects.lookup "p" = some (some { RepositorySpec := none, TokenSpec := none }) ∧
    slashGroup.Default = some { RepositorySpec := some 1, TokenSpec := some infraToken } ∧
    GetSpecForPath slashLoaded.spec ("a/b" ++ "/" ++ "p") =
      .ok (some { RepositorySpec := some 0, TokenSpec := some ciToken }) ∧
    tokenPrecedence none (some infraToken) (some ciToken) = some infraToken ∧
    some ciToken ≠ tokenPrecedence none (some infraToken) (some ciToken) := by
  decide

/-- C4: `GetSpecForPath` is override replacement on the first two segments.
For a path whose first segment is `g` and second is `p`, it returns the
project entry when `g` is a group and `p` one of its projects, the group's
`Default` when `g` is a group without a project `p`, and the global `Default`
when `g` is no group (a nil group pointer is a nil dereference); whatever
follows the second segment changes nothing. -/
theorem getSpecForPath_override (gs : GlobalSpec) (g p : String)
    (hg : noSlash g) (hp : noSlash p) :
    (∀ grp proj, gs.Groups.lookup g = some (some grp) → grp.Projects.lookup p = some proj →
      GetSpecForPath gs (g ++ "/" ++ p) = .ok proj) ∧
    (∀ grp, gs.Groups.lookup g = some (some grp) → grp.Projects.lookup p = none →
      GetSpecForPath gs (g ++ "/" ++ p) = .ok grp.Default) ∧
    (gs.Groups.lookup g = none → GetSpecForPath gs (g ++ "/" ++ p) = .ok gs.Default) ∧
    (gs.Groups.lookup g = some none →
      GetSpecForPath gs (g ++ "/" ++ p) = .error .nilDereference) ∧
    ∀ rest, GetSpecForPath gs (g ++ "/" ++ p ++ "/" ++ rest) =
      GetSpecForPath gs (g ++ "/" ++ p) := by
  refine ⟨?_, ?_, ?_, ?_, ?_⟩
  · intro grp proj h1 h2
    simp [GetSpecForPath, Split_two g p hg hp, h1, h2]
  · intro grp h1 h2
    simp [GetSpecForPath, Split_two g p hg hp, h1, h2]
  · intro h1
    simp [GetSpecForPath, Split_two g p hg hp, h1]
  · intro h1
    simp [GetSpecForPath, Split_two g p hg hp, h1]
  · intro rest
    obtain ⟨tail, ht⟩ := Split_more g p rest hg hp
    simp only [GetSpecForPath, Split_two g p hg hp, ht]

/-- Witness for C4, on the loaded inheritance example: "infra/api" is the
project entry, "infra/web" the group default, "other/web" the global default,
and "infra/api/x/y" is "infra/api". -/
theorem getSpecForPath_override_witness :
    noSlash "infra" ∧ noSlash "api" ∧
    GetSpecForPath exLoaded.spec ("infra" ++ "/" ++ "api") =
      .ok (some { RepositorySpec := some 2, TokenSpec := some infraToken }) ∧
    GetSpecForPath exLoaded.spec ("infra" ++ "/" ++ "web") =
      .ok (some { RepositorySpec := some 1, TokenSpec := some infraToken }) ∧
    GetSpecForPath exLoaded.spec ("other" ++ "/" ++ "web") =
      .ok (some { RepositorySpec := some 0, TokenSpec := some ciToken }) ∧
    GetSpecForPath exLoaded.spec ("infra" ++ "/" ++ "api" ++ "/" ++ "x/y") =
      GetSpecForPath exLoaded.spec ("infra" ++ "/" ++ "api") :=
  ⟨by decide, by decide,
    (getSpecForPath_override exLoaded.spec "infra" "api" (by decide) (by decide)).1 _ _
      rfl rfl,
    (getSpecForPath_override exLoaded.spec "infra" "web" (by decide) (by decide)).2.1 _
      rfl rfl,
    (getSpecForPath_override exLoaded.spec "other" "web" (by decide) (by decide)).2.2.1
      (by decide),
    (getSpecForPath_override exLoaded.spec "infra" "api" (by decide) (by decide)).2.2.2.2 "x/y"⟩

/-! ## Claims on the checks of `Load` -/

theorem loadProjects_total (parses : String → Bool) (p : Nat) (pts : Option TokenCreateRequest) :
    ∀ (ps : List (String × Option LinkSpec)) (st : LoadState),
      if projectsPresent ps then ∃ r, loadProjects parses p pts st ps = .ok r
      else loadProjects parses p pts st ps = .error .nilDereference := by
  intro ps
  induction ps with
  | nil => intro st; simp [projectsPresent, loadProjects]
  | cons e rest ih =>
    intro st
    obtain ⟨name, l⟩ := e
    cases l with
    | none => simp [projectsPresent, loadProjects]
    | some project =>
      have := ih (mergeLink parses p pts st project).1
      by_cases hr : projectsPresent rest = true
      · rw [if_pos hr] at this
        obtain ⟨r, hr2⟩ := this
        simp [projectsPresent, loadProjects, hr, hr2]
      · rw [if_neg hr] at this
        simp [projectsPresent, loadProjects, hr, this]

theorem loadGroups_total (parses : String → Bool) (p : Nat) (pts : Option TokenCreateRequest) :
    ∀ (gl : List (String × Option GroupSpec)) (st : LoadState),
      if groupsPresent gl then ∃ r, loadGroups parses p pts st gl = .ok r
      else loadGroups parses p pts st gl = .error .nilDereference := by
  intro gl
  induction gl with
  | nil => intro st; simp [groupsPresent, loadGroups]
  | cons e rest ih =>
    intro st
    obtain ⟨name, group⟩ := e
    cases group with
    | none => simp [groupsPresent, loadGroups, loadGroup]
    | some g =>
      cases hd : g.Default with
      | none => simp [groupsPresent, loadGroups, loadGroup, hd]
      | some d =>
        have hps := loadProjects_total parses
          (match (mergeLink parses p pts st d).2.RepositorySpec with
            | none => p
            | some a => a)
          (mergeLink parses p pts st d).2.TokenSpec g.Projects (mergeLink parses p pts st d).1
        by_cases hpp : projectsPresent g.Projects = true
        · rw [if_pos hpp] at hps
          obtain ⟨r, hr⟩ := hps
          have := ih r.1
          by_cases hrest : groupsPresent rest = true
          · rw [if_pos hrest] at this
            obtain ⟨r2, hr2⟩ := this
            simp [groupsPresent, loadGroups, loadGroup, hd, hpp, hrest, hr, hr2]
          · rw [if_neg hrest] at this
            simp [groupsPresent, loadGroups, loadGroup, hd, hpp, hrest, hr, this]
        · rw [if_neg hpp] at hps
          simp [groupsPresent, loadGroups, loadGroup, hd, hpp, hps]

/-- C5: `Load` panics whenever the global default misses a mandatory field
(`RepositorySpec` absent, `BuildKey` empty, `Enabled` unset, `RenewPeriod`
empty or `TokenSpec` absent; a nil `Default` is a nil dereference), and when
all of them are present `Load` does not fail on account of the global
default: it returns, unless a group entry is nil, which is a nil dereference
inside the loop.  Whether the duration parses plays no part. -/
theorem load_checks_global_default (parses : String → Bool) (h : Heap) (gs : GlobalSpec) :
    (gs.Default = none → Load parses (.ok (h, gs)) = .error .nilDereference) ∧
    (∀ d, gs.Default = some d → mandatoryPresent h d = false →
      ∃ text, Load parses (.ok (h, gs)) = .error (.message text)) ∧
    (∀ d, gs.Default = some d → mandatoryPresent h d = true →
      if groupsPresent gs.Groups then ∃ ld, Load parses (.ok (h, gs)) = .ok ld
      else Load parses (.ok (h, gs)) = .error .nilDereference) := by
  refine ⟨?_, ?_, ?_⟩
  · intro hd
    simp [Load, loadSpec, hd]
  · intro d hd hm
    simp only [Load, loadSpec, hd]
    cases hrs : d.RepositorySpec with
    | none => exact ⟨_, rfl⟩
    | some p =>
      simp only [mandatoryPresent, hrs] at hm
      simp only []
      split_ifs with h1 h2 h3
      · exact ⟨_, rfl⟩
      · exact ⟨_, rfl⟩
      · exact ⟨_, rfl⟩
      · cases hts : d.TokenSpec with
        | none => exact ⟨_, rfl⟩
        | some ts =>
          exfalso
          cases he : (h.read p).Enabled with
          | none => exact h2 he
          | some b => simp [h1, h3, he, hts] at hm
  · intro d hd hm
    simp only [Load, loadSpec, hd]
    cases hrs : d.RepositorySpec with
    | none => simp [mandatoryPresent, hrs] at hm
    | some p =>
      simp only [mandatoryPresent, hrs, Bool.and_eq_true, decide_eq_true_eq] at hm
      obtain ⟨⟨⟨h1, h2⟩, h3⟩, h4⟩ := hm
      cases hts : d.TokenSpec with
      | none => simp [hts] at h4
      | some ts =>
        have h2' : (h.read p).Enabled ≠ none := by
          intro hh; simp [hh] at h2
        simp only [h1, h2', h3, if_false]
        have := loadGroups_total parses p (some ts) gs.Groups
          { heap := h, log := CheckError (parseDurationErr parses (h.read p).RenewPeriod) [] }
        by_cases hgp : groupsPresent gs.Groups = true
        · rw [if_pos hgp] at this ⊢
          obtain ⟨r, hr⟩ := this
          simp [hr]
        · rw [if_neg hgp] at this ⊢
          simp [this]

/-- Witness for C5: the inheritance example has every mandatory field and
loads; a global default without `Enabled` and one without `TokenSpec` panic
with the message of the check. -/
theorem load_checks_global_default_witness :
    (∃ ld, Load parseDurationOk (.ok (exHeap, exSpec)) = .ok ld) ∧
    (∃ text, Load parseDurationOk (.ok (noEnabledHeap, soonGlobalSpec)) =
      .error (.message text)) ∧
    Load parseDurationOk (.ok (noEnabledHeap, soonGlobalSpec)) =
      .error (.message "Enabled should be present in the default spec") ∧
    Load parseDurationOk (.ok (exHeap, noTokenSpec)) =
      .error (.message "TokenSpec should be present in the default spec") :=
  ⟨by
      have := (load_checks_global_default parseDurationOk exHeap exSpec).2.2 _ rfl (by decide)
      simpa [show groupsPresent exSpec.Groups = true by decide] using this,
    (load_checks_global_default parseDurationOk noEnabledHeap soonGlobalSpec).2.1 _ rfl
      (by decide),
    by decide, by decide⟩

/-- C1, at the failing input: the global default is complete and its period
"1h" parses; the group "infra" overrides the period with "soon".  `Load`
logs the parse error and returns, and the path "infra/app" then resolves to a
`RepoSpec` whose `RenewPeriod` is "soon", which does not parse.  And for a
group that leaves its `Default` unset, `Load` panics with a nil dereference. -/
theorem load_keeps_unparseable_group_period :
    mandatoryPresent soonHeap { RepositorySpec := some 0, TokenSpec := some ciToken } = true ∧
    parseDurationOk (soonHeap.read 0).RenewPeriod = true ∧
    Decoded soonHeap soonSpec ∧
    Load parseDurationOk (.ok (soonHeap, soonSpec)) = .ok soonLoaded ∧
    GetSpecForPath soonLoaded.spec "infra/app" =
      .ok (some { RepositorySpec := some 1, TokenSpec := some ciToken }) ∧
    (soonLoaded.heap.read 1).RenewPeriod = "soon" ∧
    parseDurationOk (soonLoaded.heap.read 1).RenewPeriod = false ∧
    Load parseDurationOk (.ok (exHeap, noDefaultSpec)) = .error .nilDereference := by
  decide

theorem mergeLink_indep (parses1 parses2 : String → Bool) (p : Nat)
    (pts : Option TokenCreateRequest) (st1 st2 : LoadState) (ls : LinkSpec)
    (hh : st1.heap = st2.heap) :
    (mergeLink parses1 p pts st1 ls).1.heap = (mergeLink parses2 p pts st2 ls).1.heap ∧
    (mergeLink parses1 p pts st1 ls).2 = (mergeLink parses2 p pts st2 ls).2 := by
  simp [mergeLink, hh]

theorem loadProjects_indep (parses1 parses2 : String → Bool) (p : Nat)
    (pts : Option TokenCreateRequest) :
    ∀ (ps : List (String × Option LinkSpec)) (st1 st2 : LoadState), st1.heap = st2.heap →
      loopOutcome (loadProjects parses1 p pts st1 ps) =
        loopOutcome (loadProjects parses2 p pts st2 ps) := by
  intro ps
  induction ps with
  | nil => intro st1 st2 hh; simp [loadProjects, loopOutcome, hh]
  | cons e rest ih =>
    intro st1 st2 hh
    obtain ⟨name, l⟩ := e
    cases l with
    | none => simp [loadProjects, loopOutcome]
    | some project =>
      obtain ⟨h1, h2⟩ := mergeLink_indep parses1 parses2 p pts st1 st2 project hh
      have h3 := ih _ _ h1
      simp only [loadProjects]
      cases hr1 : loadProjects parses1 p pts (mergeLink parses1 p pts st1 project).1 rest <;>
        cases hr2 : loadProjects parses2 p pts (mergeLink parses2 p pts st2 project).1 rest <;>
        simp only [hr1, hr2, loopOutcome, Except.ok.injEq, Except.error.injEq, Prod.mk.injEq,
          reduceCtorEq] at h3 ⊢
      · exact h3
      · rw [h2]
        exact ⟨h3.1, by rw [h3.2]⟩

theorem loadGroup_indep (parses1 parses2 : String → Bool) (p : Nat)
    (pts : Option TokenCreateRequest) (st1 st2 : LoadState) (group : Option GroupSpec)
    (hh : st1.heap = st2.heap) :
    loopOutcome (loadGroup parses1 p pts st1 group) =
      loopOutcome (loadGroup parses2 p pts st2 group) := by
  cases group with
  | none => simp [loadGroup, loopOutcome]
  | some g =>
    cases hd : g.Default with
    | none => simp [loadGroup, loopOutcome, hd]
    | some d =>
      obtain ⟨h1, h2⟩ := mergeLink_indep parses1 parses2 p pts st1 st2 d hh
      simp only [loadGroup, hd]
      rw [h2]
      have h3 := loadProjects_indep parses1 parses2
        (match (mergeLink parses2 p pts st2 d).2.RepositorySpec with
          | none => p
          | some a => a)
        (mergeLink parses2 p pts st2 d).2.TokenSpec g.Projects _ _ h1
      cases hr1 : loadProjects parses1
          (match (mergeLink parses2 p pts st2 d).2.RepositorySpec with
            | none => p
            | some a => a)
          (mergeLink parses2 p pts st2 d).2.TokenSpec (mergeLink parses1 p pts st1 d).1
          g.Projects <;>
        cases hr2 : loadProjects parses2
          (match (mergeLink parses2 p pts st2 d).2.RepositorySpec with
            | none => p
            | some a => a)
          (mergeLink parses2 p pts st2 d).2.TokenSpec (mergeLink parses2 p pts st2 d).1
          g.Projects <;>
        simp only [hr1, hr2, loopOutcome, Except.ok.injEq, Except.error.injEq, Prod.mk.injEq,
          reduceCtorEq] at h3 ⊢
      · exact h3
      · exact ⟨h3.1, by rw [h3.2]⟩

theorem loadGroups_indep (parses1 parses2 : String → Bool) (p : Nat)
    (pts : Option TokenCreateRequest) :
    ∀ (gl : List (String × Option GroupSpec)) (st1 st2 : LoadState), st1.heap = st2.heap →
      loopOutcome (loadGroups parses1 p pts st1 gl) =
        loopOutcome (loadGroups parses2 p pts st2 gl) := by
  intro gl
  induction gl with
  | nil => intro st1 st2 hh; simp [loadGroups, loopOutcome, hh]
  | cons e rest ih =>
    intro st1 st2 hh
    obtain ⟨name, group⟩ := e
    have h1 := loadGroup_indep parses1 parses2 p pts st1 st2 group hh
    simp only [loadGroups]
    cases hr1 : loadGroup parses1 p pts st1 group <;>
      cases hr2 : loadGroup parses2 p pts st2 group <;>
      simp only [hr1, hr2, loopOutcome, Except.ok.injEq, Except.error.injEq, Prod.mk.injEq,
        reduceCtorEq] at h1 ⊢
    · exact h1
    · rename_i r1 r2
      have h2 := ih r1.1 r2.1 h1.1
      cases hq1 : loadGroups parses1 p pts r1.1 rest <;>
        cases hq2 : loadGroups parses2 p pts r2.1 rest <;>
        simp only [hq1, hq2, loopOutcome, Except.ok.injEq, Except.error.injEq, Prod.mk.injEq,
          reduceCtorEq] at h2 ⊢
      · exact h2
      · exact ⟨h2.1, by rw [h1.2, h2.2]⟩

/-- C6, at the failing input: the global default's own period is "soon",
which does not parse.  `Load` does not panic: it logs the error and returns
the tree.  More generally, for every decoded tree the outcome of `Load` (the
panic, or the store and tree it leaves) is the one it has when every duration
parses: a duration that does not parse changes the log and nothing else. -/
theorem load_returns_on_unparseable_period :
    parseDurationOk (soonGlobalHeap.read 0).RenewPeriod = false ∧
    Load parseDurationOk (.ok (soonGlobalHeap, soonGlobalSpec)) =
      .ok { heap := soonGlobalHeap, spec := soonGlobalSpec,
            log := [.logError "time: invalid duration soon"] } ∧
    ∀ (parses : String → Bool) (h : Heap) (gs : GlobalSpec),
      loadOutcome (Load parses (.ok (h, gs))) =
        loadOutcome (Load (fun _ => true) (.ok (h, gs))) := by
  refine ⟨by decide, by decide, ?_⟩
  intro parses h gs
  simp only [Load, loadSpec]
  cases gs.Default with
  | none => rfl
  | some d =>
    simp only []
    cases d.RepositorySpec with
    | none => rfl
    | some p =>
      simp only []
      split_ifs
      · rfl
      · rfl
      · rfl
      · cases d.TokenSpec with
        | none => rfl
        | some ts =>
          have h1 := loadGroups_indep parses (fun _ => true) p (some ts) gs.Groups
            { heap := h, log := CheckError (parseDurationErr parses (h.read p).RenewPeriod) [] }
            { heap := h,
              log := CheckError (parseDurationErr (fun _ => true) (h.read p).RenewPeriod) [] }
            rfl
          simp only []
          cases hr1 : loadGroups parses p (some ts)
              { heap := h,
                log := CheckError (parseDurationErr parses (h.read p).RenewPeriod) [] }
              gs.Groups <;>
            cases hr2 : loadGroups (fun _ => true) p (some ts)
              { heap := h,
                log := CheckError (parseDurationErr (fun _ => true) (h.read p).RenewPeriod) [] }
              gs.Groups <;>
            simp only [hr1, hr2, loopOutcome, loadOutcome, Except.ok.injEq, Except.error.injEq,
              Prod.mk.injEq, reduceCtorEq] at h1 ⊢
          · exact h1
          · exact ⟨h1.1, by rw [h1.2]⟩

/-! ## The discovery loop -/

theorem jobsGrow_same (F : Int → Prop) (st st2 : CronState)
    (h1 : st2.CronMap = st.CronMap) (h2 : st2.Cron = st.Cron) : JobsGrow F st st2 := by
  refine ⟨by rw [h1]; exact fun _ hx => hx, ?_, [], by simp [h2], by simp, by simp⟩
  intro id hid
  left
  rw [← h1]
  exact hid

theorem jobsGrow_trans (F : Int → Prop) (st st2 st3 : CronState)
    (h12 : JobsGrow F st st2) (h23 : JobsGrow F st2 st3) : JobsGrow F st st3 := by
  obtain ⟨hsub1, hnew1, add1, hc1, hnd1, hj1⟩ := h12
  obtain ⟨hsub2, hnew2, add2, hc2, hnd2, hj2⟩ := h23
  refine ⟨fun x hx => hsub2 (hsub1 hx), ?_, add1 ++ add2, ?_, ?_, ?_⟩
  · intro id hid
    rcases hnew2 id hid with h | h
    · exact hnew1 id h
    · exact Or.inr h
  · rw [hc2, hc1, List.append_assoc]
  · rw [List.map_append, List.nodup_append]
    refine ⟨hnd1, hnd2, ?_⟩
    intro x hx1 hx2
    obtain ⟨j1, hj1m, rfl⟩ := List.mem_map.1 hx1
    obtain ⟨j2, hj2m, hj2e⟩ := List.mem_map.1 hx2
    have := (hj2 j2 hj2m).1
    rw [hj2e] at this
    exact this (hj1 j1 hj1m).2.1
  · intro j hj
    rcases List.mem_append.1 hj with h | h
    · exact ⟨(hj1 j h).1, hsub2 (hj1 j h).2.1, (hj1 j h).2.2⟩
    · exact ⟨fun hh => (hj2 j h).1 (hsub1 hh), (hj2 j h).2.1, (hj2 j h).2.2⟩

theorem traceQuiet_same (F : Int → Prop) (st st2 : CronState) (h1 : st2.trace = st.trace) :
    TraceQuiet F st st2 :=
  ⟨[], by simp [h1], by simp⟩

theorem traceQuiet_trans (F : Int → Prop) (st st2 st3 : CronState)
    (h12 : TraceQuiet F st st2) (h23 : TraceQuiet F st2 st3) : TraceQuiet F st st3 := by
  obtain ⟨e1, ht1, hq1⟩ := h12
  obtain ⟨e2, ht2, hq2⟩ := h23
  refine ⟨e1 ++ e2, by rw [ht2, ht1, List.append_assoc], ?_⟩
  intro e he
  rcases List.mem_append.1 he with h | h
  · exact hq1 e h
  · exact hq2 e h

/-- The events `UpdateToken` appends, all of them for its own project. -/
theorem UpdateToken_events (gc : GitlabClient) (projectId : Int) (buildKey token : String)
    (tr : List Event) :
    ∃ events, UpdateToken gc projectId buildKey token tr = tr ++ events ∧
      ∀ e ∈ events, ∀ id, id ≠ projectId → e.touches id = false := by
  unfold UpdateToken
  cases gc.UpdateBuildVariable tr projectId buildKey token with
  | none =>
    refine ⟨[.updateBuildVariable projectId buildKey token,
      .logInfo (buildKey ++ " Updated for project " ++ toString projectId)], by simp, ?_⟩
    intro e he id hid
    simp only [List.mem_cons, List.mem_singleton, List.not_mem_nil, or_false] at he
    rcases he with rfl | rfl
    · simpa [Event.touches] using fun hh => hid hh.symm
    · rfl
  | some err =>
    simp only [CheckError]
    cases gc.CreateBuildVariable (tr ++ [.updateBuildVariable projectId buildKey token] ++
        [.logError err]) projectId buildKey token with
    | none =>
      refine ⟨[.updateBuildVariable projectId buildKey token, .logError err,
        .createBuildVariable projectId buildKey token,
        .logInfo (buildKey ++ " Created for project " ++ toString projectId)], by simp, ?_⟩
      intro e he id hid
      simp only [List.mem_cons, List.mem_singleton, List.not_mem_nil, or_false] at he
      rcases he with rfl | rfl | rfl | rfl
      · simpa [Event.touches] using fun hh => hid hh.symm
      · rfl
      · simpa [Event.touches] using fun hh => hid hh.symm
      · rfl
    | some err2 =>
      refine ⟨[.updateBuildVariable projectId buildKey token, .logError err,
        .createBuildVariable projectId buildKey token, .logError err2], by simp, ?_⟩
      intro e he id hid
      simp only [List.mem_cons, List.mem_singleton, List.not_mem_nil, or_false] at he
      rcases he with rfl | rfl | rfl | rfl
      · simpa [Event.touches] using fun hh => hid hh.symm
      · rfl
      · simpa [Event.touches] using fun hh => hid hh.symm
      · rfl

/-- One round of the inner loop: what it may do to the registration set, the
scheduler and the events, when the IDs in `F` are registered already or
resolve to a disabled `RepoSpec`. -/
theorem visitProject_grow (lv : LoopVar) (parses : String → Bool) (gc : GitlabClient) (vc : VaultClient)
    (h : Heap) (gs : GlobalSpec) (v : Nat) (st : CronState) (project : Project)
    (F : Int → Prop)
    (hF : F project.ID → project.ID ∈ st.CronMap ∨
      resolvesDisabled h gs project.PathWithNamespace = true) :
    JobsGrow F st (visitProject lv parses gc vc h gs v st project).1 ∧
    TraceQuiet F st (visitProject lv parses gc vc h gs v st project).1 := by
  unfold visitProject
  simp only []
  split
  · exact ⟨jobsGrow_same _ _ _ rfl rfl, traceQuiet_same _ _ _ rfl⟩
  · exact ⟨jobsGrow_same _ _ _ rfl rfl, traceQuiet_same _ _ _ rfl⟩
  · rename_i link hget
    split
    · exact ⟨jobsGrow_same _ _ _ rfl rfl, traceQuiet_same _ _ _ rfl⟩
    · rename_i a hrs
      split
      · exact ⟨jobsGrow_same _ _ _ rfl rfl, traceQuiet_same _ _ _ rfl⟩
      · exact ⟨jobsGrow_same _ _ _ rfl rfl, traceQuiet_same _ _ _ rfl⟩
      · rename_i hen
        split_ifs with hreg
        · exact ⟨jobsGrow_same _ _ _ rfl rfl, traceQuiet_same _ _ _ rfl⟩
        · have hnF : ¬ F project.ID := by
            intro hh
            rcases hF hh with h1 | h1
            · exact hreg h1
            · simp [resolvesDisabled, hget, hrs, hen] at h1
          have hne : ∀ id, F id → id ≠ project.ID := fun id hid hh => hnF (hh ▸ hid)
          split
          · rename_i vaultErr hcreate
            refine ⟨⟨?_, ?_, [], by simp, by simp, by simp⟩, ?_⟩
            · intro x hx
              exact List.mem_cons_of_mem _ hx
            · intro id hid
              rcases List.mem_cons.1 hid with rfl | hid
              · exact Or.inr hnF
              · exact Or.inl hid
            · refine ⟨[.tokenCreate project.ID link.TokenSpec, .logError vaultErr],
                by simp, ?_⟩
              intro e he id hid
              simp only [List.mem_cons, List.mem_singleton, List.not_mem_nil, or_false] at he
              rcases he with rfl | rfl
              · simpa [Event.touches] using fun hh => hne id hid hh.symm
              · rfl
          · rename_i token hcreate
            obtain ⟨events, hev, hq⟩ := UpdateToken_events gc project.ID (h.read a).BuildKey token
              (st.trace ++ [.tokenCreate project.ID link.TokenSpec])
            refine ⟨⟨?_, ?_, ?_⟩, ?_⟩
            · intro x hx
              exact List.mem_cons_of_mem _ hx
            · intro id hid
              rcases List.mem_cons.1 hid with rfl | hid
              · exact Or.inr hnF
              · exact Or.inl hid
            · unfold AddFunc
              split_ifs
              · refine ⟨[_], rfl, by simp, ?_⟩
                intro j hj
                simp only [List.mem_singleton] at hj
                subst hj
                exact ⟨hreg, List.mem_cons_self _ _, hnF⟩
              · exact ⟨[], by simp, by simp, by simp⟩
            · refine ⟨.tokenCreate project.ID link.TokenSpec :: events, ?_, ?_⟩
              · simp only [hev]
                simp
              · intro e he id hid
                rcases List.mem_cons.1 he with rfl | he
                · simpa [Event.touches] using fun hh => hne id hid hh.symm
                · exact hq e he id (hne id hid)

theorem visitProjects_grow (lv : LoopVar) (parses : String → Bool) (gc : GitlabClient) (vc : VaultClient)
    (h : Heap) (gs : GlobalSpec) (v : Nat) (F : Int → Prop) :
    ∀ (ps : List Project) (st : CronState),
      (∀ pr ∈ ps, F pr.ID → pr.ID ∈ st.CronMap ∨
        resolvesDisabled h gs pr.PathWithNamespace = true) →
      JobsGrow F st (visitProjects lv parses gc vc h gs v st ps).1 ∧
      TraceQuiet F st (visitProjects lv parses gc vc h gs v st ps).1 := by
  intro ps
  induction ps with
  | nil =>
    intro st _
    exact ⟨jobsGrow_same _ _ _ rfl rfl, traceQuiet_same _ _ _ rfl⟩
  | cons project rest ih =>
    intro st hF
    have h1 := visitProject_grow lv parses gc vc h gs v st project F
      (hF project (List.mem_cons_self _ _))
    simp only [visitProjects]
    split
    · rename_i st1 hvp
      rw [hvp] at h1
      have h2 := ih st1 (fun pr hpr hFpr => by
        rcases hF pr (List.mem_cons_of_mem _ hpr) hFpr with hh | hh
        · exact Or.inl (h1.1.1 hh)
        · exact Or.inr hh)
      exact ⟨jobsGrow_trans _ _ _ _ h1.1 h2.1, traceQuiet_trans _ _ _ _ h1.2 h2.2⟩
    · exact h1

theorem listProjects_grow (lv : LoopVar) (gc : GitlabClient) (h : Heap) (gs : GlobalSpec) (F : Int → Prop)
    (st : CronState) (group : Group)
    (hF : ∀ id, F id → id ∈ st.CronMap ∨ AlwaysDisabled gc h gs id) :
    JobsGrow F st (listProjects lv gc st group).1 ∧ TraceQuiet F st (listProjects lv gc st group).1 ∧
    ∀ pr ∈ (listProjects lv gc st group).2, F pr.ID →
      pr.ID ∈ (listProjects lv gc st group).1.CronMap ∨
        resolvesDisabled h gs pr.PathWithNamespace = true := by
  unfold listProjects
  simp only []
  cases hl : gc.ListGroupProjects st.trace group.ID with
  | error err =>
    refine ⟨jobsGrow_same _ _ _ rfl rfl, ?_, ?_⟩
    · refine ⟨[.listGroupProjects group.ID, .logError err], by simp [CheckError], ?_⟩
      intro e he id _
      simp only [List.mem_cons, List.mem_singleton, List.not_mem_nil, or_false] at he
      rcases he with rfl | rfl <;> rfl
    · intro pr hpr
      cases hpr
  | ok projects =>
    refine ⟨jobsGrow_same _ _ _ rfl rfl, ?_, ?_⟩
    · refine ⟨[.listGroupProjects group.ID], rfl, ?_⟩
      intro e he id _
      simp only [List.mem_singleton] at he
      subst he
      rfl
    · intro pr hpr hFpr
      rcases hF pr.ID hFpr with hh | hh
      · exact Or.inl hh
      · exact Or.inr (hh _ _ _ hl pr hpr rfl)

theorem visitGroups_grow (lv : LoopVar) (parses : String → Bool) (gc : GitlabClient) (vc : VaultClient)
    (h : Heap) (gs : GlobalSpec) (F : Int → Prop) :
    ∀ (groups : List Group) (st : CronState),
      (∀ id, F id → id ∈ st.CronMap ∨ AlwaysDisabled gc h gs id) →
      JobsGrow F st (visitGroups lv parses gc vc h gs st groups).1 ∧
      TraceQuiet F st (visitGroups lv parses gc vc h gs st groups).1 := by
  intro groups
  induction groups with
  | nil =>
    intro st _
    exact ⟨jobsGrow_same _ _ _ rfl rfl, traceQuiet_same _ _ _ rfl⟩
  | cons group rest ih =>
    intro st hF
    simp only [visitGroups]
    obtain ⟨h0, h0t, hps⟩ := listProjects_grow lv gc h gs F st group hF
    have h1 := visitProjects_grow lv parses gc vc h gs st.vars.length F _ _ hps
    have hlisted := And.intro (jobsGrow_trans _ _ _ _ h0 h1.1) (traceQuiet_trans _ _ _ _ h0t h1.2)
    split
    · rename_i st2 hvp
      rw [hvp] at hlisted
      have h2 := ih st2 (fun id hid => by
        rcases hF id hid with hh | hh
        · exact Or.inl (hlisted.1.1 hh)
        · exact Or.inr hh)
      exact ⟨jobsGrow_trans _ _ _ _ hlisted.1 h2.1, traceQuiet_trans _ _ _ _ hlisted.2 h2.2⟩
    · exact hlisted

/-- One discovery tick: what it may do to the registration set, the
scheduler and the events, when the IDs in `F` are registered already or are
always listed disabled. -/
theorem UpdateCron_grow (lv : LoopVar) (parses : String → Bool) (gc : GitlabClient) (vc : VaultClient)
    (h : Heap) (gs : GlobalSpec) (F : Int → Prop) (st : CronState)
    (hF : ∀ id, F id → id ∈ st.CronMap ∨ AlwaysDisabled gc h gs id) :
    JobsGrow F st (UpdateCron lv parses gc vc h gs st).1 ∧
    TraceQuiet F st (UpdateCron lv parses gc vc h gs st).1 := by
  unfold UpdateCron
  have h0 : JobsGrow F st (listGroups gc st).1 ∧ TraceQuiet F st (listGroups gc st).1 := by
    unfold listGroups
    simp only []
    cases gc.ListGroups st.trace with
    | error err =>
      refine ⟨jobsGrow_same _ _ _ rfl rfl, [.listGroups, .logError err], by simp [CheckError], ?_⟩
      intro e he id _
      simp only [List.mem_cons, List.mem_singleton, List.not_mem_nil, or_false] at he
      rcases he with rfl | rfl <;> rfl
    | ok groups =>
      refine ⟨jobsGrow_same _ _ _ rfl rfl, [.listGroups], rfl, ?_⟩
      intro e he id _
      simp only [List.mem_singleton] at he
      subst he
      rfl
  have h1 := visitGroups_grow lv parses gc vc h gs F (listGroups gc st).2 (listGroups gc st).1
    (fun id hid => by
      rcases hF id hid with hh | hh
      · exact Or.inl (h0.1.1 hh)
      · exact Or.inr hh)
  exact ⟨jobsGrow_trans _ _ _ _ h0.1 h1.1, traceQuiet_trans _ _ _ _ h0.2 h1.2⟩

theorem fire_same (gc : GitlabClient) (vc : VaultClient) (h : Heap) (st : CronState)
    (job : Job) :
    (fire gc vc h st job).1.CronMap = st.CronMap ∧ (fire gc vc h st job).1.Cron = st.Cron := by
  unfold fire
  simp only []
  split
  · exact ⟨rfl, rfl⟩
  · split <;> exact ⟨rfl, rfl⟩

theorem step_grow (lv : LoopVar) (parses : String → Bool) (gc : GitlabClient) (vc : VaultClient)
    (h : Heap) (gs : GlobalSpec) (F : Int → Prop) (st : CronState) (s : Step)
    (hF : ∀ id, F id → id ∈ st.CronMap ∨ AlwaysDisabled gc h gs id) :
    JobsGrow F st (step lv parses gc vc h gs st s).1 := by
  cases s with
  | tick => exact (UpdateCron_grow lv parses gc vc h gs F st hF).1
  | fire i =>
    simp only [step]
    split
    · exact jobsGrow_same _ _ _ rfl rfl
    · exact jobsGrow_same _ _ _ (fire_same gc vc h st _).1 (fire_same gc vc h st _).2

theorem run_grow (lv : LoopVar) (parses : String → Bool) (gc : GitlabClient) (vc : VaultClient)
    (h : Heap) (gs : GlobalSpec) (F : Int → Prop) :
    ∀ (steps : List Step) (st : CronState),
      (∀ id, F id → id ∈ st.CronMap ∨ AlwaysDisabled gc h gs id) →
      JobsGrow F st (run lv parses gc vc h gs st steps).1 := by
  intro steps
  induction steps with
  | nil =>
    intro st _
    exact jobsGrow_same _ _ _ rfl rfl
  | cons s rest ih =>
    intro st hF
    have h1 := step_grow lv parses gc vc h gs F st s hF
    simp only [run]
    split
    · rename_i st1 p hs
      rw [hs] at h1
      exact h1
    · rename_i st1 fl hne hs
      rw [hs] at h1
      have h2 := ih st1 (fun id hid => by
        rcases hF id hid with hh | hh
        · exact Or.inl (h1.1 hh)
        · exact Or.inr hh)
      exact jobsGrow_trans _ _ _ _ h1 h2

theorem ticks_quiet (lv : LoopVar) (parses : String → Bool) (gc : GitlabClient) (vc : VaultClient)
    (h : Heap) (gs : GlobalSpec) (F : Int → Prop) :
    ∀ (n : Nat) (st : CronState),
      (∀ id, F id → id ∈ st.CronMap ∨ AlwaysDisabled gc h gs id) →
      TraceQuiet F st (run lv parses gc vc h gs st (List.replicate n Step.tick)).1 := by
  intro n
  induction n with
  | zero =>
    intro st _
    exact traceQuiet_same _ _ _ rfl
  | succ n ih =>
    intro st hF
    have h1 := UpdateCron_grow lv parses gc vc h gs F st hF
    simp only [List.replicate, run, step]
    split
    · rename_i st1 p hs
      rw [hs] at h1
      exact h1.2
    · rename_i st1 fl hne hs
      rw [hs] at h1
      have h2 := ih st1 (fun id hid => by
        rcases hF id hid with hh | hh
        · exact Or.inl (h1.1.1 hh)
        · exact Or.inr hh)
      exact traceQuiet_trans _ _ _ _ h1.2 h2

/-! ## Claims on the discovery loop -/

theorem filter_addedFor_length (id : Int) :
    ∀ l : List Job, (l.map Job.addedFor).Nodup →
      (l.filter (fun j => decide (j.addedFor = id))).length ≤ 1 := by
  intro l
  induction l with
  | nil => intro _; simp
  | cons j rest ih =>
    intro hnd
    simp only [List.map_cons, List.nodup_cons] at hnd
    by_cases hj : j.addedFor = id
    · have hnone : rest.filter (fun j => decide (j.addedFor = id)) = [] := by
        rw [List.filter_eq_nil_iff]
        intro x hx hxid
        simp only [decide_eq_true_eq] at hxid
        exact hnd.1 (List.mem_map.2 ⟨x, hx, by rw [hxid, hj]⟩)
      simp [List.filter_cons, hj, hnone]
    · simpa [List.filter_cons, hj] using ih hnd.2

/-- C7: at most one recurring job per repository.  In every run of the
process from the initial state (ticks, with firings of scheduled entries in
between), the scheduler holds at most one entry added for any project ID and
every entry is for a registered ID; no step ever removes a key from
`CronMap`; observing a project whose ID is in `CronMap` performs no
issuance, no variable write and no scheduling; and observing an enabled
project whose ID is not in `CronMap` puts it there. -/
theorem at_most_one_job_per_repository (lv : LoopVar) (parses : String → Bool) (gc : GitlabClient)
    (vc : VaultClient) (h : Heap) (gs : GlobalSpec) :
    (∀ steps id,
      (((run lv parses gc vc h gs CronState.init steps).1.Cron).filter
        (fun j => decide (j.addedFor = id))).length ≤ 1) ∧
    (∀ steps, ∀ j ∈ (run lv parses gc vc h gs CronState.init steps).1.Cron,
      j.addedFor ∈ (run lv parses gc vc h gs CronState.init steps).1.CronMap) ∧
    (∀ st s, st.CronMap ⊆ (step lv parses gc vc h gs st s).1.CronMap) ∧
    (∀ v st project, project.ID ∈ st.CronMap →
      (visitProject lv parses gc vc h gs v st project).1.CronMap = st.CronMap ∧
      (visitProject lv parses gc vc h gs v st project).1.Cron = st.Cron ∧
      (visitProject lv parses gc vc h gs v st project).1.trace = st.trace) ∧
    (∀ v st project link a, GetSpecForPath gs project.PathWithNamespace = .ok (some link) →
      link.RepositorySpec = some a → (h.read a).Enabled = some true →
      project.ID ∉ st.CronMap →
      project.ID ∈ (visitProject lv parses gc vc h gs v st project).1.CronMap) := by
  refine ⟨?_, ?_, ?_, ?_, ?_⟩
  · intro steps id
    obtain ⟨-, -, added, hc, hnd, -⟩ := run_grow lv parses gc vc h gs (fun _ => False) steps
      CronState.init (fun _ hh => hh.elim)
    rw [hc]
    simp only [CronState.init, List.nil_append]
    exact filter_addedFor_length id added hnd
  · intro steps j hj
    obtain ⟨-, -, added, hc, -, hadd⟩ := run_grow lv parses gc vc h gs (fun _ => False) steps
      CronState.init (fun _ hh => hh.elim)
    rw [hc] at hj
    simp only [CronState.init, List.nil_append] at hj
    exact (hadd j hj).2.1
  · intro st s
    exact (step_grow lv parses gc vc h gs (fun _ => False) st s (fun _ hh => hh.elim)).1
  · intro v st project hreg
    unfold visitProject
    simp only []
    split
    · exact ⟨rfl, rfl, rfl⟩
    · exact ⟨rfl, rfl, rfl⟩
    · split
      · exact ⟨rfl, rfl, rfl⟩
      · split
        · exact ⟨rfl, rfl, rfl⟩
        · exact ⟨rfl, rfl, rfl⟩
        · rw [if_pos hreg]
          exact ⟨rfl, rfl, rfl⟩
  · intro v st project link a hget hrs hen hreg
    unfold visitProject
    simp only [hget, hrs, hen, if_neg hreg]
    split <;> exact List.mem_cons_self _ _

/-- Witness for C7: three ticks over a platform that lists project 42 each
time, with a working issuer, on the loaded inheritance example: one entry,
"@every 30m", added for 42 at the first tick and none after. -/
theorem at_most_one_job_per_repository_witness :
    (∀ lv, (run lv parseDurationOk onePlatform goodVault exLoaded.heap exLoaded.spec
      CronState.init [.tick, .tick, .tick]).1.Cron =
      [{ schedule := "@every 30m",
         link := { RepositorySpec := some 1, TokenSpec := some infraToken },
         projectVar := 0, addedFor := 42 }]) ∧
    (∀ lv, (run lv parseDurationOk onePlatform goodVault exLoaded.heap exLoaded.spec
      CronState.init [.tick, .tick, .tick]).1.CronMap = [42]) ∧
    (∀ lv, (((run lv parseDurationOk onePlatform goodVault exLoaded.heap exLoaded.spec
      CronState.init [.tick, .tick, .tick]).1.Cron).filter
        (fun j => decide (j.addedFor = 42))).length ≤ 1) :=
  ⟨fun lv => by cases lv <;> decide, fun lv => by cases lv <;> decide,
    fun lv => (at_most_one_job_per_repository lv parseDurationOk onePlatform goodVault
      exLoaded.heap exLoaded.spec).1 [.tick, .tick, .tick] 42⟩

/-- C8: a disabled repository is never touched by `UpdateCron`.  An
observation of a project that resolves to `Enabled` false changes neither
`CronMap`, nor the scheduler, nor the events, and the loop goes on.  And when
every listing of the ID `id` resolves to a disabled `RepoSpec`, then in every
run from the initial state `id` is never in `CronMap` and no entry is ever
added for it, and after any number of ticks no issuance and no variable write
was made for it. -/
theorem disabled_repository_untouched (lv : LoopVar) (parses : String → Bool) (gc : GitlabClient)
    (vc : VaultClient) (h : Heap) (gs : GlobalSpec) (id : Int)
    (hdis : AlwaysDisabled gc h gs id) :
    (∀ v st project, resolvesDisabled h gs project.PathWithNamespace = true →
      (visitProject lv parses gc vc h gs v st project).2 = .next ∧
      (visitProject lv parses gc vc h gs v st project).1.CronMap = st.CronMap ∧
      (visitProject lv parses gc vc h gs v st project).1.Cron = st.Cron ∧
      (visitProject lv parses gc vc h gs v st project).1.trace = st.trace) ∧
    (∀ steps,
      id ∉ (run lv parses gc vc h gs CronState.init steps).1.CronMap ∧
      ∀ j ∈ (run lv parses gc vc h gs CronState.init steps).1.Cron, j.addedFor ≠ id) ∧
    ∀ n, ∀ e ∈ (run lv parses gc vc h gs CronState.init (List.replicate n Step.tick)).1.trace,
      e.touches id = false := by
  have hF : ∀ x, x = id → x ∈ CronState.init.CronMap ∨ AlwaysDisabled gc h gs x := by
    intro x hx
    subst hx
    exact Or.inr hdis
  refine ⟨?_, ?_, ?_⟩
  · intro v st project hres
    unfold resolvesDisabled at hres
    unfold visitProject
    simp only []
    split
    · rename_i hget; simp [hget] at hres
    · rename_i hget; simp [hget] at hres
    · rename_i link hget
      simp only [hget] at hres
      split
      · rename_i hrs; simp [hrs] at hres
      · rename_i a hrs
        simp only [hrs, beq_iff_eq] at hres
        simp [hres]
  · intro steps
    obtain ⟨-, hnew, added, hc, -, hadd⟩ := run_grow lv parses gc vc h gs (fun x => x = id)
      steps CronState.init hF
    refine ⟨?_, ?_⟩
    · intro hid
      rcases hnew id hid with hh | hh
      · simp [CronState.init] at hh
      · exact hh rfl
    · intro j hj
      rw [hc] at hj
      simp only [CronState.init, List.nil_append] at hj
      exact (hadd j hj).2.2
  · intro n e he
    obtain ⟨events, ht, hq⟩ := ticks_quiet lv parses gc vc h gs (fun x => x = id) n
      CronState.init hF
    rw [ht] at he
    simp only [CronState.init, List.nil_append] at he
    exact hq e he id rfl

/-- Witness for C8: the platform lists project 42 at "infra/app", which
resolves to the disabled default of group "infra"; after three ticks nothing
is registered or scheduled and the events are the listings only. -/
theorem disabled_repository_untouched_witness :
    AlwaysDisabled onePlatform offHeap offSpec 42 ∧
    (∀ lv, 42 ∉ (run lv parseDurationOk onePlatform goodVault offHeap offSpec CronState.init
        (List.replicate 3 Step.tick)).1.CronMap ∧
      ∀ j ∈ (run lv parseDurationOk onePlatform goodVault offHeap offSpec CronState.init
          (List.replicate 3 Step.tick)).1.Cron, j.addedFor ≠ 42) ∧
    (∀ lv, ∀ e ∈ (run lv parseDurationOk onePlatform goodVault offHeap offSpec CronState.init
        (List.replicate 3 Step.tick)).1.trace, e.touches 42 = false) ∧
    (∀ lv, (run lv parseDurationOk onePlatform goodVault offHeap offSpec CronState.init
      (List.replicate 3 Step.tick)).1.trace =
      [.listGroups, .listGroupProjects 7, .listGroups, .listGroupProjects 7,
        .listGroups, .listGroupProjects 7]) := by
  have hdis : AlwaysDisabled onePlatform offHeap offSpec 42 := by
    intro tr group projects hl pr hpr _
    simp only [onePlatform, Except.ok.injEq] at hl
    subst hl
    simp only [List.mem_singleton] at hpr
    subst hpr
    decide
  exact ⟨hdis,
    fun lv => (disabled_repository_untouched lv parseDurationOk onePlatform goodVault offHeap
      offSpec 42 hdis).2.1 (List.replicate 3 Step.tick),
    fun lv => (disabled_repository_untouched lv parseDurationOk onePlatform goodVault offHeap
      offSpec 42 hdis).2.2 3,
    fun lv => by cases lv <;> decide⟩

/-- C9: update-or-create.  `UpdateToken` appends to the events exactly one
call of the update operation, with its own project, key and value; when that
call succeeds it makes no call of the create operation, and when it fails it
makes exactly one, with the same project, key and value.  It is a total
function of what the two operations answer: it has no panicking outcome. -/
theorem updateToken_update_or_create (gc : GitlabClient) (projectId : Int)
    (buildKey token : String) (tr : List Event) :
    ∃ events, UpdateToken gc projectId buildKey token tr = tr ++ events ∧
      events.filter Event.isUpdate = [.updateBuildVariable projectId buildKey token] ∧
      (gc.UpdateBuildVariable tr projectId buildKey token = none →
        events.filter Event.isCreate = []) ∧
      (gc.UpdateBuildVariable tr projectId buildKey token ≠ none →
        events.filter Event.isCreate = [.createBuildVariable projectId buildKey token]) := by
  unfold UpdateToken
  cases hu : gc.UpdateBuildVariable tr projectId buildKey token with
  | none =>
    exact ⟨[.updateBuildVariable projectId buildKey token,
      .logInfo (buildKey ++ " Updated for project " ++ toString projectId)], by simp,
      by simp [List.filter, Event.isUpdate], by simp [List.filter, Event.isCreate], by simp⟩
  | some err =>
    simp only [CheckError]
    cases gc.CreateBuildVariable (tr ++ [.updateBuildVariable projectId buildKey token] ++
        [.logError err]) projectId buildKey token with
    | none =>
      exact ⟨[.updateBuildVariable projectId buildKey token, .logError err,
        .createBuildVariable projectId buildKey token,
        .logInfo (buildKey ++ " Created for project " ++ toString projectId)], by simp,
        by simp [List.filter, Event.isUpdate], by simp, by simp [List.filter, Event.isCreate]⟩
    | some err2 =>
      exact ⟨[.updateBuildVariable projectId buildKey token, .logError err,
        .createBuildVariable projectId buildKey token, .logError err2], by simp,
        by simp [List.filter, Event.isUpdate], by simp, by simp [List.filter, Event.isCreate]⟩

/-- Witness for C9: on a platform where the variable is absent the update
fails and the variable is created, once, with the same key and value. -/
theorem updateToken_update_or_create_witness :
    UpdateToken onePlatform 42 "VAULT_TOKEN" "s.1" [] =
      [.updateBuildVariable 42 "VAULT_TOKEN" "s.1", .logError "404 Variable Not Found",
        .createBuildVariable 42 "VAULT_TOKEN" "s.1",
        .logInfo "VAULT_TOKEN Created for project 42"] ∧
    ∃ events, UpdateToken onePlatform 42 "VAULT_TOKEN" "s.1" [] = [] ++ events ∧
      events.filter Event.isUpdate = [.updateBuildVariable 42 "VAULT_TOKEN" "s.1"] ∧
      (onePlatform.UpdateBuildVariable [] 42 "VAULT_TOKEN" "s.1" = none →
        events.filter Event.isCreate = []) ∧
      (onePlatform.UpdateBuildVariable [] 42 "VAULT_TOKEN" "s.1" ≠ none →
        events.filter Event.isCreate = [.createBuildVariable 42 "VAULT_TOKEN" "s.1"]) :=
  ⟨by decide, updateToken_update_or_create onePlatform 42 "VAULT_TOKEN" "s.1" []⟩

/-- C10, at the failing input: the platform lists the enabled project 42,
and the first call of the secret issuer fails (later calls would succeed).
The first tick registers 42 in `CronMap`, logs the error and returns before
`AddFunc`; in every continuation of the run, ticks and firings alike, no
entry for 42 is ever scheduled, because 42 is registered. -/
theorem failed_first_issuance_never_scheduled :
    (∀ lv, UpdateCron lv parseDurationOk onePlatform flakyVault exLoaded.heap exLoaded.spec
      CronState.init = (failedFirstTick, .returned)) ∧
    42 ∈ failedFirstTick.CronMap ∧
    failedFirstTick.Cron = [] ∧
    flakyVault.Create failedFirstTick.trace (some infraToken) = .ok "s.1" ∧
    ∀ lv steps, ∀ j ∈ (run lv parseDurationOk onePlatform flakyVault exLoaded.heap
      exLoaded.spec failedFirstTick steps).1.Cron, j.addedFor ≠ 42 := by
  refine ⟨fun lv => by cases lv <;> decide, by decide, by decide, by decide, ?_⟩
  intro lv steps j hj
  obtain ⟨-, -, added, hc, -, hadd⟩ := run_grow lv parseDurationOk onePlatform flakyVault
    exLoaded.heap exLoaded.spec (fun x => x = 42) steps failedFirstTick
    (fun x hx => Or.inl (by subst hx; decide))
  rw [hc] at hj
  simp only [failedFirstTick, List.nil_append] at hj
  exact (hadd j hj).2.2

/-! ## Further claims on policy resolution -/

theorem splitSlash_of_mem :
    ∀ cs : List Char, '/' ∈ cs → ∃ g p rest, splitSlash cs = g :: p :: rest := by
  intro cs
  induction cs with
  | nil => intro hh; cases hh
  | cons c cs ih =>
    intro hmem
    by_cases hc : c = '/'
    · obtain ⟨x, xs, hx⟩ := List.exists_cons_of_ne_nil (splitSlash_ne_nil cs)
      exact ⟨[], x, xs, by simp [splitSlash, hc, hx]⟩
    · have hcs : '/' ∈ cs := by
        rcases List.mem_cons.1 hmem with hh | hh
        · exact absurd hh.symm hc
        · exact hh
      obtain ⟨g, p, rest, hs⟩ := ih hcs
      exact ⟨c :: g, p, rest, by simp [splitSlash, hc, hs]⟩

/-- On a tree on which `Load` returns, every path of at least two segments
resolves to a non-nil `*LinkSpec`. -/
theorem GetSpecForPath_some (parses : String → Bool) (h : Heap) (gs : GlobalSpec)
    (ld : Loaded) (hload : Load parses (.ok (h, gs)) = .ok ld)
    (path g p : String) (rest : List String) (hs : Split path = g :: p :: rest) :
    ∃ link, GetSpecForPath ld.spec path = .ok (some link) := by
  obtain ⟨d0, p0, ts0, log0, hd0, hrs0, hts0, -, -, -, hspec, hgl⟩ := Load_ok parses h gs ld hload
  obtain ⟨-, hall⟩ := loadGroups_spec parses _ _ _ _ _ _ hgl
  unfold GetSpecForPath
  rw [hs, hspec]
  simp only [lookup_mergedGroups]
  cases hlg : gs.Groups.lookup g with
  | none => exact ⟨d0, by simp⟩
  | some og =>
    obtain ⟨grp, d, hgrp, hd, hpres⟩ := hall _ (mem_of_lookup g _ _ hlg)
    simp only at hgrp
    subst hgrp
    simp only [Option.map_some', mergedGroup, hd, lookup_mergedProjects]
    cases hlp : grp.Projects.lookup p with
    | none => exact ⟨mergedLink p0 (some ts0) d, by simp⟩
    | some op =>
      cases op with
      | none => exact absurd rfl (hpres _ (mem_of_lookup p _ _ hlp))
      | some proj =>
        exact ⟨mergedLink (d.RepositorySpec.getD p0) (mergedLink p0 (some ts0) d).TokenSpec proj,
          by simp⟩

/-- C19: `GetSpecForPath` is partial on short paths.  On a tree on which
`Load` returns, it fails with an index out of range exactly when the path has
no '/' in it, it has no other failure, and for every path with a '/' (two
segments or more, empty ones included) it returns a non-nil `*LinkSpec`. -/
theorem getSpecForPath_short_paths (parses : String → Bool) (h : Heap) (gs : GlobalSpec)
    (ld : Loaded) (hload : Load parses (.ok (h, gs)) = .ok ld) (path : String) :
    (GetSpecForPath ld.spec path = .error .indexOutOfRange ↔ noSlash path) ∧
    (∀ e, GetSpecForPath ld.spec path = .error e → e = .indexOutOfRange) ∧
    (¬ noSlash path → ∃ link, GetSpecForPath ld.spec path = .ok (some link)) := by
  have hshort : noSlash path → GetSpecForPath ld.spec path = .error .indexOutOfRange := by
    intro hns
    unfold GetSpecForPath Split
    rw [splitSlash_noSlash _ hns]
    rfl
  have hlong : ¬ noSlash path → ∃ link, GetSpecForPath ld.spec path = .ok (some link) := by
    intro hns
    have hmem : '/' ∈ path.data := by
      unfold noSlash at hns
      exact not_not.1 hns
    obtain ⟨g, p, rest, hsp⟩ := splitSlash_of_mem _ hmem
    exact GetSpecForPath_some parses h gs ld hload path (String.mk g) (String.mk p)
      (rest.map String.mk) (by simp [Split, hsp])
  refine ⟨⟨?_, hshort⟩, ?_, hlong⟩
  · intro herr
    by_contra hns
    obtain ⟨link, hl⟩ := hlong hns
    rw [hl] at herr
    cases herr
  · intro e herr
    by_cases hns : noSlash path
    · rw [hshort hns] at herr
      cases herr
      rfl
    · obtain ⟨link, hl⟩ := hlong hns
      rw [hl] at herr
      cases herr

/-- Witness for C19, on the loaded inheritance example: "infra" and the empty
path fail; "infra/", "/" and "//" have empty segments and resolve. -/
theorem getSpecForPath_short_paths_witness :
    Load parseDurationOk (.ok (exHeap, exSpec)) = .ok exLoaded ∧
    ((GetSpecForPath exLoaded.spec "infra" = .error .indexOutOfRange ↔ noSlash "infra") ∧
      (∀ e, GetSpecForPath exLoaded.spec "infra" = .error e → e = .indexOutOfRange) ∧
      (¬ noSlash "infra" → ∃ link, GetSpecForPath exLoaded.spec "infra" = .ok (some link))) ∧
    GetSpecForPath exLoaded.spec "infra" = .error .indexOutOfRange ∧
    GetSpecForPath exLoaded.spec "" = .error .indexOutOfRange ∧
    GetSpecForPath exLoaded.spec "infra/" =
      .ok (some { RepositorySpec := some 1, TokenSpec := some infraToken }) ∧
    GetSpecForPath exLoaded.spec "/" =
      .ok (some { RepositorySpec := some 0, TokenSpec := some ciToken }) ∧
    GetSpecForPath exLoaded.spec "//" =
      .ok (some { RepositorySpec := some 0, TokenSpec := some ciToken }) :=
  ⟨by decide,
    getSpecForPath_short_paths parseDurationOk exHeap exSpec exLoaded (by decide) "infra",
    by decide, by decide, by decide, by decide, by decide⟩

/-- C16: resolution is idempotent and free of side effects.  For every store,
tree and path, a call of `GetSpecForPath` leaves the store and the tree as it
was given them, and a second call with the same path returns the same
`*LinkSpec` (or the same panic), with the same fields behind it. -/
theorem getSpecForPath_idempotent (h : Heap) (gs : GlobalSpec) (path : String) :
    (resolveStep (h, gs) path).2 = (h, gs) ∧
    (resolveStep (resolveStep (h, gs) path).2 path).2 = (h, gs) ∧
    (resolveStep (resolveStep (h, gs) path).2 path).1 = (resolveStep (h, gs) path).1 ∧
    linkFields (resolveStep (resolveStep (h, gs) path).2 path).2.1
        (resolveStep (resolveStep (h, gs) path).2 path).1 =
      linkFields h (resolveStep (h, gs) path).1 :=
  ⟨rfl, rfl, rfl, rfl⟩

/-- Witness for C16, on the loaded inheritance example: two calls for
"infra/api" both return the project's `LinkSpec`, with the period "10m"
behind it. -/
theorem getSpecForPath_idempotent_witness :
    (resolveStep (exLoaded.heap, exLoaded.spec) "infra/api").1 =
      .ok (some { RepositorySpec := some 2, TokenSpec := some infraToken }) ∧
    linkFields exLoaded.heap
        (resolveStep (resolveStep (exLoaded.heap, exLoaded.spec) "infra/api").2 "infra/api").1 =
      .ok (some (some { BuildKey := "VAULT_TOKEN", Enabled := some true, RenewPeriod := "10m" },
        some infraToken)) ∧
    (resolveStep (resolveStep (exLoaded.heap, exLoaded.spec) "infra/api").2 "infra/api").1 =
      (resolveStep (exLoaded.heap, exLoaded.spec) "infra/api").1 :=
  ⟨by decide, by decide,
    (getSpecForPath_idempotent exLoaded.heap exLoaded.spec "infra/api").2.2.1⟩

/-- What `Load` does with an `enabled` that is left unset: the `RepoSpec`
takes the value of the level above it.  For a decoded tree on which `Load`
returns, the global default has `enabled` set and keeps it; a group default
that leaves it unset resolves to the global default's value, and a project
that leaves it unset resolves to the resolved value of its group default.
That value is true when the level above says true and false when it says
false. -/
theorem unset_enabled_inherits (parses : String → Bool) (h : Heap) (gs : GlobalSpec)
    (ld : Loaded) (hdec : Decoded h gs) (hload : Load parses (.ok (h, gs)) = .ok ld) :
    ∃ d0 p0, gs.Default = some d0 ∧ d0.RepositorySpec = some p0 ∧
      ld.spec = { Default := some d0, Groups := mergedGroups p0 d0.TokenSpec gs.Groups } ∧
      (h.read p0).Enabled ≠ none ∧
      (ld.heap.read p0).Enabled = (h.read p0).Enabled ∧
      ∀ e ∈ gs.Groups, ∃ grp d, e.2 = some grp ∧ grp.Default = some d ∧
        ((ownSpec h d).Enabled = none →
          (ld.heap.read (d.RepositorySpec.getD p0)).Enabled = (h.read p0).Enabled) ∧
        ∀ x ∈ grp.Projects, ∃ proj, x.2 = some proj ∧
          ((ownSpec h proj).Enabled = none →
            (ld.heap.read (proj.RepositorySpec.getD (d.RepositorySpec.getD p0))).Enabled =
              (ld.heap.read (d.RepositorySpec.getD p0)).Enabled) := by
  obtain ⟨d0, p0, ts0, hd0, hrs0, hts0, hspec, hcomp, hread0, hgroups⟩ :=
    Load_heap parses h gs ld hdec hload
  refine ⟨d0, p0, hd0, hrs0, by rw [hts0]; exact hspec, hcomp.2.1, by rw [hread0], ?_⟩
  intro e he
  obtain ⟨grp, d, hgrp, hd, hdef, hprojs⟩ := hgroups e he
  refine ⟨grp, d, hgrp, hd, ?_, ?_⟩
  · intro hunset
    rw [hdef]
    simp [inherit, hunset]
  · intro x hx
    obtain ⟨proj, hproj, hpread⟩ := hprojs x hx
    refine ⟨proj, hproj, ?_⟩
    intro hunset
    rw [hpread, hdef]
    simp [inherit, hunset]

/-- In the inheritance example the group "infra" leaves `enabled` unset and
the global default says true; the group default resolves to true. -/
theorem unset_enabled_inherits_witness :
    Decoded exHeap exSpec ∧
    Load parseDurationOk (.ok (exHeap, exSpec)) = .ok exLoaded ∧
    (∃ d0 p0, exSpec.Default = some d0 ∧ d0.RepositorySpec = some p0 ∧
      exLoaded.spec =
        { Default := some d0, Groups := mergedGroups p0 d0.TokenSpec exSpec.Groups } ∧
      (exHeap.read p0).Enabled ≠ none ∧
      (exLoaded.heap.read p0).Enabled = (exHeap.read p0).Enabled ∧
      ∀ e ∈ exSpec.Groups, ∃ grp d, e.2 = some grp ∧ grp.Default = some d ∧
        ((ownSpec exHeap d).Enabled = none →
          (exLoaded.heap.read (d.RepositorySpec.getD p0)).Enabled = (exHeap.read p0).Enabled) ∧
        ∀ x ∈ grp.Projects, ∃ proj, x.2 = some proj ∧
          ((ownSpec exHeap proj).Enabled = none →
            (exLoaded.heap.read
              (proj.RepositorySpec.getD (d.RepositorySpec.getD p0))).Enabled =
              (exLoaded.heap.read (d.RepositorySpec.getD p0)).Enabled)) ∧
    (exHeap.read 1).Enabled = none ∧
    (exHeap.read 0).Enabled = some true ∧
    (exLoaded.heap.read 1).Enabled = some true :=
  ⟨by decide, by decide,
    unset_enabled_inherits parseDurationOk exHeap exSpec exLoaded (by decide) (by decide),
    by decide, by decide, by decide⟩

/-- C15, at the failing inputs: nothing in `Load` fills in true for an
`enabled` that is left unset.  When the global default says `enabled` false
and the group "infra" leaves it unset, `Load` accepts the tree and the
group's `RepoSpec`, to which "infra/app" resolves, has `enabled` false, not
true.  When the global default itself leaves `enabled` unset, `Load` panics
instead of taking it as true. -/
theorem unset_enabled_resolves_false :
    Decoded offGlobalHeap offGlobalSpec ∧
    Load parseDurationOk (.ok (offGlobalHeap, offGlobalSpec)) = .ok offGlobalLoaded ∧
    (offGlobalHeap.read 1).Enabled = none ∧
    GetSpecForPath offGlobalLoaded.spec "infra/app" =
      .ok (some { RepositorySpec := some 1, TokenSpec := some ciToken }) ∧
    (offGlobalLoaded.heap.read 1).Enabled = some false ∧
    (offGlobalLoaded.heap.read 1).Enabled ≠ some true ∧
    (noEnabledHeap.read 0).Enabled = none ∧
    Load parseDurationOk (.ok (noEnabledHeap, soonGlobalSpec)) =
      .error (.message "Enabled should be present in the default spec") := by
  decide

/-- C18: the merge of `Load` never changes a parent level.  For a decoded
tree on which `Load` returns, the global default keeps its pointers
(`RepositorySpec`, `TokenSpec`) and the fields of its `RepoSpec`; the object
of every group default holds afterwards what the group's own merge against
the global default gives, with every field the group set itself as it was; a
group or project without a `RepositorySpec` of its own ends up with its
parent's pointer; and the loop over the projects of a group leaves the object
of the group default as it found it. -/
theorem load_keeps_parent_levels (parses : String → Bool) (h : Heap) (gs : GlobalSpec)
    (ld : Loaded) (hdec : Decoded h gs) (hload : Load parses (.ok (h, gs)) = .ok ld) :
    ∃ d0 p0, gs.Default = some d0 ∧ d0.RepositorySpec = some p0 ∧
      ld.spec.Default = some d0 ∧
      ld.heap.read p0 = h.read p0 ∧
      (∀ e ∈ gs.Groups, ∃ grp d, e.2 = some grp ∧ grp.Default = some d ∧
        ld.heap.read (d.RepositorySpec.getD p0) = inherit (ownSpec h d) (h.read p0) ∧
        ∀ c, d.RepositorySpec = some c →
          ((h.read c).BuildKey ≠ "" → (ld.heap.read c).BuildKey = (h.read c).BuildKey) ∧
          ((h.read c).Enabled ≠ none → (ld.heap.read c).Enabled = (h.read c).Enabled) ∧
          ((h.read c).RenewPeriod ≠ "" →
            (ld.heap.read c).RenewPeriod = (h.read c).RenewPeriod)) ∧
      (∀ g grp d, gs.Groups.lookup g = some (some grp) → grp.Default = some d →
        ∃ grp2 d2, ld.spec.Groups.lookup g = some (some grp2) ∧ grp2.Default = some d2 ∧
          (d.RepositorySpec = none → d2.RepositorySpec = some p0) ∧
          ∀ p proj, grp.Projects.lookup p = some (some proj) →
            ∃ proj2, grp2.Projects.lookup p = some (some proj2) ∧
              (proj.RepositorySpec = none → proj2.RepositorySpec = d2.RepositorySpec)) ∧
      ∀ (c : Nat) (pts : Option TokenCreateRequest) (st st2 : LoadState)
        (ps ps2 : List (String × Option LinkSpec)),
        loadProjects parses c pts st ps = .ok (st2, ps2) →
        c < st.heap.length → (∀ a ∈ projectsPtrs ps, a < st.heap.length) →
        (projectsPtrs ps).Nodup → c ∉ projectsPtrs ps →
        st2.heap.read c = st.heap.read c := by
  obtain ⟨d0, p0, ts0, hd0, hrs0, hts0, hspec, hcomp, hread0, hgroups⟩ :=
    Load_heap parses h gs ld hdec hload
  refine ⟨d0, p0, hd0, hrs0, by rw [hspec], hread0, ?_, ?_, ?_⟩
  · intro e he
    obtain ⟨grp, d, hgrp, hd, hdef, -⟩ := hgroups e he
    refine ⟨grp, d, hgrp, hd, hdef, ?_⟩
    intro c hc
    have hdef2 : ld.heap.read c = inherit (h.read c) (h.read p0) := by
      simpa [hc, ownSpec] using hdef
    rw [hdef2]
    refine ⟨?_, ?_, ?_⟩
    · intro hset
      simp [inherit, hset]
    · intro hset
      cases hen : (h.read c).Enabled with
      | none => exact absurd hen hset
      | some b => simp [inherit, hen]
    · intro hset
      simp [inherit, hset]
  · intro g grp d hlg hd
    refine ⟨mergedGroup p0 (some ts0) grp, mergedLink p0 (some ts0) d, ?_, ?_, ?_, ?_⟩
    · rw [hspec]
      simp [lookup_mergedGroups, hlg]
    · simp [mergedGroup, hd]
    · intro hnone
      simp [mergedLink, hnone]
    · intro p proj hlp
      refine ⟨mergedLink (d.RepositorySpec.getD p0) (mergedLink p0 (some ts0) d).TokenSpec proj,
        ?_, ?_⟩
      · simp [mergedGroup, hd, lookup_mergedProjects, hlp]
      · intro hnone
        simp [mergedLink, hnone]
  · intro c pts st st2 ps ps2 hlp hc hin hnd hcn
    obtain ⟨-, hread⟩ := loadProjects_heap parses c pts ps st st2 ps2 hlp hc hin hnd hcn
    rw [hread c, if_neg hcn]

/-- Witness for C18, on the inheritance example: the global default's object
is as decoded; the group "infra" keeps its own period "30m"; the project "app"
had no `RepositorySpec` and shares the group's object at 1. -/
theorem load_keeps_parent_levels_witness :
    Decoded exHeap exSpec ∧
    Load parseDurationOk (.ok (exHeap, exSpec)) = .ok exLoaded ∧
    exLoaded.heap.read 0 = exHeap.read 0 ∧
    (exLoaded.heap.read 1).RenewPeriod = (exHeap.read 1).RenewPeriod ∧
    GetSpecForPath exLoaded.spec "infra/app" =
      .ok (some { RepositorySpec := some 1, TokenSpec := some infraToken }) ∧
    ∃ d0 p0, exSpec.Default = some d0 ∧ d0.RepositorySpec = some p0 ∧
      exLoaded.spec.Default = some d0 ∧ exLoaded.heap.read p0 = exHeap.read p0 := by
  obtain ⟨d0, p0, h1, h2, h3, h4, -⟩ :=
    load_keeps_parent_levels parseDurationOk exHeap exSpec exLoaded (by decide) (by decide)
  exact ⟨by decide, by decide, by decide, by decide, by decide, d0, p0, h1, h2, h3, h4⟩

/-! ## Loop variables and scheduled entries -/

theorem varsKeep_same (n : Nat) (st st2 : CronState)
    (h1 : st2.vars = st.vars) (h2 : st2.Cron = st.Cron) : VarsKeep n st st2 :=
  ⟨by rw [h1], fun i _ => by rw [h1], [], by simp [h2], by simp⟩

theorem varsKeep_trans (n : Nat) (st st2 st3 : CronState)
    (h12 : VarsKeep n st st2) (h23 : VarsKeep n st2 st3) : VarsKeep n st st3 := by
  obtain ⟨hl1, hk1, add1, hc1, hj1⟩ := h12
  obtain ⟨hl2, hk2, add2, hc2, hj2⟩ := h23
  refine ⟨Nat.le_trans hl1 hl2, fun i hi => by rw [hk2 i hi, hk1 i hi], add1 ++ add2,
    by rw [hc2, hc1, List.append_assoc], ?_⟩
  intro j hj
  rcases List.mem_append.1 hj with hh | hh
  · exact ⟨Nat.lt_of_lt_of_le (hj1 j hh).1 hl2, (hj1 j hh).2⟩
  · exact hj2 j hh

theorem varsKeep_mono (n m : Nat) (st st2 : CronState) (hmn : m ≤ n)
    (hk : VarsKeep n st st2) : VarsKeep m st st2 :=
  ⟨hk.1, fun i hi => hk.2.1 i (Nat.lt_of_lt_of_le hi hmn), hk.2.2⟩

theorem visitProject_vars (lv : LoopVar) (parses : String → Bool) (gc : GitlabClient)
    (vc : VaultClient) (h : Heap) (gs : GlobalSpec) (v : Nat) (st : CronState)
    (project : Project) (n : Nat) (hn : n ≤ st.vars.length)
    (hsh : lv = .shared → n ≤ v ∧ v < st.vars.length) :
    VarsKeep n st (visitProject lv parses gc vc h gs v st project).1 := by
  have hlen : st.vars.length ≤ (beginRound lv v st.vars project).1.length := by
    cases lv <;> simp [beginRound]
  have hkeep : ∀ i, i < n → (beginRound lv v st.vars project).1[i]? = st.vars[i]? := by
    intro i hi
    cases lv with
    | perIteration =>
      simp only [beginRound]
      exact List.getElem?_append_left (by omega)
    | shared =>
      have hne : v ≠ i := fun hh => by have := (hsh rfl).1; omega
      simp [beginRound, List.getElem?_set_ne hne]
  have hw : (beginRound lv v st.vars project).2 < (beginRound lv v st.vars project).1.length := by
    cases lv with
    | perIteration => simp [beginRound]
    | shared => simpa [beginRound] using (hsh rfl).2
  have hbase : VarsKeep n st { st with vars := (beginRound lv v st.vars project).1 } :=
    ⟨hlen, hkeep, [], by simp, by simp⟩
  unfold visitProject
  simp only []
  split
  · exact hbase
  · exact hbase
  · rename_i link hget
    split
    · exact hbase
    · rename_i a hrs
      split
      · exact hbase
      · exact hbase
      · split_ifs with hreg
        · exact hbase
        · split
          · exact ⟨hlen, hkeep, [], by simp, by simp⟩
          · refine ⟨hlen, hkeep, ?_⟩
            unfold AddFunc
            split_ifs
            · refine ⟨[_], rfl, ?_⟩
              intro j hj
              simp only [List.mem_singleton] at hj
              subst hj
              exact ⟨hw, by simp [hrs]⟩
            · exact ⟨[], by simp, by simp⟩

theorem visitProjects_vars (lv : LoopVar) (parses : String → Bool) (gc : GitlabClient)
    (vc : VaultClient) (h : Heap) (gs : GlobalSpec) (v n : Nat) :
    ∀ (ps : List Project) (st : CronState), n ≤ st.vars.length →
      (lv = .shared → n ≤ v ∧ v < st.vars.length) →
      VarsKeep n st (visitProjects lv parses gc vc h gs v st ps).1 := by
  intro ps
  induction ps with
  | nil =>
    intro st _ _
    exact varsKeep_same _ _ _ rfl rfl
  | cons project rest ih =>
    intro st hn hsh
    have h1 := visitProject_vars lv parses gc vc h gs v st project n hn hsh
    simp only [visitProjects]
    split
    · rename_i st1 hvp
      rw [hvp] at h1
      exact varsKeep_trans _ _ _ _ h1 (ih st1 (Nat.le_trans hn h1.1)
        (fun hh => ⟨(hsh hh).1, Nat.lt_of_lt_of_le (hsh hh).2 h1.1⟩))
    · exact h1

theorem listProjects_vars (lv : LoopVar) (gc : GitlabClient) (st : CronState) (group : Group) :
    VarsKeep st.vars.length st (listProjects lv gc st group).1 ∧
    (lv = .shared → (listProjects lv gc st group).1.vars.length = st.vars.length + 1) := by
  have hlen : st.vars.length ≤ (enterLoop lv st.vars).length := by
    cases lv <;> simp [enterLoop]
  have hkeep : ∀ i, i < st.vars.length → (enterLoop lv st.vars)[i]? = st.vars[i]? := by
    intro i hi
    cases lv with
    | perIteration => rfl
    | shared =>
      simp only [enterLoop]
      exact List.getElem?_append_left hi
  have hone : lv = .shared → (enterLoop lv st.vars).length = st.vars.length + 1 := by
    intro hh
    subst hh
    simp [enterLoop]
  unfold listProjects
  simp only []
  split
  · exact ⟨⟨hlen, hkeep, [], by simp, by simp⟩, hone⟩
  · exact ⟨⟨hlen, hkeep, [], by simp, by simp⟩, hone⟩

theorem visitGroups_vars (lv : LoopVar) (parses : String → Bool) (gc : GitlabClient)
    (vc : VaultClient) (h : Heap) (gs : GlobalSpec) :
    ∀ (groups : List Group) (st : CronState) (n : Nat), n ≤ st.vars.length →
      VarsKeep n st (visitGroups lv parses gc vc h gs st groups).1 := by
  intro groups
  induction groups with
  | nil =>
    intro st n _
    exact varsKeep_same _ _ _ rfl rfl
  | cons group rest ih =>
    intro st n hn
    obtain ⟨h0, hlen⟩ := listProjects_vars lv gc st group
    have h1 := visitProjects_vars lv parses gc vc h gs st.vars.length n
      (listProjects lv gc st group).2 (listProjects lv gc st group).1
      (Nat.le_trans hn h0.1) (fun hh => ⟨hn, by rw [hlen hh]; omega⟩)
    have h01 := varsKeep_trans _ _ _ _ (varsKeep_mono _ n _ _ hn h0) h1
    simp only [visitGroups]
    split
    · rename_i st2 hvp
      rw [hvp] at h01
      exact varsKeep_trans _ _ _ _ h01 (ih st2 n (Nat.le_trans hn h01.1))
    · exact h01

theorem step_vars (lv : LoopVar) (parses : String → Bool) (gc : GitlabClient) (vc : VaultClient)
    (h : Heap) (gs : GlobalSpec) (st : CronState) (s : Step) (n : Nat)
    (hn : n ≤ st.vars.length) : VarsKeep n st (step lv parses gc vc h gs st s).1 := by
  cases s with
  | tick =>
    simp only [step, UpdateCron]
    have h0 : VarsKeep n st (listGroups gc st).1 := by
      unfold listGroups
      simp only []
      split <;> exact varsKeep_same _ _ _ rfl rfl
    exact varsKeep_trans _ _ _ _ h0
      (visitGroups_vars lv parses gc vc h gs _ _ n (Nat.le_trans hn h0.1))
  | fire i =>
    simp only [step]
    split
    · exact varsKeep_same _ _ _ rfl rfl
    · refine varsKeep_same _ _ _ ?_ (fire_same gc vc h st _).2
      unfold fire
      simp only []
      split
      · rfl
      · split <;> rfl

/-- In a run, loop variables that exist keep their value, and every entry
that is scheduled holds a variable that exists and a `link` with a
`RepositorySpec`. -/
theorem run_vars (lv : LoopVar) (parses : String → Bool) (gc : GitlabClient) (vc : VaultClient)
    (h : Heap) (gs : GlobalSpec) :
    ∀ (steps : List Step) (st : CronState) (n : Nat), n ≤ st.vars.length →
      VarsKeep n st (run lv parses gc vc h gs st steps).1 := by
  intro steps
  induction steps with
  | nil =>
    intro st n _
    exact varsKeep_same _ _ _ rfl rfl
  | cons s rest ih =>
    intro st n hn
    have h1 := step_vars lv parses gc vc h gs st s n hn
    simp only [run]
    split
    · rename_i st1 p hs
      rw [hs] at h1
      exact h1
    · rename_i st1 fl hne hs
      rw [hs] at h1
      exact varsKeep_trans _ _ _ _ h1 (ih st1 n (Nat.le_trans hn h1.1))

/-! ## Further claims on the discovery loop -/

/-- The first-seen path of `UpdateCron` (lines 155-170) when the issuance
succeeds: the project is registered, one secret is issued with the resolved
`TokenSpec`, it is synced once to the resolved `BuildKey` on the project's
own ID, and `AddFunc` is called once with "@every " and the resolved
`RenewPeriod`. -/
theorem visitProject_first_seen (lv : LoopVar) (parses : String → Bool) (gc : GitlabClient)
    (vc : VaultClient) (h : Heap) (gs : GlobalSpec) (v : Nat) (st : CronState)
    (project : Project) (link : LinkSpec) (a : Nat) (token : String)
    (hget : GetSpecForPath gs project.PathWithNamespace = .ok (some link))
    (hrs : link.RepositorySpec = some a) (hen : (h.read a).Enabled = some true)
    (hreg : project.ID ∉ st.CronMap)
    (hcreate : vc.Create st.trace link.TokenSpec = .ok token) :
    visitProject lv parses gc vc h gs v st project =
      ({ CronMap := project.ID :: st.CronMap
         Cron := AddFunc parses st.Cron (h.read a).RenewPeriod
           { schedule := "@every " ++ (h.read a).RenewPeriod, link := link,
             projectVar := (beginRound lv v st.vars project).2, addedFor := project.ID }
         vars := (beginRound lv v st.vars project).1
         trace := UpdateToken gc project.ID (h.read a).BuildKey token
           (st.trace ++ [.tokenCreate project.ID link.TokenSpec]) }, .next) := by
  unfold visitProject
  simp only [hget, hrs, hen, if_neg hreg, hcreate]

/-- C11, at the failing input: the tree whose group "infra" has the period
"soon" (which `Load` lets through, C6), the platform that lists the enabled
project 42 at "infra/app", and a working issuer.  The first tick registers
42, issues one secret and syncs it, but `AddFunc` rejects "@every soon" and
the error is dropped: no recurring job is added, in this tick or in any
continuation of the run.  On the end-to-end example of the specification,
whose period "1h" parses, the first tick does add the one job "@every 1h". -/
theorem first_seen_without_job :
    Load parseDurationOk (.ok (soonHeap, soonSpec)) = .ok soonLoaded ∧
    (∀ lv, UpdateCron lv parseDurationOk onePlatform goodVault soonLoaded.heap soonLoaded.spec
      CronState.init = (soonFirstTick, .next)) ∧
    soonFirstTick.CronMap = [42] ∧
    soonFirstTick.Cron = [] ∧
    (∀ lv steps, ∀ j ∈ (run lv parseDurationOk onePlatform goodVault soonLoaded.heap
      soonLoaded.spec soonFirstTick steps).1.Cron, j.addedFor ≠ 42) ∧
    Load parseDurationOk (.ok (e2eHeap, e2eSpec)) = .ok e2eLoaded ∧
    (∀ lv, UpdateCron lv parseDurationOk onePlatform goodVault e2eLoaded.heap e2eLoaded.spec
      CronState.init = (e2eFirstTick, .next)) := by
  refine ⟨by decide, fun lv => by cases lv <;> decide, by decide, by decide, ?_, by decide,
    fun lv => by cases lv <;> decide⟩
  intro lv steps j hj
  obtain ⟨-, -, added, hc, -, hadd⟩ := run_grow lv parseDurationOk onePlatform goodVault
    soonLoaded.heap soonLoaded.spec (fun x => x = 42) steps soonFirstTick
    (fun x hx => Or.inl (by subst hx; decide))
  rw [hc] at hj
  simp only [soonFirstTick, List.nil_append] at hj
  exact (hadd j hj).2.2

/-- C12: no variable write on issuance failure.  When the issuer call of the
first-seen path fails, `UpdateCron` appends the call and the logged error to
the events and returns, with the scheduler as it was; when the issuer call
of a firing fails, the closure appends the call and the logged error and
nothing else changes.  Whenever a round of the inner loop ends in the
`return` of line 159, it has made no update and no create call. -/
theorem no_write_on_issuance_failure (lv : LoopVar) (parses : String → Bool) (gc : GitlabClient)
    (vc : VaultClient) (h : Heap) (gs : GlobalSpec) :
    (∀ v st project link a err,
      GetSpecForPath gs project.PathWithNamespace = .ok (some link) →
      link.RepositorySpec = some a → (h.read a).Enabled = some true →
      project.ID ∉ st.CronMap →
      vc.Create st.trace link.TokenSpec = .error err →
      visitProject lv parses gc vc h gs v st project =
        ({ CronMap := project.ID :: st.CronMap, Cron := st.Cron,
           vars := (beginRound lv v st.vars project).1,
           trace := st.trace ++ [.tokenCreate project.ID link.TokenSpec, .logError err] },
          .returned)) ∧
    (∀ st job err, vc.Create st.trace job.link.TokenSpec = .error err →
      fire gc vc h st job =
        ({ st with trace := st.trace ++
            [.tokenCreate (firingTarget st job) job.link.TokenSpec, .logError err] }, .next)) ∧
    (∀ v st project, (visitProject lv parses gc vc h gs v st project).2 = .returned →
      (visitProject lv parses gc vc h gs v st project).1.trace.filter Event.isUpdate =
        st.trace.filter Event.isUpdate ∧
      (visitProject lv parses gc vc h gs v st project).1.trace.filter Event.isCreate =
        st.trace.filter Event.isCreate) := by
  refine ⟨?_, ?_, ?_⟩
  · intro v st project link a err hget hrs hen hreg hfail
    unfold visitProject
    simp only [hget, hrs, hen, if_neg hreg, hfail]
    simp
  · intro st job err hfail
    unfold fire
    simp only [hfail, firingTarget]
    simp
  · intro v st project
    unfold visitProject
    simp only []
    split
    · intro hh; cases hh
    · intro hh; cases hh
    · split
      · intro hh; cases hh
      · split
        · intro hh; cases hh
        · intro hh; cases hh
        · split_ifs
          · intro hh; cases hh
          · split
            · intro _
              simp [List.filter_append, List.filter, Event.isUpdate, Event.isCreate]
            · intro hh; cases hh

/-- Witness for C12: the first tick over `onePlatform` with the issuer whose
first call fails makes no update and no create call. -/
theorem no_write_on_issuance_failure_witness :
    visitProject .shared parseDurationOk onePlatform flakyVault exLoaded.heap exLoaded.spec 0
        { CronState.init with vars := [{ ID := 0, PathWithNamespace := "" }] }
        { ID := 42, PathWithNamespace := "infra/app" } =
      ({ CronMap := [42], Cron := [],
         vars := [{ ID := 42, PathWithNamespace := "infra/app" }],
         trace := [.tokenCreate 42 (some infraToken), .logError "connection refused"] },
        .returned) ∧
    visitProject .perIteration parseDurationOk onePlatform flakyVault exLoaded.heap
        exLoaded.spec 0 CronState.init { ID := 42, PathWithNamespace := "infra/app" } =
      ({ CronMap := [42], Cron := [],
         vars := [{ ID := 42, PathWithNamespace := "infra/app" }],
         trace := [.tokenCreate 42 (some infraToken), .logError "connection refused"] },
        .returned) ∧
    failedFirstTick.trace.filter Event.isUpdate = [] ∧
    failedFirstTick.trace.filter Event.isCreate = [] :=
  ⟨(no_write_on_issuance_failure .shared parseDurationOk onePlatform flakyVault exLoaded.heap
      exLoaded.spec).1 0 { CronState.init with vars := [{ ID := 0, PathWithNamespace := "" }] }
      { ID := 42, PathWithNamespace := "infra/app" }
      { RepositorySpec := some 1, TokenSpec := some infraToken } 1 "connection refused"
      (by decide) rfl (by decide) (by decide) (by decide),
    (no_write_on_issuance_failure .perIteration parseDurationOk onePlatform flakyVault
      exLoaded.heap exLoaded.spec).1 0 CronState.init
      { ID := 42, PathWithNamespace := "infra/app" }
      { RepositorySpec := some 1, TokenSpec := some infraToken } 1 "connection refused"
      (by decide) rfl (by decide) (by decide) (by decide),
    by decide, by decide⟩

/-- C13 (as amended): an enumeration failure is logged and skips what could
not be listed.  When listing the groups fails, the tick does nothing but log
the error.  When listing the projects of a group fails, the error is logged,
no project of that group is processed, and the loop goes on with the next
group.  A tick never removes a key from `CronMap` or an entry from the
scheduler. -/
theorem enumeration_failure_skips (lv : LoopVar) (parses : String → Bool) (gc : GitlabClient)
    (vc : VaultClient) (h : Heap) (gs : GlobalSpec) :
    (∀ st err, gc.ListGroups st.trace = .error err →
      UpdateCron lv parses gc vc h gs st =
        ({ st with trace := st.trace ++ [.listGroups, .logError err] }, .next)) ∧
    (∀ st group rest err, gc.ListGroupProjects st.trace group.ID = .error err →
      visitGroups lv parses gc vc h gs st (group :: rest) =
        visitGroups lv parses gc vc h gs
          { st with trace := st.trace ++ [.listGroupProjects group.ID, .logError err],
                    vars := enterLoop lv st.vars } rest) ∧
    (∀ st, st.CronMap ⊆ (UpdateCron lv parses gc vc h gs st).1.CronMap ∧
      ∃ added, (UpdateCron lv parses gc vc h gs st).1.Cron = st.Cron ++ added) := by
  refine ⟨?_, ?_, ?_⟩
  · intro st err hfail
    simp [UpdateCron, listGroups, hfail, visitGroups, CheckError]
  · intro st group rest err hfail
    simp [visitGroups, listProjects, hfail, visitProjects, CheckError]
  · intro st
    obtain ⟨hsub, -, added, hc, -, -⟩ :=
      (UpdateCron_grow lv parses gc vc h gs (fun _ => False) st (fun _ hh => hh.elim)).1
    exact ⟨hsub, added, hc⟩

/-- C13, counterexample: the platform has the groups 7 and 8; listing the
projects of 7 fails.  The tick logs the error and goes on: it lists group 8,
issues a secret for its project 42, syncs it, registers 42 and schedules its
job, all after the failure. -/
theorem tick_goes_on_after_failed_listing :
    twoGroupPlatform.ListGroupProjects [.listGroups] 7 = .error "500 Internal Server Error" ∧
    (∀ lv, UpdateCron lv parseDurationOk twoGroupPlatform goodVault exLoaded.heap exLoaded.spec
      CronState.init = (twoGroupTick lv, .next)) ∧
    (∀ lv, (twoGroupTick lv).trace.drop 3 =
      [.listGroupProjects 8, .tokenCreate 42 (some infraToken),
        .updateBuildVariable 42 "VAULT_TOKEN" "s.1", .logError "404 Variable Not Found",
        .createBuildVariable 42 "VAULT_TOKEN" "s.1",
        .logInfo "VAULT_TOKEN Created for project 42"]) ∧
    (∀ lv, (twoGroupTick lv).CronMap = [42]) ∧
    (∀ lv, (twoGroupTick lv).Cron.map Job.addedFor = [42]) :=
  ⟨by decide, fun lv => by cases lv <;> decide, fun lv => by cases lv <;> decide,
    fun lv => by cases lv <;> decide, fun lv => by cases lv <;> decide⟩

/-- What a firing does: the loop variables stay, and the events it appends
are for the ID its closure reads, whose entry that may be. -/
theorem fire_events (gc : GitlabClient) (vc : VaultClient) (h : Heap) (st : CronState)
    (job : Job) :
    (fire gc vc h st job).1.vars = st.vars ∧
    ∃ events, (fire gc vc h st job).1.trace = st.trace ++ events ∧
      ∀ e ∈ events, ∀ id, id ≠ firingTarget st job → e.touches id = false := by
  unfold fire
  simp only []
  split
  · rename_i err hfail
    refine ⟨rfl, [.tokenCreate (firingTarget st job) job.link.TokenSpec, .logError err],
      by simp [firingTarget], ?_⟩
    intro e he id hid
    simp only [List.mem_cons, List.mem_singleton, List.not_mem_nil, or_false] at he
    rcases he with rfl | rfl
    · simpa [Event.touches] using fun hh => hid hh.symm
    · rfl
  · rename_i token hok
    split
    · refine ⟨rfl, [.tokenCreate (firingTarget st job) job.link.TokenSpec],
        by simp [firingTarget], ?_⟩
      intro e he id hid
      simp only [List.mem_singleton] at he
      subst he
      simpa [Event.touches] using fun hh => hid hh.symm
    · rename_i a hrs
      obtain ⟨events, hev, hq⟩ := UpdateToken_events gc (firingTarget st job)
        (h.read a).BuildKey token
        (st.trace ++ [.tokenCreate (firingTarget st job) job.link.TokenSpec])
      refine ⟨rfl, .tokenCreate (firingTarget st job) job.link.TokenSpec :: events, ?_, ?_⟩
      · simp only [firingTarget] at hev ⊢
        rw [hev]
        simp
      · intro e he id hid
        rcases List.mem_cons.1 he with rfl | he
        · simpa [Event.touches] using fun hh => hid hh.symm
        · exact hq e he id hid

theorem ownProject_keep (h : Heap) (gs : GlobalSpec) (st st2 : CronState) (j : Job)
    (hown : OwnProject h gs st j)
    (hvars : ∀ i, i < st.vars.length → st2.vars[i]? = st.vars[i]?)
    (htrace : ∀ e ∈ st.trace, e ∈ st2.trace) : OwnProject h gs st2 j := by
  obtain ⟨path, a, hv, hg, hr, hs, ht, token, hu⟩ := hown
  have hlt : j.projectVar < st.vars.length := (List.getElem?_eq_some_iff.1 hv).1
  exact ⟨path, a, by rw [hvars _ hlt]; exact hv, hg, hr, hs, htrace _ ht, token, htrace _ hu⟩

theorem allOwn_keep (h : Heap) (gs : GlobalSpec) (st st2 : CronState)
    (hown : AllOwn h gs st) (hc : st2.Cron = st.Cron)
    (hvars : ∀ i, i < st.vars.length → st2.vars[i]? = st.vars[i]?)
    (htrace : ∀ e ∈ st.trace, e ∈ st2.trace) : AllOwn h gs st2 := by
  intro j hj
  rw [hc] at hj
  exact ownProject_keep h gs st st2 j (hown j hj) hvars htrace

theorem UpdateToken_update_mem (gc : GitlabClient) (projectId : Int) (buildKey token : String)
    (tr : List Event) :
    Event.updateBuildVariable projectId buildKey token ∈
      UpdateToken gc projectId buildKey token tr ∧
    ∀ e ∈ tr, e ∈ UpdateToken gc projectId buildKey token tr := by
  unfold UpdateToken
  simp only [CheckError]
  split
  · simp only [List.mem_append, List.mem_cons, List.mem_singleton, List.not_mem_nil, or_false]
    exact ⟨by simp, fun e he => by simp [he]⟩
  · split
    · simp only [List.mem_append, List.mem_cons, List.mem_singleton, List.not_mem_nil, or_false]
      exact ⟨by simp, fun e he => by simp [he]⟩
    · simp only [List.mem_append, List.mem_cons, List.mem_singleton, List.not_mem_nil, or_false]
      exact ⟨by simp, fun e he => by simp [he]⟩

theorem visitProject_own (parses : String → Bool) (gc : GitlabClient) (vc : VaultClient)
    (h : Heap) (gs : GlobalSpec) (v : Nat) (st : CronState) (project : Project)
    (hown : AllOwn h gs st) :
    AllOwn h gs (visitProject .perIteration parses gc vc h gs v st project).1 := by
  have hvars : ∀ i, i < st.vars.length → (st.vars ++ [project])[i]? = st.vars[i]? :=
    fun i hi => List.getElem?_append_left hi
  unfold visitProject
  simp only [beginRound]
  split
  · exact allOwn_keep h gs st _ hown rfl hvars (fun _ he => he)
  · exact allOwn_keep h gs st _ hown rfl hvars (fun _ he => he)
  · rename_i link hget
    split
    · exact allOwn_keep h gs st _ hown rfl hvars (fun _ he => he)
    · rename_i a hrs
      split
      · exact allOwn_keep h gs st _ hown rfl hvars (fun _ he => he)
      · exact allOwn_keep h gs st _ hown rfl hvars (fun _ he => he)
      · split_ifs with hreg
        · exact allOwn_keep h gs st _ hown rfl hvars (fun _ he => he)
        · split
          · exact allOwn_keep h gs st _ hown rfl hvars
              (fun e he => by simp only [List.mem_append]; exact Or.inl (Or.inl he))
          · rename_i token hcreate
            obtain ⟨hu, hold⟩ := UpdateToken_update_mem gc project.ID (h.read a).BuildKey token
              (st.trace ++ [.tokenCreate project.ID link.TokenSpec])
            intro j hj
            simp only [AddFunc] at hj
            have hkeep : ∀ j ∈ st.Cron, OwnProject h gs
                { CronMap := project.ID :: st.CronMap
                  Cron := AddFunc parses st.Cron (h.read a).RenewPeriod
                    { schedule := "@every " ++ (h.read a).RenewPeriod, link := link,
                      projectVar := st.vars.length, addedFor := project.ID }
                  vars := st.vars ++ [project]
                  trace := UpdateToken gc project.ID (h.read a).BuildKey token
                    (st.trace ++ [.tokenCreate project.ID link.TokenSpec]) } j :=
              fun j hj => ownProject_keep h gs st _ j (hown j hj) hvars
                (fun e he => hold e (List.mem_append_left _ he))
            split_ifs at hj
            · rcases List.mem_append.1 hj with hh | hh
              · exact hkeep j hh
              · simp only [List.mem_singleton] at hh
                subst hh
                refine ⟨project.PathWithNamespace, a, ?_, hget, hrs, rfl, ?_, token, hu⟩
                · simp
                · exact hold _ (by simp)
            · exact hkeep j hj

theorem visitProjects_own (parses : String → Bool) (gc : GitlabClient) (vc : VaultClient)
    (h : Heap) (gs : GlobalSpec) (v : Nat) :
    ∀ (ps : List Project) (st : CronState), AllOwn h gs st →
      AllOwn h gs (visitProjects .perIteration parses gc vc h gs v st ps).1 := by
  intro ps
  induction ps with
  | nil =>
    intro st hown
    exact hown
  | cons project rest ih =>
    intro st hown
    have h1 := visitProject_own parses gc vc h gs v st project hown
    simp only [visitProjects]
    split
    · rename_i st1 hvp
      rw [hvp] at h1
      exact ih st1 h1
    · exact h1

theorem visitGroups_own (parses : String → Bool) (gc : GitlabClient) (vc : VaultClient)
    (h : Heap) (gs : GlobalSpec) :
    ∀ (groups : List Group) (st : CronState), AllOwn h gs st →
      AllOwn h gs (visitGroups .perIteration parses gc vc h gs st groups).1 := by
  intro groups
  induction groups with
  | nil =>
    intro st hown
    exact hown
  | cons group rest ih =>
    intro st hown
    have h0 : AllOwn h gs (listProjects .perIteration gc st group).1 := by
      unfold listProjects
      simp only [enterLoop, CheckError]
      split
      · exact allOwn_keep h gs st _ hown rfl (fun _ _ => rfl)
          (fun e he => List.mem_append_left _ he)
      · exact allOwn_keep h gs st _ hown rfl (fun _ _ => rfl)
          (fun e he => List.mem_append_left _ (List.mem_append_left _ he))
    have h1 := visitProjects_own parses gc vc h gs st.vars.length
      (listProjects .perIteration gc st group).2 (listProjects .perIteration gc st group).1 h0
    simp only [visitGroups]
    split
    · rename_i st2 hvp
      rw [hvp] at h1
      exact ih st2 h1
    · exact h1

theorem step_own (parses : String → Bool) (gc : GitlabClient) (vc : VaultClient)
    (h : Heap) (gs : GlobalSpec) (st : CronState) (s : Step) (hown : AllOwn h gs st) :
    AllOwn h gs (step .perIteration parses gc vc h gs st s).1 := by
  cases s with
  | tick =>
    simp only [step, UpdateCron]
    refine visitGroups_own parses gc vc h gs _ _ ?_
    unfold listGroups
    simp only [CheckError]
    split
    · exact allOwn_keep h gs st _ hown rfl (fun _ _ => rfl)
        (fun e he => List.mem_append_left _ he)
    · exact allOwn_keep h gs st _ hown rfl (fun _ _ => rfl)
        (fun e he => List.mem_append_left _ (List.mem_append_left _ he))
  | fire i =>
    simp only [step]
    split
    · exact hown
    · rename_i job _
      obtain ⟨hv, events, ht, -⟩ := fire_events gc vc h st job
      exact allOwn_keep h gs st _ hown (fire_same gc vc h st job).2 (fun _ _ => by rw [hv])
        (fun e he => by rw [ht]; exact List.mem_append_left _ he)

/-- With a variable for each round, every entry scheduled in a run from the
initial state holds the project it was added for. -/
theorem run_own (parses : String → Bool) (gc : GitlabClient) (vc : VaultClient)
    (h : Heap) (gs : GlobalSpec) :
    ∀ (steps : List Step) (st : CronState), AllOwn h gs st →
      AllOwn h gs (run .perIteration parses gc vc h gs st steps).1 := by
  intro steps
  induction steps with
  | nil =>
    intro st hown
    exact hown
  | cons s rest ih =>
    intro st hown
    have h1 := step_own parses gc vc h gs st s hown
    simp only [run]
    split
    · rename_i st1 p hs
      rw [hs] at h1
      exact h1
    · rename_i st1 fl hne hs
      rw [hs] at h1
      exact ih st1 h1

theorem firingTarget_own (h : Heap) (gs : GlobalSpec) (st : CronState) (job : Job)
    (hown : OwnProject h gs st job) : firingTarget st job = job.addedFor := by
  obtain ⟨path, a, hv, -⟩ := hown
  simp [firingTarget, List.getD_eq_getElem?_getD, hv]

theorem pair_step (st : CronState) (s : Step)
    (hcron : st.Cron = (pairTick .shared).Cron)
    (hvar : st.vars[0]? = some { ID := 42, PathWithNamespace := "infra/api" })
    (h41 : 41 ∈ st.CronMap) (h42 : 42 ∈ st.CronMap) :
    (step .shared parseDurationOk twoProjectPlatform goodVault pairLoaded.heap pairLoaded.spec
      st s).1.Cron = (pairTick .shared).Cron ∧
    (step .shared parseDurationOk twoProjectPlatform goodVault pairLoaded.heap pairLoaded.spec
      st s).1.vars[0]? = some { ID := 42, PathWithNamespace := "infra/api" } ∧
    41 ∈ (step .shared parseDurationOk twoProjectPlatform goodVault pairLoaded.heap pairLoaded.spec
      st s).1.CronMap ∧
    42 ∈ (step .shared parseDurationOk twoProjectPlatform goodVault pairLoaded.heap pairLoaded.spec
      st s).1.CronMap ∧
    ∃ events, (step .shared parseDurationOk twoProjectPlatform goodVault pairLoaded.heap
        pairLoaded.spec st s).1.trace = st.trace ++ events ∧
      ∀ e ∈ events, e.touches 41 = false := by
  have hlen : 1 ≤ st.vars.length := by
    cases hv : st.vars with
    | nil => simp [hv] at hvar
    | cons x xs => simp
  cases s with
  | tick =>
    have hF : ∀ id : Int, True → id ∈ st.CronMap ∨
        AlwaysDisabled twoProjectPlatform pairLoaded.heap pairLoaded.spec id := by
      intro id _
      by_cases hid : id = 41
      · exact Or.inl (hid ▸ h41)
      · by_cases hid2 : id = 42
        · exact Or.inl (hid2 ▸ h42)
        · right
          intro tr group projects hl pr hpr hprid
          simp only [twoProjectPlatform, Except.ok.injEq] at hl
          subst hl
          simp only [List.mem_cons, List.mem_singleton, List.not_mem_nil, or_false] at hpr
          rcases hpr with rfl | rfl
          · exact absurd hprid.symm hid
          · exact absurd hprid.symm hid2
    obtain ⟨⟨hsub, -, added, hc, -, hadd⟩, events, ht, hq⟩ :=
      UpdateCron_grow .shared parseDurationOk twoProjectPlatform goodVault pairLoaded.heap
        pairLoaded.spec (fun _ => True) st hF
    have hk := step_vars .shared parseDurationOk twoProjectPlatform goodVault pairLoaded.heap
      pairLoaded.spec st Step.tick 1 hlen
    simp only [step] at hk ⊢
    have hnil : added = [] := by
      cases added with
      | nil => rfl
      | cons j js => exact absurd trivial (hadd j (List.mem_cons_self _ _)).2.2
    refine ⟨by rw [hc, hnil, List.append_nil, hcron], ?_, hsub h41, hsub h42, events, ht,
      fun e he => hq e he 41 trivial⟩
    rw [hk.2.1 0 (by omega), hvar]
  | fire i =>
    simp only [step]
    cases hget : st.Cron.get? i with
    | none => exact ⟨hcron, hvar, h41, h42, [], by simp, by simp⟩
    | some job =>
      simp only []
      have hmem : job ∈ (pairTick .shared).Cron := hcron ▸ List.get?_mem hget
      have hpv : job.projectVar = 0 := by
        simp only [pairTick, List.mem_cons, List.mem_singleton, List.not_mem_nil,
          or_false] at hmem
        rcases hmem with rfl | rfl <;> rfl
      have htarget : firingTarget st job = 42 := by
        simp [firingTarget, hpv, List.getD_eq_getElem?_getD, hvar]
      obtain ⟨hv, events, ht, hq⟩ := fire_events twoProjectPlatform goodVault pairLoaded.heap
        st job
      obtain ⟨hcm, hcr⟩ := fire_same twoProjectPlatform goodVault pairLoaded.heap st job
      refine ⟨by rw [hcr, hcron], by rw [hv, hvar], by rw [hcm]; exact h41,
        by rw [hcm]; exact h42, events, ht, ?_⟩
      intro e he
      exact hq e he 41 (by rw [htarget]; decide)

theorem pair_run :
    ∀ (steps : List Step) (st : CronState), st.Cron = (pairTick .shared).Cron →
      st.vars[0]? = some { ID := 42, PathWithNamespace := "infra/api" } →
      41 ∈ st.CronMap → 42 ∈ st.CronMap →
      ∃ events, (run .shared parseDurationOk twoProjectPlatform goodVault pairLoaded.heap
          pairLoaded.spec st steps).1.trace = st.trace ++ events ∧
        ∀ e ∈ events, e.touches 41 = false := by
  intro steps
  induction steps with
  | nil =>
    intro st _ _ _ _
    exact ⟨[], by simp [run], by simp⟩
  | cons s rest ih =>
    intro st hcron hvar h41 h42
    obtain ⟨h1, h2, h3, h4, events, ht, hq⟩ := pair_step st s hcron hvar h41 h42
    simp only [run]
    split
    · rename_i st1 p hs
      rw [hs] at ht
      exact ⟨events, ht, hq⟩
    · rename_i st1 fl hne hs
      rw [hs] at h1 h2 h3 h4 ht
      obtain ⟨events2, ht2, hq2⟩ := ih st1 h1 h2 h3 h4
      refine ⟨events ++ events2, by rw [ht2, ht, List.append_assoc], ?_⟩
      intro e he
      rcases List.mem_append.1 he with hh | hh
      · exact hq e hh
      · exact hq2 e hh

/-- With one `project` variable for all rounds of the loop (the language
before Go 1.22) an entry does not hold its own project.  The group lists two
new enabled projects, 41 ("infra/app", key "APP_TOKEN") and 42 ("infra/api",
key "API_TOKEN").  The tick gives each its first issuance on its own ID and
schedules an entry for each, but both closures hold the one variable, left
at the last project of the listing.  The firing of the entry added for 41
issues with the `TokenSpec` of 41 and writes the variable "APP_TOKEN" on
project 42; and in every continuation of the run, ticks and firings alike,
no issuance and no variable write is ever made for project 41 again. -/
theorem firing_uses_last_project :
    Load parseDurationOk (.ok (pairHeap, pairSpec)) = .ok pairLoaded ∧
    UpdateCron .shared parseDurationOk twoProjectPlatform goodVault pairLoaded.heap pairLoaded.spec
      CronState.init = (pairTick .shared, .next) ∧
    (pairTick .shared).Cron.get? 0 = some appJob ∧
    appJob.addedFor = 41 ∧
    GetSpecForPath pairLoaded.spec "infra/app" = .ok (some appJob.link) ∧
    (pairLoaded.heap.read 1).BuildKey = "APP_TOKEN" ∧
    step .shared parseDurationOk twoProjectPlatform goodVault pairLoaded.heap pairLoaded.spec
        (pairTick .shared) (.fire 0) =
      ({ pairTick .shared with trace := (pairTick .shared).trace ++
          [.tokenCreate 42 (some ciToken), .updateBuildVariable 42 "APP_TOKEN" "s.1",
            .logInfo "APP_TOKEN Updated for project 42"] }, .next) ∧
    ∀ steps, ∃ events,
      (run .shared parseDurationOk twoProjectPlatform goodVault pairLoaded.heap pairLoaded.spec
        (pairTick .shared) steps).1.trace = (pairTick .shared).trace ++ events ∧
      ∀ e ∈ events, e.touches 41 = false := by
  refine ⟨by decide, by decide, by decide, by decide, by decide, by decide, by decide, ?_⟩
  intro steps
  exact pair_run steps (pairTick .shared) rfl (by decide) (by decide) (by decide)

/-- C17: the recurring job captures its own project.  When each round of the
loop has its own `project` variable (Go 1.22 and later), every entry `job`
scheduled in a run from the initial state holds the project it was added for
(`OwnProject`): its `link` is the policy resolved for that project's path and
the first issuance was made for its ID with the `TokenSpec` and `BuildKey` of
that `link`.  The ID its closure reads is that project's ID, and a firing, in
whatever state the scheduler runs it (the closure's variable is never
assigned again), issues with the entry's own `TokenSpec` and, when the
issuance succeeds, writes the variable named by its own `BuildKey` on its own
ID; none of the events it appends is an issuance or a write for another ID. -/
theorem firing_uses_own_project (parses : String → Bool) (gc : GitlabClient) (vc : VaultClient)
    (h : Heap) (gs : GlobalSpec) (steps : List Step) (job : Job)
    (hjob : job ∈ (run .perIteration parses gc vc h gs CronState.init steps).1.Cron) :
    OwnProject h gs (run .perIteration parses gc vc h gs CronState.init steps).1 job ∧
    firingTarget (run .perIteration parses gc vc h gs CronState.init steps).1 job =
      job.addedFor ∧
    ∃ a, job.link.RepositorySpec = some a ∧
      ∀ st2, st2.vars[job.projectVar]? =
          (run .perIteration parses gc vc h gs CronState.init steps).1.vars[job.projectVar]? →
        (∀ err, vc.Create st2.trace job.link.TokenSpec = .error err →
          fire gc vc h st2 job =
            ({ st2 with trace := st2.trace ++
                [.tokenCreate job.addedFor job.link.TokenSpec, .logError err] }, .next)) ∧
        (∀ token, vc.Create st2.trace job.link.TokenSpec = .ok token →
          fire gc vc h st2 job =
            ({ st2 with
                trace := UpdateToken gc job.addedFor (h.read a).BuildKey token
                  (st2.trace ++ [.tokenCreate job.addedFor job.link.TokenSpec]) }, .next)) ∧
        ∃ events, (fire gc vc h st2 job).1.trace = st2.trace ++ events ∧
          ∀ e ∈ events, ∀ id, id ≠ job.addedFor → e.touches id = false := by
  have hown := run_own parses gc vc h gs steps CronState.init
    (fun j hj => by simp [CronState.init] at hj) job hjob
  have htarget := firingTarget_own h gs _ job hown
  refine ⟨hown, htarget, ?_⟩
  obtain ⟨path, a, hv, hg, hr, -⟩ := hown
  refine ⟨a, hr, ?_⟩
  intro st2 hvars
  have ht2 : (st2.vars.getD job.projectVar { ID := 0, PathWithNamespace := "" }).ID =
      job.addedFor := by
    rw [List.getD_eq_getElem?_getD, hvars, hv]
    rfl
  refine ⟨?_, ?_, ?_⟩
  · intro err hfail
    unfold fire
    simp only [hfail, ht2]
    simp
  · intro token hok
    unfold fire
    simp only [hok, hr, ht2]
  · obtain ⟨-, events, hev, hq⟩ := fire_events gc vc h st2 job
    refine ⟨events, hev, ?_⟩
    intro e he id hid
    refine hq e he id ?_
    simp only [firingTarget, ht2]
    exact hid

/-- Witness for C17: the group lists two new enabled projects, 41
("infra/app", key "APP_TOKEN") and 42 ("infra/api", key "API_TOKEN", its own
token request).  With a variable for each round, the firing of the entry
added for 41 issues with the request of 41 and writes "APP_TOKEN" on 41, and
the firing of the entry added for 42 issues with the request of 42 and writes
"API_TOKEN" on 42. -/
theorem firing_uses_own_project_witness :
    Load parseDurationOk (.ok (pairHeap, pairSpec)) = .ok pairLoaded ∧
    UpdateCron .perIteration parseDurationOk twoProjectPlatform goodVault pairLoaded.heap
      pairLoaded.spec CronState.init = (pairTick .perIteration, .next) ∧
    appJob ∈ (run .perIteration parseDurationOk twoProjectPlatform goodVault pairLoaded.heap
      pairLoaded.spec CronState.init [.tick]).1.Cron ∧
    firingTarget (run .perIteration parseDurationOk twoProjectPlatform goodVault
      pairLoaded.heap pairLoaded.spec CronState.init [.tick]).1 appJob = appJob.addedFor ∧
    appJob.addedFor = 41 ∧
    GetSpecForPath pairLoaded.spec "infra/app" = .ok (some appJob.link) ∧
    (pairLoaded.heap.read 1).BuildKey = "APP_TOKEN" ∧
    step .perIteration parseDurationOk twoProjectPlatform goodVault pairLoaded.heap
        pairLoaded.spec (pairTick .perIteration) (.fire 0) =
      ({ pairTick .perIteration with
          trace := (pairTick .perIteration).trace ++
            [.tokenCreate 41 (some ciToken), .updateBuildVariable 41 "APP_TOKEN" "s.1",
              .logInfo "APP_TOKEN Updated for project 41"] }, .next) ∧
    step .perIteration parseDurationOk twoProjectPlatform goodVault pairLoaded.heap
        pairLoaded.spec (pairTick .perIteration) (.fire 1) =
      ({ pairTick .perIteration with
          trace := (pairTick .perIteration).trace ++
            [.tokenCreate 42 (some infraToken), .updateBuildVariable 42 "API_TOKEN" "s.1",
              .logInfo "API_TOKEN Updated for project 42"] }, .next) :=
  ⟨by decide, by decide, by decide,
    (firing_uses_own_project parseDurationOk twoProjectPlatform goodVault pairLoaded.heap
      pairLoaded.spec [.tick] appJob (by decide)).2.1,
    by decide, by decide, by decide, by decide, by decide⟩

/-- C14: a failed renewal does not deregister the job.  For an entry `job`
scheduled in a state reached from the initial state, a firing whose issuer
call fails ends normally and leaves `CronMap`, the scheduler and the loop
variables as they were, adding only the call and the logged error to the
events.  In every continuation of the run the entry is still scheduled at its
place and the variable its closure holds keeps its value; and a firing of it
whose issuer call succeeds, in any state in which that variable has this
value, syncs to the same project ID as the failed one and to the `BuildKey`
of the entry's own `RepoSpec`.  When each round of the loop has its own
variable, that ID and that `BuildKey` are those of the project the entry was
added for (`OwnProject`). -/
theorem failed_renewal_keeps_job (lv : LoopVar) (parses : String → Bool) (gc : GitlabClient)
    (vc : VaultClient) (h : Heap) (gs : GlobalSpec) (steps0 : List Step) (st : CronState)
    (i : Nat) (job : Job) (err : String)
    (hst : st = (run lv parses gc vc h gs CronState.init steps0).1)
    (hjob : st.Cron.get? i = some job)
    (hfail : vc.Create st.trace job.link.TokenSpec = .error err) :
    fire gc vc h st job =
      ({ st with trace := st.trace ++
          [.tokenCreate (firingTarget st job) job.link.TokenSpec, .logError err] }, .next) ∧
    (lv = .perIteration → OwnProject h gs st job ∧ firingTarget st job = job.addedFor) ∧
    ∃ a, job.link.RepositorySpec = some a ∧
      (∀ st2 token, st2.vars[job.projectVar]? = st.vars[job.projectVar]? →
        vc.Create st2.trace job.link.TokenSpec = .ok token →
        fire gc vc h st2 job =
          ({ st2 with
              trace := UpdateToken gc (firingTarget st job) (h.read a).BuildKey token
                (st2.trace ++ [.tokenCreate (firingTarget st job) job.link.TokenSpec]) },
            .next)) ∧
      ∀ steps1,
        (run lv parses gc vc h gs (fire gc vc h st job).1 steps1).1.Cron.get? i = some job ∧
        (run lv parses gc vc h gs (fire gc vc h st job).1 steps1).1.vars[job.projectVar]? =
          st.vars[job.projectVar]? := by
  have hfire : fire gc vc h st job =
      ({ st with trace := st.trace ++
          [.tokenCreate (firingTarget st job) job.link.TokenSpec, .logError err] }, .next) := by
    unfold fire
    simp only [hfail, firingTarget]
    simp
  have hmem0 : job ∈ st.Cron := List.get?_mem hjob
  obtain ⟨-, -, added0, hc0, hj0⟩ := run_vars lv parses gc vc h gs steps0 CronState.init 0
    (Nat.zero_le _)
  rw [← hst] at hc0 hj0
  simp only [CronState.init, List.nil_append] at hc0
  obtain ⟨hpv, hrs⟩ := hj0 job (hc0 ▸ hmem0)
  obtain ⟨a, ha⟩ := Option.ne_none_iff_exists.1 hrs
  have hilt : i < st.Cron.length := by
    rw [List.get?_eq_getElem?] at hjob
    exact (List.getElem?_eq_some_iff.1 hjob).1
  refine ⟨hfire, ?_, a, ha.symm, ?_, ?_⟩
  · intro hlv
    subst hlv
    have hown := run_own parses gc vc h gs steps0 CronState.init
      (fun j hj => by simp [CronState.init] at hj) job (hst ▸ hmem0)
    rw [← hst] at hown
    exact ⟨hown, firingTarget_own h gs st job hown⟩
  · intro st2 token hvars hok
    have ht2 : (st2.vars.getD job.projectVar { ID := 0, PathWithNamespace := "" }).ID =
        firingTarget st job := by
      simp only [firingTarget, List.getD_eq_getElem?_getD, hvars]
    unfold fire
    simp only [hok, ← ha, ht2]
  · intro steps1
    rw [hfire]
    simp only []
    generalize firingTarget st job = P
    obtain ⟨-, hkeep, added1, hc1, -⟩ := run_vars lv parses gc vc h gs steps1
      { st with trace := st.trace ++ [.tokenCreate P job.link.TokenSpec, .logError err] }
      st.vars.length (Nat.le_refl _)
    simp only at hkeep hc1
    refine ⟨?_, hkeep job.projectVar hpv⟩
    rw [hc1, List.get?_eq_getElem?, List.getElem?_append_left hilt, ← List.get?_eq_getElem?]
    exact hjob

/-- Witness for C14: the group lists the projects 41 and 42, and the third
call of the issuer fails.  With a variable for each round, the first tick
schedules an entry for each; the first firing of the entry added for 41 fails
and changes nothing but the events; its second firing succeeds and syncs
"APP_TOKEN" on project 41. -/
theorem failed_renewal_keeps_job_witness :
    pairTick .perIteration = (run .perIteration parseDurationOk twoProjectPlatform
      renewFlakyVault pairLoaded.heap pairLoaded.spec CronState.init [.tick]).1 ∧
    (pairTick .perIteration).Cron.get? 0 = some appJob ∧
    renewFlakyVault.Create (pairTick .perIteration).trace appJob.link.TokenSpec =
      .error "connection refused" ∧
    fire twoProjectPlatform renewFlakyVault pairLoaded.heap (pairTick .perIteration) appJob =
      ({ pairTick .perIteration with
          trace := (pairTick .perIteration).trace ++
            [.tokenCreate (firingTarget (pairTick .perIteration) appJob) appJob.link.TokenSpec,
              .logError "connection refused"] }, .next) ∧
    firingTarget (pairTick .perIteration) appJob = appJob.addedFor ∧
    appJob.addedFor = 41 ∧
    (run .perIteration parseDurationOk twoProjectPlatform renewFlakyVault pairLoaded.heap
      pairLoaded.spec CronState.init [.tick, .fire 0, .fire 0]).1.trace.drop 8 =
      [.tokenCreate 41 (some ciToken), .logError "connection refused",
        .tokenCreate 41 (some ciToken), .updateBuildVariable 41 "APP_TOKEN" "s.1",
        .logInfo "APP_TOKEN Updated for project 41"] ∧
    (run .perIteration parseDurationOk twoProjectPlatform renewFlakyVault pairLoaded.heap
      pairLoaded.spec CronState.init [.tick, .fire 0, .fire 0]).1.Cron =
      [appJob, apiJob .perIteration] ∧
    (run .perIteration parseDurationOk twoProjectPlatform renewFlakyVault pairLoaded.heap
      pairLoaded.spec CronState.init [.tick, .fire 0, .fire 0]).1.CronMap = [42, 41] :=
  ⟨by decide, by decide, by decide,
    (failed_renewal_keeps_job .perIteration parseDurationOk twoProjectPlatform renewFlakyVault
      pairLoaded.heap pairLoaded.spec [.tick] (pairTick .perIteration) 0 appJob
      "connection refused" (by decide) (by decide) (by decide)).1,
    ((failed_renewal_keeps_job .perIteration parseDurationOk twoProjectPlatform renewFlakyVault
      pairLoaded.heap pairLoaded.spec [.tick] (pairTick .perIteration) 0 appJob
      "connection refused" (by decide) (by decide) (by decide)).2.1 rfl).2,
    by decide, by decide, by decide, by decide⟩

end VaultGitlabLink
